import Mathlib

/-!
Verification development for the anfw-automate rule-compilation and
reconciliation engine.

The Python sources under `src/app` are shallowly embedded as pure Lean
functions.  Strings are modelled as `List Char` (`Str`); machine integers
as `Nat` with explicit reduction `% 2^32` where the source relies on
32-bit wraparound (MD5).  Fallible code paths (Python exceptions) are
modelled with `Except`/`Option`.  Cloud state (rule groups, firewall
policies) is an explicit `FwState` value threaded through the reconciler
functions; the vendor API calls (describe / update / create / delete)
become reads and functional updates of that state.  Randomness (`sid`
draws, fresh resource names) and the wall clock are modelled as explicit
parameters, one draw per use, exactly where the source draws them.
-/

namespace Anfw

/-- Strings of the embedded programs, as explicit character lists. -/
abbrev Str := List Char

/-- ASCII lower-casing of one character, as Python `str.lower` acts on the
ASCII range (all inputs considered here are ASCII). -/
def lowerChar (c : Char) : Char :=
  if 'A' ≤ c ∧ c ≤ 'Z' then Char.ofNat (c.toNat + 32) else c

/-- Python `s.lower()` restricted to ASCII. -/
def lowerStr (s : Str) : Str := s.map lowerChar

/-- ASCII upper-casing of one character (Python `str.upper` on ASCII). -/
def upperChar (c : Char) : Char :=
  if 'a' ≤ c ∧ c ≤ 'z' then Char.ofNat (c.toNat - 32) else c

/-- Python `s.upper()` restricted to ASCII. -/
def upperStr (s : Str) : Str := s.map upperChar

/-- Python `s.replace(" ", "")`: drop every space character. -/
def dropSpaces (s : Str) : Str := s.filter (fun c => c ≠ ' ')

/-- Split a character list at every occurrence of the separator `c`;
mirrors Python `s.split(c)` for a one-character separator (and also
`String.splitOn`): `split '-' "" = [""]`, `split '-' "a-" = ["a", ""]`. -/
def splitCh (sep : Char) : Str → List Str
  | [] => [[]]
  | c :: cs =>
    if c = sep then [] :: splitCh sep cs
    else match splitCh sep cs with
      | [] => [[c]]
      | r :: rs => (c :: r) :: rs

/-- Join with a one-character separator; mirrors Python `sep.join(xs)`. -/
def joinCh (sep : Char) : List Str → Str
  | [] => []
  | [x] => x
  | x :: xs => x ++ sep :: joinCh sep xs

/-- Everything after the first occurrence of `sep`; mirrors Python
`s.split(sep, maxsplit=1)[1]`.  `none` models the `IndexError` raised
when the separator is absent. -/
def afterFirst (sep : Char) : Str → Option Str
  | [] => none
  | c :: cs => if c = sep then some cs else afterFirst sep cs

/-- Python `sub in s` (substring containment). -/
def containsSub (pat : Str) : Str → Bool
  | [] => pat.isPrefixOf []
  | c :: cs => pat.isPrefixOf (c :: cs) || containsSub pat cs

/-- Python `s.strip(chars)`: remove characters of `chars` from both ends. -/
def stripChars (chars : Str) (s : Str) : Str :=
  ((s.dropWhile (fun c => chars.contains c)).reverse.dropWhile
    (fun c => chars.contains c)).reverse

/-- Decimal digits as characters, least significant first; helper for
`natToStr`. -/
def natDigitsRev (fuel n : Nat) : Str :=
  match fuel with
  | 0 => []
  | fuel + 1 =>
    if n < 10 then [Char.ofNat (48 + n)]
    else Char.ofNat (48 + n % 10) :: natDigitsRev fuel (n / 10)

/-- Decimal rendering of a natural number (Python `str(n)`). -/
def natToStr (n : Nat) : Str := (natDigitsRev (n + 1) n).reverse

/-- UTF-8 encoding of one character, as Python `str.encode()` produces it. -/
def utf8Bytes (c : Char) : List Nat :=
  let n := c.toNat
  if n < 128 then [n]
  else if n < 2048 then [192 + n / 64, 128 + n % 64]
  else if n < 65536 then
    [224 + n / 4096, 128 + n / 64 % 64, 128 + n % 64]
  else
    [240 + n / 262144, 128 + n / 4096 % 64, 128 + n / 64 % 64, 128 + n % 64]

/-- UTF-8 encoding of a string (Python `s.encode()`). -/
def utf8Encode (s : Str) : List Nat := s.flatMap utf8Bytes

/-! ### MD5

Executable embedding of the MD5 digest, used by the source through
`hashlib.md5(x.encode()).hexdigest()`.  Words are `Nat` values reduced
modulo `2^32`. -/

/-- Reduce to a 32-bit word. -/
def u32 (n : Nat) : Nat := n % 4294967296

/-- 32-bit left rotation. -/
def rotl32 (x n : Nat) : Nat :=
  u32 (x * 2 ^ n) + x / 2 ^ (32 - n)

/-- Bitwise complement on 32 bits. -/
def not32 (x : Nat) : Nat := 4294967295 ^^^ x

/-- The 64 MD5 sine-derived constants. -/
def md5K : List Nat :=
  [3614090360, 3905402710, 606105819, 3250441966,
   4118548399, 1200080426, 2821735955, 4249261313,
   1770035416, 2336552879, 4294925233, 2304563134,
   1804603682, 4254626195, 2792965006, 1236535329,
   4129170786, 3225465664, 643717713, 3921069994,
   3593408605, 38016083, 3634488961, 3889429448,
   568446438, 3275163606, 4107603335, 1163531501,
   2850285829, 4243563512, 1735328473, 2368359562,
   4294588738, 2272392833, 1839030562, 4259657740,
   2763975236, 1272893353, 4139469664, 3200236656,
   681279174, 3936430074, 3572445317, 76029189,
   3654602809, 3873151461, 530742520, 3299628645,
   4096336452, 1126891415, 2878612391, 4237533241,
   1700485571, 2399980690, 4293915773, 2240044497,
   1873313359, 4264355552, 2734768916, 1309151649,
   4149444226, 3174756917, 718787259, 3951481745]

/-- The 64 MD5 per-round shift amounts. -/
def md5S : List Nat :=
  [7, 12, 17, 22, 7, 12, 17, 22, 7, 12, 17, 22, 7, 12, 17, 22,
   5, 9, 14, 20, 5, 9, 14, 20, 5, 9, 14, 20, 5, 9, 14, 20,
   4, 11, 16, 23, 4, 11, 16, 23, 4, 11, 16, 23, 4, 11, 16, 23,
   6, 10, 15, 21, 6, 10, 15, 21, 6, 10, 15, 21, 6, 10, 15, 21]

/-- Split a byte list into the sixteen little-endian 32-bit words of one
512-bit MD5 chunk. -/
def md5Words : List Nat → List Nat
  | b0 :: b1 :: b2 :: b3 :: rest =>
    (b0 + 256 * b1 + 65536 * b2 + 16777216 * b3) :: md5Words rest
  | _ => []

/-- One MD5 round: `i` is the round index, `m` the chunk words. -/
def md5Round (m : List Nat) (st : Nat × Nat × Nat × Nat) (i : Nat) :
    Nat × Nat × Nat × Nat :=
  let (a, b, c, d) := st
  let f :=
    if i < 16 then (b &&& c) ||| (not32 b &&& d)
    else if i < 32 then (d &&& b) ||| (not32 d &&& c)
    else if i < 48 then b ^^^ c ^^^ d
    else c ^^^ (b ||| not32 d)
  let g :=
    if i < 16 then i
    else if i < 32 then (5 * i + 1) % 16
    else if i < 48 then (3 * i + 5) % 16
    else (7 * i) % 16
  let f := u32 (f + a + (md5K.getD i 0) + m.getD g 0)
  (d, u32 (b + rotl32 f (md5S.getD i 0)), b, c)

/-- Process one 64-byte chunk against the running state. -/
def md5Chunk (st : Nat × Nat × Nat × Nat) (chunk : List Nat) :
    Nat × Nat × Nat × Nat :=
  let m := md5Words chunk
  let (a, b, c, d) :=
    (List.range 64).foldl (md5Round m) st
  (u32 (st.1 + a), u32 (st.2.1 + b), u32 (st.2.2.1 + c), u32 (st.2.2.2 + d))

/-- Group a byte list into 64-byte chunks. -/
def chunks64 (fuel : Nat) (bs : List Nat) : List (List Nat) :=
  match fuel with
  | 0 => []
  | fuel + 1 =>
    if bs.length ≤ 64 then [bs]
    else bs.take 64 :: chunks64 fuel (bs.drop 64)

/-- MD5 padding: a `0x80` byte, zeros to 56 mod 64, then the bit length
as a 64-bit little-endian integer. -/
def md5Pad (bs : List Nat) : List Nat :=
  let len := bs.length
  let padLen := (55 + 64 - len % 64) % 64 + 1
  let bitLen := 8 * len % 18446744073709551616
  bs ++ 128 :: List.replicate (padLen - 1) 0 ++
    (List.range 8).map (fun i => bitLen / 256 ^ i % 256)

/-- One byte, little-end first, of a 32-bit word. -/
def wordBytes (w : Nat) : List Nat :=
  [w % 256, w / 256 % 256, w / 65536 % 256, w / 16777216 % 256]

/-- Hexadecimal digit characters. -/
def hexDigit (n : Nat) : Char :=
  if n < 10 then Char.ofNat (48 + n) else Char.ofNat (87 + n)

/-- Lower-case hex rendering of one byte. -/
def byteHex (b : Nat) : Str := [hexDigit (b / 16), hexDigit (b % 16)]

/-- `hashlib.md5(bs).hexdigest()` on a byte list. -/
def md5HexBytes (bs : List Nat) : Str :=
  let padded := md5Pad bs
  let (a, b, c, d) :=
    (chunks64 (padded.length + 1) padded).foldl md5Chunk
      (1732584193, 4023233417, 2562383102, 271733878)
  (wordBytes a ++ wordBytes b ++ wordBytes c ++ wordBytes d).flatMap byteHex

/-- `hashlib.md5(s.encode()).hexdigest()` on a string. -/
def md5Hex (s : Str) : Str := md5HexBytes (utf8Encode s)

/-- `hashlib.md5(s.encode()).hexdigest()[:10]`, the 10-hex-digit digest
every rule name is built from. -/
def hash10 (s : Str) : Str := (md5Hex s).take 10

/-! ### `src/app/lib/rule_config.py` — `ConfigEntry` -/

/-- The reserved Suricata meta-keywords of `rule_config.py`. -/
def RESERVED_META_KEYWORDS : List Str :=
  ["msg".data, "sid".data, "rev".data, "gid".data, "classtype".data,
   "reference".data, "priority".data, "metadata".data, "target".data]

/-- Modelled from the spec: the bundled file `data/protocols.yaml`
(`PredfinedRuleProtocols`) is not among the sources under verification.
Spec §4.1/§6 give the predefined table entries `https → tls.sni` and
`http → http.host`. -/
def predefinedRuleProtocols : List (Str × Str) :=
  [("https".data, "tls.sni".data), ("http".data, "http.host".data)]

/-- Modelled from the spec: the `CustomRuleProtocols` list of
`data/protocols.yaml` is not among the sources; §4.1/§8 name the custom
Suricata protocol keywords `tls.sni` and `http.host`. -/
def customRuleProtocols : List Str := ["tls.sni".data, "http.host".data]

/-- `ConfigEntry.__init__`: predefined keys followed by custom protocols. -/
def allowedProtocols : List Str :=
  predefinedRuleProtocols.map (·.1) ++ customRuleProtocols

/-- `ConfigEntry.__init__`: `self.priority` is `"priority:100;"` exactly
when the environment variable `RULE_ORDER` is `DEFAULT_ACTION_ORDER`,
else the empty string (`DEFAULT_PRIORITY = 100`). -/
def priorityOf (ruleOrder : Str) : Str :=
  if ruleOrder = "DEFAULT_ACTION_ORDER".data then "priority:100;".data else []

/-- Errors of `ConfigEntry`: `formatError` is `ConfigEntry.FormatError`,
`notSupportedProtocol` is `ConfigEntry.NotSupportedProtocol`, and
`internalError` stands for any other Python exception (for example an
`IndexError`).  The message payloads are not modelled. -/
inductive CfgErr where
  | formatError
  | notSupportedProtocol
  | internalError
deriving DecidableEq, Repr

/-- `ConfigEntry._is_valid_domain` compiles the f-string
`rf"^\.[a-zA-Z]{2,}$"`.  Python f-string interpolation evaluates the
brace field as the tuple `(2,)`, so the pattern actually used is
`^\.[a-zA-Z](2,)$`: a dot, one ASCII letter, then the group `(2,)`,
which matches the literal two characters `2,` (the parentheses only
delimit the group; they match no text).  `re.match` anchors at the
start and `$` also matches just before one final newline.  This
predicate is that (mangled) match: exactly `.`, a letter, `2`, `,`,
and optionally a final newline. -/
def loneTldMatch (s : Str) : Bool :=
  match s with
  | '.' :: c :: '2' :: ',' :: rest =>
    c.isAlpha && (rest = [] || rest = ['\n'])
  | _ => false

/-- `ConfigEntry._is_valid_domain`: `not bool(re.match(...))`. -/
def isValidDomain (s : Str) : Bool := ! loneTldMatch s

/-- `re.match(r"^.+:\d+$", domain)` of `_generate_predefined_rule`.
`.` and `\d` never match a newline and `$` may stand before one final
newline, so with greedy backtracking the pattern matches exactly when the
(newline-stripped) string is newline-free and the suffix after its last
colon is a nonempty digit string, with a nonempty part before the colon. -/
def portSuffixMatch (s : Str) : Bool :=
  let t := if s.getLast? = some '\n' then s.dropLast else s
  let parts := splitCh ':' t
  decide (2 ≤ parts.length) && decide (parts.getLastD [] ≠ []) &&
    (parts.getLastD []).all Char.isDigit &&
    decide (joinCh ':' parts.dropLast ≠ []) && ! t.contains '\n'

/-- `ConfigEntry._protocol_selector`: table lookup after lower-casing;
`none` models `NotSupportedProtocol`. -/
def protocolSelector (protocol : Str) : Option Str :=
  ((predefinedRuleProtocols).find? (fun p => p.1 = lowerStr protocol)).map (·.2)

/-- Python `sep.join(st)` for two strings: `sep` between the characters
of `st`.  `_generate_predefined_rule` computes `domain.join(protocol)`
as its hash input. -/
def pyStrJoin (sep : Str) : Str → Str
  | [] => []
  | [c] => [c]
  | c :: cs => c :: (sep ++ pyStrJoin sep cs)

/-- `ConfigEntry._generate_predefined_rule`.  `sid` is the draw the source
takes from `random.randrange(10, 1000000, 3)`, made an explicit argument.
Returns the `(rule_name, rule_string)` pair stored into `self.rules`. -/
def generatePredefinedRule (account vpc ruleOrder protocol domain : Str)
    (sid : Nat) : Except CfgErr (Str × Str) :=
  match protocolSelector protocol with
  | none => .error .notSupportedProtocol
  | some sRule =>
    let sProto := (splitCh '.' sRule).headD []
    let ruleName := account ++ '-' :: (vpc ++ '-' :: hash10 (pyStrJoin domain protocol))
    let domPort :=
      if portSuffixMatch domain then
        ((splitCh ':' domain).headD [], (splitCh ':' domain).getLastD [])
      else (domain, "any".data)
    if isValidDomain domPort.1 then
      let mid :=
        if domPort.1.head? = some '.' then
          sRule ++ "; dotprefix; content:\"".data ++ domPort.1 ++
            "\"; endswith; ".data
        else
          sRule ++ "; content:\"".data ++ domPort.1 ++
            "\"; startswith; endswith; ".data
      let policy :=
        "pass ".data ++ sProto ++ " $a".data ++ account ++ vpc ++
          " any -> $EXTERNAL_NET ".data ++ domPort.2 ++ " (".data ++ mid ++
          priorityOf ruleOrder ++ "flow:to_server, established; ".data ++
          "sid:".data ++ natToStr sid ++ "; rev:1; ".data ++
          "metadata: rule_name ".data ++ ruleName ++ ";)".data
      .ok (ruleName, policy)
    else .error .formatError

/-- `re.search(r"\((.*)\)$", rule)`: since `.` does not cross newlines and
`$` may stand before one final newline, a match runs from the first `(`
of the final line to the `)` closing the string.  Helper scanning for the
leftmost such `(`; returns (text before the match, group 1). -/
def optionsSpanGo (pre : Str) : Str → Option (Str × Str)
  | [] => none
  | c :: cs =>
    if c = '(' && decide (cs ≠ []) && ! cs.dropLast.contains '\n' then
      some (pre.reverse, cs.dropLast)
    else optionsSpanGo (c :: pre) cs

/-- `re.search(r"\((.*)\)$", rule)`: returns (text before the match,
group 1, text after the match — the one final newline `$` skipped,
if any).  Group 0 is `'(' :: group1 ++ [')']`. -/
def optionsSpan (rule : Str) : Option (Str × Str × Str) :=
  let strip := rule.getLast? = some '\n'
  let t := if strip then rule.dropLast else rule
  if t.getLast? = some ')' then
    (optionsSpanGo [] t).map (fun p => (p.1, p.2, if strip then ['\n'] else []))
  else none

/-- Python whitespace test (the class `\s` of `re`, and `str.split()`). -/
def isPySpace (c : Char) : Bool :=
  c = ' ' || c = '\t' || c = '\n' || c = '\r' || c = '\x0b' || c = '\x0c'

/-- Split at every character satisfying `p` (generalizing `splitCh`). -/
def splitP (p : Char → Bool) : Str → List Str
  | [] => [[]]
  | c :: cs =>
    if p c then [] :: splitP p cs
    else match splitP p cs with
      | [] => [[c]]
      | r :: rs => (c :: r) :: rs

/-- Python `s.split()`: split on whitespace runs, dropping empties. -/
def pySplitWs (s : Str) : List Str := (splitP isPySpace s).filter (· ≠ [])

/-- Characters the regex class `\w` accepts (ASCII). -/
def isWordChar (c : Char) : Bool := c.isAlphanum || c = '_'

/-- Strip a literal from the front, returning the remainder. -/
def stripLit (lit s : Str) : Option Str :=
  if lit.isPrefixOf s then some (s.drop lit.length) else none

/-- Strip one character satisfying `p` from the front. -/
def stripOne (p : Char → Bool) : Str → Option Str
  | [] => none
  | c :: cs => if p c then some cs else none

/-- The sub-pattern `(any|\d(1, 5))` of the custom-rule base regex.  In
the source the pattern is an f-string, so the brace field `{1,5}`
evaluates to the tuple `(1, 5)` and the compiled pattern demands a single
digit followed by the group `(1, 5)`, whose parentheses delimit the group
and match no text: the group matches the literal four characters `1, 5`
(digit one, comma, space, digit five).  The alternatives start with
distinct characters, so no backtracking across them is possible. -/
def portAlt (s : Str) : Option Str :=
  (stripLit "any".data s) <|>
    (stripOne Char.isDigit s >>= stripLit "1, 5".data)

/-- The trailing sub-pattern `(\(.*\)$)`: an opening parenthesis, then
(greedy, newline-free) anything up to a final `)`, where `$` may stand
before one last newline. -/
def parenTail (s : Str) : Bool :=
  match s with
  | '(' :: cs =>
    let t := if cs.getLast? = some '\n' then cs.dropLast else cs
    t.getLast? = some ')' && ! t.dropLast.contains '\n'
  | _ => false

/-- Alternative 4 of the custom-rule base pattern, matched at the given
position of the (already lower-cased) rule:
`http.host\s\$a(\w*)\s(any|\d(1, 5))\s(->|<>)\s\$EXTERNAL_NET\s(any|(\d(1, 5)))\s(\(.*\)$)`.
`\w*` is greedy and `\s` is disjoint from `\w`, so the maximal word run
is the only candidate. -/
def customTailAt (s : Str) : Bool :=
  (do
    let s ← stripLit "http".data s
    let s ← stripOne (fun c => c ≠ '\n') s
    let s ← stripLit "host".data s
    let s ← stripOne isPySpace s
    let s ← stripLit "$a".data s
    let s := s.dropWhile isWordChar
    let s ← stripOne isPySpace s
    let s ← portAlt s
    let s ← stripOne isPySpace s
    let s ← stripLit "->".data s <|> stripLit "<>".data s
    let s ← stripOne isPySpace s
    let s ← stripLit "$external_net".data s
    let s ← stripOne isPySpace s
    let s ← portAlt s
    let s ← stripOne isPySpace s
    pure s).elim false parenTail

/-- The pattern `tls.sni` (with `.` the any-but-newline wildcard) matched
at the given position. -/
def tlsSniAt (s : Str) : Bool :=
  ((stripLit "tls".data s >>= stripOne (fun c => c ≠ '\n')) >>=
    stripLit "sni".data).isSome

/-- The custom-rule base-format check of `_validate_custom_rule_format`:
`re.search(rf"^(pass)\s{...}\s\$a(\w*)\s...", rulestring, re.IGNORECASE)`.
Because the f-string splices `'|'.join(allowed_protocols)` without
parentheses, the alternation is top-level: the compiled pattern is
`^(pass)\shttps | http | tls.sni | http.host\s\$a(\w*)\s...(\(.*\)$)`,
and `re.search` succeeds when any alternative matches anywhere (the
first alternative being anchored by `^` to the start). -/
def customBaseSearch (rulestring : Str) : Bool :=
  let low := lowerStr rulestring
  -- ^(pass)\shttps
  ((do
    let s ← stripLit "pass".data low
    let s ← stripOne isPySpace s
    stripLit "https".data s).isSome) ||
  -- http (anywhere)
  containsSub "http".data low ||
  -- tls.sni (anywhere)
  low.tails.any tlsSniAt ||
  -- http.host\s\$a(\w*)\s...(\(.*\)$) (anywhere)
  low.tails.any customTailAt

/-- The lazy search `re.search(r"content:(.*?);", s)`: at the leftmost
position where `content:` is followed (newline-free) by a `;`, the group
is everything up to that first `;`. -/
def takeUntilSemi : Str → Option Str
  | [] => none
  | ';' :: _ => some []
  | '\n' :: _ => none
  | c :: cs => (takeUntilSemi cs).map (c :: ·)

/-- Scanner for `contentField`. -/
def contentFieldGo : Str → Option Str
  | [] => none
  | c :: cs =>
    if "content:".data.isPrefixOf (c :: cs) then
      match takeUntilSemi ((c :: cs).drop 8) with
      | some g => some g
      | none => contentFieldGo cs
    else contentFieldGo cs

/-- Group 1 of `re.search(r"content:(.*?);", s)`. -/
def contentField (s : Str) : Option Str := contentFieldGo s

/-- `ConfigEntry._validate_custom_rule_format`; `.ok ()` means the source
returned `True`, each `throw .formatError` is one of its raises, and
`internalError` is the `IndexError` when `rulestring.split()` has fewer
than three tokens. -/
def validateCustomRuleFormat (account vpc rulestring ruleoptions : Str) :
    Except CfgErr Unit :=
  let stripped := dropSpaces ruleoptions
  let protocolKey := stripChars "()".data ((splitCh ';' stripped).headD [])
  if ! customBaseSearch rulestring then
    .error .formatError   -- Invalid Base Format
  else match contentField stripped with
  | none => .error .formatError   -- Content keyword missing
  | some content =>
    if (protocolKey = "tls.sni".data ∨ protocolKey = "http.host".data) ∧
        ! isValidDomain (stripChars "'\"".data content) then
      .error .formatError   -- Domain contains only TLD
    else match (pySplitWs rulestring).get? 2 with
    | none => .error .internalError   -- IndexError on rulestring.split()[2]
    | some tok =>
      if tok ≠ '$' :: 'a' :: (account ++ vpc) then
        .error .formatError   -- Invalid IPSet Variable Name
      else if RESERVED_META_KEYWORDS.any
          (fun kw => containsSub (kw ++ [':']) stripped) then
        .error .formatError   -- Reserved keywords found
      else .ok ()

/-- `ConfigEntry._generate_custom_rule`.  `sid` is the explicit
`random.randrange(10, 1000000, 3)` draw.  The `re.sub` that rewrites the
options block is modelled literally (the tenant options contain no
backslash escape sequences). -/
def generateCustomRule (account vpc ruleOrder rule : Str) (sid : Nat) :
    Except CfgErr (Str × Str) :=
  match optionsSpan rule with
  | none => .error .formatError   -- Missing Rule options
  | some (pre, g1, suf) =>
    match validateCustomRuleFormat account vpc rule ('(' :: g1 ++ [')']) with
    | .error e => .error e
    | .ok _ =>
      let ruleName := account ++ '-' :: (vpc ++ '-' :: hash10 rule)
      let newRuleOptions :=
        '(' :: g1 ++ priorityOf ruleOrder ++ "sid:".data ++ natToStr sid ++
          ";rev:1;".data ++ "metadata: rule_name ".data ++ ruleName ++ ";)".data
      .ok (ruleName, pre ++ newRuleOptions ++ suf)

/-- `ConfigEntry.add_rule_entry`: dispatch on whether the key is one of
the predefined protocols; predefined rule specs are lower-cased and
space-stripped before generation. -/
def addRuleEntryCfg (account vpc ruleOrder ruleKey rule : Str) (sid : Nat) :
    Except CfgErr (Str × Str) :=
  if predefinedRuleProtocols.any (fun p => p.1 = ruleKey) then
    generatePredefinedRule account vpc ruleOrder ruleKey
      (dropSpaces (lowerStr rule)) sid
  else
    generateCustomRule account vpc ruleOrder rule sid

/-- Whether an `Except` value is a success. -/
def exceptOk : Except ε α → Bool
  | .ok _ => true
  | .error _ => false

instance [DecidableEq ε] [DecidableEq α] : DecidableEq (Except ε α) := fun a b =>
  match a, b with
  | .ok x, .ok y =>
    if h : x = y then .isTrue (by rw [h]) else
      .isFalse (fun hc => by cases hc; exact h rfl)
  | .error x, .error y =>
    if h : x = y then .isTrue (by rw [h]) else
      .isFalse (fun hc => by cases hc; exact h rfl)
  | .ok _, .error _ => .isFalse (fun hc => by cases hc)
  | .error _, .ok _ => .isFalse (fun hc => by cases hc)

/-! ### `src/app/RuleCollect/event_handler.py` — `EventHandler` -/

/-- Errors of `EventHandler` (`FormatError`, `InternalError`). -/
inductive EvtErr where
  | formatError
  | internalError
deriving DecidableEq, Repr

/-- The alternatives of the region sub-pattern head `us(-gov)?|ap|ca|cn|eu|sa`,
in regex backtracking order (the greedy optional `-gov` first). -/
def regionHeads : List Str :=
  ["us-gov".data, "us".data, "ap".data, "ca".data, "cn".data, "eu".data,
   "sa".data]

/-- The alternatives of `central|(north|south)?(east|west)?` in regex
backtracking order; both groups are optional, so the last alternative is
the empty string. -/
def regionMids : List Str :=
  ["central".data, "northeast".data, "northwest".data, "north".data,
   "southeast".data, "southwest".data, "south".data, "east".data,
   "west".data, ([] : Str)]

/-- All parses of the region pattern
`(us(-gov)?|ap|ca|cn|eu|sa)-(central|(north|south)?(east|west)?)-\d`
anchored at the head of `s`, as (matched text, remainder) pairs in regex
backtracking order. -/
def regionParsesAt (s : Str) : List (Str × Str) :=
  regionHeads.flatMap fun h =>
    match (stripLit h s).bind (stripLit "-".data) with
    | none => []
    | some s2 =>
      regionMids.flatMap fun m =>
        match (stripLit m s2).bind (stripLit "-".data) with
        | none => []
        | some s4 =>
          match s4 with
          | c :: s5 => if c.isDigit then [(h ++ '-' :: (m ++ ['-', c]), s5)] else []
          | [] => []

/-- The region-pattern match at the head of `s` that regex backtracking
finds first. -/
def regionMatchAt (s : Str) : Option Str := ((regionParsesAt s).head?).map (·.1)

/-- `re.search` of the region pattern: leftmost match text.  Used by
`EventHandler.get_region_from_string`. -/
def searchRegion : Str → Option Str
  | [] => none
  | c :: cs => (regionMatchAt (c :: cs)).orElse fun _ => searchRegion cs

/-- `EventHandler.get_region_from_string`: `matches[0]`, with the `None`
case (a `TypeError` caught by the bare `except`) re-raised as
`FormatError`. -/
def getRegionFromString (objectKey : Str) : Except EvtErr Str :=
  match searchRegion objectKey with
  | some r => .ok r
  | none => .error .formatError

/-- The tail `-config.(yaml|yml)` of the filename pattern of
`EventHandler.validate_file_name`, matched after a region parse.  The
dot is unescaped in the source, so it matches any character except a
newline, and nothing is anchored after `yaml|yml`. -/
def fileNameTail (s : Str) : Bool :=
  match stripLit "-config".data s with
  | none => false
  | some s1 =>
    match s1 with
    | c :: s2 =>
      c ≠ '\n' &&
        ((stripLit "yaml".data s2).isSome || (stripLit "yml".data s2).isSome)
    | [] => false

/-- The full filename pattern of `validate_file_name`
(`(<region>)-config.(yaml|yml)`) matched at the head of `s`, trying every
region parse as backtracking does. -/
def fileNameMatchAt (s : Str) : Bool :=
  (regionParsesAt s).any fun p => fileNameTail p.2

/-- `EventHandler.validate_file_name`: `re.search` of the (unanchored)
filename pattern — true when any position of the key starts a match. -/
def validateFileName (s : Str) : Bool := s.tails.any fileNameMatchAt

/-- The anchored filename pattern of the spec and the claim,
`^(<aws-region-regex>)-config\.(yaml|yml)$`, stated following the spec's
words: the whole key is a region, then `-config.` with a literal dot,
then `yaml` or `yml`, nothing else. -/
def validFileNameSpec (s : Str) : Bool :=
  (regionParsesAt s).any fun p =>
    (stripLit "-config.".data p.2).elim false fun s6 =>
      s6 = "yaml".data || s6 = "yml".data

/-- Outcome of the filename gate of `collect_lambda.handler` for S3
events: `proceed region` when the key passed `validate_file_name` and the
region was extracted; `skipped` when validation failed — the handler
logs an ERROR line to the tenant log and falls through, emitting no
compilation message and raising nothing. -/
inductive FileGate where
  | proceed (region : Str)
  | skipped
deriving DecidableEq, Repr

/-- The filename gate of `collect_lambda.handler` (lines 134–239): the
branch taken on the object key before any document processing. -/
def collectFileGate (key : Str) : Except EvtErr FileGate :=
  if validateFileName key then
    match getRegionFromString key with
    | .ok r => .ok (.proceed r)
    | .error e => .error e
  else .ok .skipped

/-! ### `src/app/RuleExecute/firewall_handler.py` — `FirewallRuleHandler`

The live firewall of one region is an explicit `FwState`: the rule groups
(`rule_group_collection` plus what `describe_rule_group` returns for each)
and the firewall policies (`policy_collection` plus each
`describe_firewall_policy`).  `delete_rule_group` is asynchronous in the
vendor API — the group enters the `DELETING` state and remains
describable until collected — so deletion is modelled by setting the
status flag, and the handler's collection (which the source never prunes)
stays identified with the `groups` list.  `ConsumedCapacity` is a
vendor-computed per-group value the source only ever reads; it is carried
as a field and not recomputed on update (no claim depends on its
evolution).  Update tokens, the `InvalidTokenException` retry, throttling
and the `LimitExceededException` log-and-continue are concurrency/API
surface with no effect in this single-writer model. -/

/-- `MAX_RULES_PRE_POLICY = 19  # max 20`. -/
def MAX_RULES_PRE_POLICY : Nat := 19

/-- `RULE_GROUP_CAPACITY = 2000`. -/
def RULE_GROUP_CAPACITY : Nat := 2000

/-- One stateful rule group: ARN, the newline-joined `RulesString`, the
`RuleVariables.IPSets` map (name → `Definition` CIDR list, in insertion
order), its `ConsumedCapacity` and its `RuleGroupStatus`. -/
structure RuleGroup where
  arn : Str
  rulesString : Str
  ipSets : List (Str × List Str)
  consumed : Nat
  status : Str
deriving DecidableEq, Repr

/-- One firewall policy: ARN and its `StatefulRuleGroupReferences`
(resource ARNs, in order). -/
structure FwPolicy where
  arn : Str
  refs : List Str
deriving DecidableEq, Repr

/-- The live state of one region. -/
structure FwState where
  groups : List RuleGroup
  policies : List FwPolicy
deriving DecidableEq, Repr

/-- Runtime errors of the reconciler: `typeError` is the `TypeError` of
`matches[0]` when the rule-name regex finds nothing in a line;
`notFound` is a `ResourceNotFoundException` from describing an ARN that
does not exist. -/
inductive RunErr where
  | typeError
  | notFound
deriving DecidableEq, Repr

/-- `FirewallRuleHandler._arn_to_name`: `str(arn).split("/", maxsplit=1)[1]`.
The `IndexError` on an ARN without `/` is not modelled (well-formed states
give every ARN exactly one `/`); such an ARN maps to the empty name. -/
def arnToName (arn : Str) : Str := (afterFirst '/' arn).getD []

/-- Match of the rule-name regex `[0-9]+-[0-9a-zA-Z]+-[0-9a-zA-Z]+` at
the head of `cs`.  Each class is greedy; since `-` belongs to none of
them, the maximal runs are the only candidates. -/
def ruleNameMatchAt (cs : Str) : Option Str :=
  let (d, r1) := cs.span Char.isDigit
  if d.isEmpty then none
  else match r1 with
    | '-' :: r2 =>
      let (a1, r3) := r2.span Char.isAlphanum
      if a1.isEmpty then none
      else match r3 with
        | '-' :: r4 =>
          let (a2, _) := r4.span Char.isAlphanum
          if a2.isEmpty then none
          else some (d ++ '-' :: (a1 ++ '-' :: a2))
        | _ => none
    | _ => none

/-- Leftmost match of the rule-name regex (`re.search`). -/
def searchRuleName : Str → Option Str
  | [] => none
  | c :: cs =>
    match ruleNameMatchAt (c :: cs) with
    | some m => some m
    | none => searchRuleName cs

/-- `FirewallRuleHandler._get_rule_name_from_rule_string`: `matches[0]`.
`none` models the `TypeError` the source raises when the search fails
(for example on an empty line). -/
def getRuleNameFromRuleString (suricataRule : Str) : Option Str :=
  searchRuleName suricataRule

/-- `FirewallRuleHandler._get_rule_entries`: for every ARN of the
collection, split the described `RulesString` on `\n` — without
filtering empty lines — and pair each line with its group ARN.  (The
source's early return when a describe response carries no `RuleGroup`
key never fires here: every modelled group carries its data.  The
returned update token is concurrency surface and dropped.) -/
def getRuleEntries (s : FwState) : List (Str × Str) :=
  s.groups.flatMap fun g =>
    (splitCh '\n' g.rulesString).map fun line => (g.arn, line)

/-- Annotate entries with their extracted rule names, failing at the
first line the rule-name regex does not match — as the sequential
extraction loops of the source do. -/
def namedEntries : List (Str × Str) → Except RunErr (List (Str × Str × Str))
  | [] => .ok []
  | e :: es =>
    match getRuleNameFromRuleString e.2 with
    | none => .error .typeError
    | some n =>
      match namedEntries es with
      | .error err => .error err
      | .ok rest => .ok ((e.1, e.2, n) :: rest)

/-- `describe_rule_group` by ARN. -/
def findGroup (s : FwState) (arn : Str) : Option RuleGroup :=
  s.groups.find? fun g => g.arn = arn

/-- `FirewallRuleHandler._get_rule_group`: smallest-fit scan.  Starting
from `lowest_capa = RULE_GROUP_CAPACITY` and the empty ARN, keep the ARN
of each group whose consumed capacity is strictly below the running
minimum, skipping `DELETING` groups and ARNs ending in `reserved`; the
empty string means no group fits. -/
def getRuleGroup (s : FwState) : Str :=
  (s.groups.foldl
    (fun acc g =>
      if g.consumed < acc.1 ∧ g.status ≠ "DELETING".data ∧
          ¬ ("reserved".data.isSuffixOf g.arn) then
        (g.consumed, g.arn)
      else acc)
    (RULE_GROUP_CAPACITY, ([] : Str))).2

/-- The IP-set ensure step of `__add_rule_entry`: replace the definition
of an existing set of that name with `[ip_set_space]`, else append the
set.  The source's three branches (`RuleGroup` missing, `RuleVariables`
missing, `IPSets` present) all reduce to this on the modelled (possibly
empty) set list. -/
def ensureIpSet (name space : Str) (sets : List (Str × List Str)) :
    List (Str × List Str) :=
  if sets.any fun p => p.1 = name then
    sets.map fun p => if p.1 = name then (p.1, [space]) else p
  else sets ++ [(name, [space])]

/-- `update_rule_group` writing a new rules string. -/
def setGroupRules (arn newRules : Str) (s : FwState) : FwState :=
  { s with groups := s.groups.map fun g =>
      if g.arn = arn then { g with rulesString := newRules } else g }

/-- `update_rule_group` writing a new rules string and IP sets. -/
def setGroupRulesIp (arn newRules : Str) (sets : List (Str × List Str))
    (s : FwState) : FwState :=
  { s with groups := s.groups.map fun g =>
      if g.arn = arn then { g with rulesString := newRules, ipSets := sets }
      else g }

/-- `FirewallRuleHandler.__add_rule_entry`.  Returns the updated state
and the ARN result of the source (`some arn`, or `none` for the
"no rule group has room" early return that makes `add_new_rule` create
a fresh group).  The token-conflict retry is concurrency surface. -/
def addRuleEntry (ruleString ipSetSpace ipSetName : Str) (s : FwState) :
    Except RunErr (FwState × Option Str) :=
  match getRuleNameFromRuleString ruleString with
  | none => .error .typeError
  | some newRuleName =>
    match namedEntries (getRuleEntries s) with
    | .error e => .error e
    | .ok named =>
      let hits := named.filter fun t => t.2.2 = newRuleName
      let flagRuleString := ¬ hits.isEmpty
      let ruleArn :=
        if hits.isEmpty then getRuleGroup s
        else ((hits.getLast?).map fun t => t.1).getD []
      if flagRuleString = false ∧ ruleArn = [] then
        .ok (s, none)
      else
        let groupLines := (named.filter fun t => t.1 = ruleArn).map fun t => t.2.1
        let newRules :=
          if flagRuleString then groupLines else groupLines ++ [ruleString]
        let newRuleString := joinCh '\n' newRules
        match findGroup s ruleArn with
        | none => .error .notFound
        | some g =>
          .ok (setGroupRulesIp ruleArn newRuleString
            (ensureIpSet ipSetName ipSetSpace g.ipSets) s, some ruleArn)

/-- Modelled vendor behaviour: the ARN a created rule group receives
(one `/`, the name after it, as `_arn_to_name` expects). -/
def groupArnOf (name : Str) : Str :=
  "arn:aws-model:stateful-rulegroup".data ++ '/' :: name

/-- Modelled vendor behaviour: the ARN a created firewall policy
receives. -/
def policyArnOf (name : Str) : Str :=
  "arn:aws-model:firewall-policy".data ++ '/' :: name

/-- `FirewallRuleHandler._create_new_policy`: a policy whose sole
stateful reference is the group (the stateless default actions carry no
state relevant here).  The source registers the new ARN in its
collection both here and in the caller; the collection is a set, so the
policy appears once. -/
def createNewPolicy (policyName ruleArn : Str) (s : FwState) : FwState :=
  { s with policies := s.policies ++ [⟨policyArnOf policyName, [ruleArn]⟩] }

/-- First-fit scan of `_associate_rule_group_to_policy`: append the
reference to the first policy with at most `MAX_RULES_PRE_POLICY`
references (the source compares with `<=`), `none` when every policy is
full. -/
def associateGo (ruleArn : Str) : List FwPolicy → Option (List FwPolicy)
  | [] => none
  | p :: ps =>
    if p.refs.length ≤ MAX_RULES_PRE_POLICY then
      some ({ p with refs := p.refs ++ [ruleArn] } :: ps)
    else (associateGo ruleArn ps).map (p :: ·)

/-- `FirewallRuleHandler._associate_rule_group_to_policy`.  `policyDraw`
is the `randint(1000, 1000000)` draw used for the new policy name when no
policy has a free slot. -/
def associateRuleGroupToPolicy (ruleArn : Str) (policyDraw : Nat)
    (s : FwState) : FwState :=
  match associateGo ruleArn s.policies with
  | some ps => { s with policies := ps }
  | none => createNewPolicy ("Policy-".data ++ natToStr policyDraw) ruleArn s

/-- `FirewallRuleHandler._create_new_rule_group`: create the group with
the one rule and its IP set, associate it with a policy, and add the new
ARN to the collection.  `ruleGroupName` models the
`_generate_random_name()` clock draw; the requested capacity is
`RULE_GROUP_CAPACITY`, and the consumed capacity the vendor computes for
the fresh group is not tracked (recorded as 0). -/
def createNewRuleGroup (ruleGroupName ruleString ipSetName ipSetSpace : Str)
    (policyDraw : Nat) (s : FwState) : FwState :=
  let arn := groupArnOf ruleGroupName
  let s1 := associateRuleGroupToPolicy arn policyDraw s
  { s1 with groups := s1.groups ++
      [{ arn := arn, rulesString := ruleString,
         ipSets := [(ipSetName, [ipSetSpace])], consumed := 0,
         status := "ACTIVE".data }] }

/-- Remove the first occurrence of `x`. -/
def removeFirst (x : Str) : List Str → List Str
  | [] => []
  | y :: ys => if y = x then ys else y :: removeFirst x ys

/-- `FirewallRuleHandler._disassociate_rule_from_policy`: every policy
drops the first reference matching the ARN (the source breaks out of the
inner loop after one removal and moves to the next policy). -/
def disassociateRuleFromPolicy (ruleArn : Str) (s : FwState) : FwState :=
  { s with policies := s.policies.map fun p =>
      { p with refs := removeFirst ruleArn p.refs } }

/-- The vendor's `delete_rule_group` by name: the named group enters
`DELETING`. -/
def markDeletingByName (name : Str) (s : FwState) : FwState :=
  { s with groups := s.groups.map fun g =>
      if arnToName g.arn = name then { g with status := "DELETING".data }
      else g }

/-- `FirewallRuleHandler._delete_rule_if_exists`: for every collection
ARN whose name matches, disassociate it from all policies and delete the
rule group (the `InvalidOperationException` sleep-retry is API surface). -/
def deleteRuleIfExists (ruleGroupName : Str) (s : FwState) : FwState :=
  s.groups.foldl
    (fun st g =>
      if arnToName g.arn = ruleGroupName then
        markDeletingByName ruleGroupName (disassociateRuleFromPolicy g.arn st)
      else st)
    s

/-- `FirewallRuleHandler._cleanup_ip_sets`: in every group, keep only
the IP sets whose name does not start with `a<account><vpcid>` and write
the group back. -/
def cleanupIpSets (account vpcid : Str) (s : FwState) : FwState :=
  let setNameHead := 'a' :: (account ++ vpcid)
  { s with groups := s.groups.map fun g =>
      { g with ipSets := g.ipSets.filter fun p => ¬ setNameHead.isPrefixOf p.1 } }

/-- `rule_name.split("-", maxsplit=2)[0]`; on the names the extraction
regex produces, the full split agrees on index 0. -/
def accountComponent (name : Str) : Str := ((splitCh '-' name).get? 0).getD []

/-- `rule_name.split("-", maxsplit=2)[1]`; on the names the extraction
regex produces there are at least three parts, and the full split agrees
on index 1. -/
def vpcComponent (name : Str) : Str := ((splitCh '-' name).get? 1).getD []

/-- Python-dict insertion into `existing_account_rules`: replacing the
value of an existing key keeps its position, a new key is appended. -/
def upsertKeepPos (key : Str) (v : Str × Str) :
    List (Str × (Str × Str)) → List (Str × (Str × Str))
  | [] => [(key, v)]
  | (k, w) :: rest =>
    if k = key then (k, v) :: rest else (k, w) :: upsertKeepPos key v rest

/-- The per-group line filter of `_clean_up_rules`: among the freshly
re-read entries of the group `gArn`, keep the lines whose extracted rule
name differs from `target` (extraction failing on any of that group's
lines raises). -/
def keepLines (gArn target : Str) :
    List (Str × Str) → Except RunErr (List Str)
  | [] => .ok []
  | e :: es =>
    if e.1 = gArn then
      match getRuleNameFromRuleString e.2 with
      | none => .error .typeError
      | some n =>
        match keepLines gArn target es with
        | .error err => .error err
        | .ok rest => .ok (if n ≠ target then e.2 :: rest else rest)
    else keepLines gArn target es

/-- One iteration of the delete loop of `_clean_up_rules`: re-read the
rule entries (the race-proofing re-fetch), drop the target rule from its
group's lines, then either update the group or — when no line remains —
disassociate and delete it (the describe's `RuleGroupName` is the ARN's
name part). -/
def cleanUpStep (s : FwState) (meta : Str × Str) : Except RunErr FwState :=
  match getRuleNameFromRuleString meta.2 with
  | none => .error .typeError
  | some target =>
    match keepLines meta.1 target (getRuleEntries s) with
    | .error e => .error e
    | .ok kept =>
      let newRuleString := joinCh '\n' kept
      match findGroup s meta.1 with
      | none => .error .notFound
      | some g =>
        if newRuleString = [] then
          .ok (deleteRuleIfExists (arnToName g.arn) s)
        else
          .ok (setGroupRules meta.1 newRuleString s)

/-- The delete loop of `_clean_up_rules`. -/
def cleanUpLoop : List (Str × Str) → FwState → Except RunErr FwState
  | [], s => .ok s
  | m :: ms, s =>
    match cleanUpStep s m with
    | .error e => .error e
    | .ok s' => cleanUpLoop ms s'

/-- `FirewallRuleHandler._clean_up_rules`.  The event kind is inferred
from argument presence (`DeleteVPC` when both account and vpc are
non-empty, else `DeleteAccount`); scope membership compares only the
vpc component (resp. only the account component) of each extracted rule
name; `existing_account_rules` is a dict keyed by rule name; every entry
whose name is not a key of `rules` is deleted. -/
def cleanUpRules (rules : List (Str × Str)) (account vpcId : Str)
    (s : FwState) : Except RunErr FwState :=
  let eventType : Str :=
    if account ≠ [] ∧ vpcId ≠ [] then "DeleteVPC".data
    else "DeleteAccount".data
  match namedEntries (getRuleEntries s) with
  | .error e => .error e
  | .ok named =>
    let ear := named.foldl
      (fun acc t =>
        if eventType = "DeleteVPC".data then
          if vpcComponent t.2.2 = vpcId then upsertKeepPos t.2.2 (t.1, t.2.1) acc
          else acc
        else
          if accountComponent t.2.2 = account then
            upsertKeepPos t.2.2 (t.1, t.2.1) acc
          else acc)
      []
    let deleteRules :=
      (ear.filter fun kv => ¬ rules.any fun r => r.1 = kv.1).map (·.2)
    cleanUpLoop deleteRules s

/-- The per-rule loop of `add_new_rule`: insert the rule (creating a new
group when no group has room), then run the cleanup pass with the full
map.  `groupNames` and `policyDraws` model the clock-derived
`_generate_random_name()` strings and the `randint` policy-name draws,
one potential draw per iteration. -/
def addNewRuleLoop (account vpcId vpcCidr ipSetName : Str)
    (rules : List (Str × Str)) :
    List (Str × Str) → List Str → List Nat → FwState → Except RunErr FwState
  | [], _, _, s => .ok s
  | (_, ruleString) :: rest, gns, pds, s =>
    match addRuleEntry ruleString vpcCidr ipSetName s with
    | .error e => .error e
    | .ok (s1, arnOpt) =>
      let s2 :=
        match arnOpt with
        | some _ => s1
        | none =>
          createNewRuleGroup (gns.headD []) ruleString ipSetName vpcCidr
            (pds.headD 0) s1
      match cleanUpRules rules account vpcId s2 with
      | .error e => .error e
      | .ok s3 =>
        addNewRuleLoop account vpcId vpcCidr ipSetName rules rest
          gns.tail pds.tail s3

/-- `FirewallRuleHandler.add_new_rule` (the `LimitExceededException`
log-and-back-off is API surface; every other `ClientError` re-raises,
which the `Except` propagation mirrors). -/
def addNewRule (vpcId account : Str) (rules : List (Str × Str))
    (vpcCidr : Str) (groupNames : List Str) (policyDraws : List Nat)
    (s : FwState) : Except RunErr FwState :=
  addNewRuleLoop account vpcId vpcCidr ('a' :: (account ++ vpcId)) rules
    rules groupNames policyDraws s

/-- One compilation message, as `json_to_rule` reads it from the queue
body (`json.loads` of well-formed producer output). -/
structure Message where
  vpc : Str
  account : Str
  region : Str
  cidr : Str
  rules : List (Str × Str)
deriving DecidableEq, Repr

/-- `FirewallRuleHandler.json_to_rule`: the four sequentially tested
event branches.  Python truthiness of the string fields and the rules
dict is non-emptiness.  For `DeleteAccount` the source sweeps every
supported region, re-binding its client per region and applying the
account-scoped cleanup; this model tracks the single region the handler
was constructed for, to which one sweep iteration applies (the
`ResourceNotFoundException` skip is API surface).  Tenant-log writes
carry no state. -/
def jsonToRule (eventType : Str) (m : Message) (groupNames : List Str)
    (policyDraws : List Nat) (s : FwState) : Except RunErr FwState :=
  match
    (if eventType = "Update".data ∧ m.account ≠ [] ∧ m.cidr ≠ [] ∧
        m.vpc ≠ [] ∧ m.region ≠ [] ∧ m.rules ≠ [] then
      addNewRule m.vpc m.account m.rules m.cidr groupNames policyDraws s
    else Except.ok s) with
  | .error e => .error e
  | .ok s1 =>
    match
      (if eventType = "DeleteVpc".data ∧ m.vpc ≠ [] then
        match cleanUpRules [] m.account m.vpc s1 with
        | .error e => .error e
        | .ok s' => .ok (cleanupIpSets m.account m.vpc s')
      else Except.ok s1) with
    | .error e => .error e
    | .ok s2 =>
      match
        (if eventType = "DeleteS3".data ∧ m.account ≠ [] ∧ m.region ≠ [] then
          match cleanUpRules [] m.account [] s2 with
          | .error e => .error e
          | .ok s' => .ok (cleanupIpSets m.account [] s')
        else Except.ok s2) with
      | .error e => .error e
      | .ok s3 =>
        if eventType = "DeleteAccount".data ∧ m.account ≠ [] then
          match cleanUpRules [] m.account [] s3 with
          | .error e => .error e
          | .ok s' => .ok (cleanupIpSets m.account [] s')
        else .ok s3

/-- `FirewallRuleHandler._create_reserved_rules`, one rule: `proto` is
the second whitespace token; when the baked-in rule already has an
options block the source builds the enriched options and calls `re.sub`
but discards its result (line 391), so the rule is appended unchanged;
only rules without an options block receive the
`msg / priority:255 / flow / sid / rev / metadata rule_name` block.
`sid` is the `random.randrange(10, 1000000, 3)` draw. -/
def createReservedRule (fwAccountId fwVpcId rulestring : Str) (sid : Nat) :
    Str :=
  let proto := ((pySplitWs rulestring).get? 1).getD []
  let ruleName := fwAccountId ++ '-' :: (fwVpcId ++ '-' :: hash10 rulestring)
  match optionsSpan rulestring with
  | some _ => rulestring
  | none =>
    rulestring ++ "(msg: \"Drop all ".data ++ upperStr proto ++
      "\"; priority:255; flow:to_server, established; sid:".data ++
      natToStr sid ++ "; rev:1; metadata: rule_name ".data ++ ruleName ++
      ";)".data

/-- `FirewallRuleHandler._create_reserved_rules` over the baked-in
default-deny list (`data/defaultdeny.yaml`, not among the sources; the
list is therefore a parameter), one sid draw per rule. -/
def createReservedRules (fwAccountId fwVpcId : Str) :
    List Str → List Nat → List Str
  | [], _ => []
  | r :: rs, sids =>
    createReservedRule fwAccountId fwVpcId r (sids.headD 0) ::
      createReservedRules fwAccountId fwVpcId rs sids.tail

/-- `FirewallRuleHandler.create_reserved_rule_group`: rebuild the
reserved rules string; update the first collection group whose name ends
in `reserved` — the update passes a `RuleGroup` carrying only the
`RulesSource`, which replaces the previous definition (IP sets
included) — else create a `<clock>-reserved` group (capacity
`RESERVED_RULEGROUP_CAPACITY`) and associate it. -/
def createReservedRuleGroup (fwAccountId fwVpcId : Str) (defaultDeny : List Str)
    (sids : List Nat) (nameDraw : Str) (policyDraw : Nat) (s : FwState) :
    FwState :=
  let ruleString :=
    joinCh '\n' (createReservedRules fwAccountId fwVpcId defaultDeny sids)
  match s.groups.find? (fun g => "reserved".data.isSuffixOf (arnToName g.arn)) with
  | some g =>
    { s with groups := s.groups.map fun h =>
        if h.arn = g.arn then
          { h with rulesString := ruleString, ipSets := [] }
        else h }
  | none =>
    let arn := groupArnOf (nameDraw ++ "-reserved".data)
    let s1 := associateRuleGroupToPolicy arn policyDraw s
    { s1 with groups := s1.groups ++
        [{ arn := arn, rulesString := ruleString, ipSets := [],
           consumed := 0, status := "ACTIVE".data }] }

/-! ### Observations on the live state -/

/-- The lines of one group's rules string. -/
def groupLines (g : RuleGroup) : List Str := splitCh '\n' g.rulesString

/-- All entries annotated with their extracted names (total companion of
`namedEntries` under extractability). -/
def annot (s : FwState) : List (Str × Str × Str) :=
  s.groups.flatMap fun g =>
    (groupLines g).map fun l =>
      (g.arn, l, (getRuleNameFromRuleString l).getD [])

/-- The groups not in the vendor's `DELETING` state: what remains once
asynchronous deletions complete. -/
def liveGroups (s : FwState) : List RuleGroup :=
  s.groups.filter fun g => g.status ≠ "DELETING".data

/-- Every line of every live group's rules string. -/
def liveLines (s : FwState) : List Str :=
  (liveGroups s).flatMap fun g => groupLines g

/-- The extracted rule names of all live lines. -/
def liveNames (s : FwState) : List Str :=
  (liveLines s).filterMap getRuleNameFromRuleString

/-- The live rule names whose rule_name prefix is `<account>-<vpc>-`. -/
def inScopeNames (account vpcId : Str) (s : FwState) : List Str :=
  (liveNames s).filter fun n =>
    (account ++ '-' :: (vpcId ++ ['-'])).isPrefixOf n

/-- Equality of two name lists as sets (decidably). -/
def listSetEq (xs ys : List Str) : Bool :=
  xs.all (fun x => ys.contains x) && ys.all (fun y => xs.contains y)

/-- One group's contribution to `annot`. -/
def annotG (g : RuleGroup) : List (Str × Str × Str) :=
  (groupLines g).map fun l => (g.arn, l, (getRuleNameFromRuleString l).getD [])

/-- The shape property of rule names the extraction regex yields. -/
def RuleNameShape (n : Str) : Prop :=
  ∃ d w1 w2, n = d ++ '-' :: (w1 ++ '-' :: w2) ∧
    d ≠ [] ∧ d.all Char.isDigit = true ∧
    w1 ≠ [] ∧ w1.all Char.isAlphanum = true ∧
    w2 ≠ [] ∧ w2.all Char.isAlphanum = true

/-- The scope filter prefix written as the claims write it. -/
def scopeMark (a v : Str) : Str := a ++ '-' :: (v ++ ['-'])

/-- `WfBase`: the well-formedness a single reconciler invocation relies
on — every line extractable, rule names globally unique, group ARNs and
group names unique, and statuses drawn from the vendor's two states. -/
structure WfBase (s : FwState) : Prop where
  extractable : ∀ g ∈ s.groups, ∀ l ∈ groupLines g,
    (getRuleNameFromRuleString l).isSome = true
  namesNodup : ((annot s).map fun t => t.2.2).Nodup
  arnsNodup : (s.groups.map RuleGroup.arn).Nodup
  gNamesNodup : (s.groups.map fun g => arnToName g.arn).Nodup
  statusOK : ∀ g ∈ s.groups, g.status = "ACTIVE".data ∨
    g.status = "DELETING".data

/-- The reconciler-run invariant over firewall states: base
well-formedness, shaped extracted names, and the discipline of the
modelled asynchronous deletes — a `DELETING` group holds a single line,
its name is none of the intent keys `KS`, and its ARN is referenced by
no policy; policy references are duplicate-free and point into the
collection. -/
structure Inv (KS : List Str) (s : FwState) : Prop where
  base : WfBase s
  shaped : ∀ t ∈ annot s, RuleNameShape t.2.2
  delOut : ∀ g ∈ s.groups, g.status = "DELETING".data →
    ∀ l ∈ groupLines g, ∀ k ∈ KS, getRuleNameFromRuleString l ≠ some k
  delSingle : ∀ g ∈ s.groups, g.status = "DELETING".data →
    ∃ l, groupLines g = [l]
  delDisassoc : ∀ g ∈ s.groups, g.status = "DELETING".data →
    ∀ p ∈ s.policies, g.arn ∉ p.refs
  polNodup : ∀ p ∈ s.policies, p.refs.Nodup
  refsSub : ∀ p ∈ s.policies, ∀ a ∈ p.refs, ∃ g ∈ s.groups, g.arn = a

/-- A key is live: some non-`DELETING` group holds a line extracting to
it, and that group's IP sets are a fixed point of the ensure step for
the scope's set. -/
def keyLive (ipn cidr k : Str) (s : FwState) : Prop :=
  ∃ g ∈ s.groups, g.status ≠ "DELETING".data ∧
    (∃ l ∈ groupLines g, getRuleNameFromRuleString l = some k) ∧
    ensureIpSet ipn cidr g.ipSets = g.ipSets

/-- The random resource-name supply is fresh: no drawn group name
collides with a collection group name or another draw. -/
def freshSupply (gns : List Str) (s : FwState) : Prop :=
  ((s.groups.map fun g => arnToName g.arn) ++ gns).Nodup

/-- Soundness of the delete-queue metadata against a state: every queued
`(arn, line)` extracts to a target, its ARN is a collection group, and
every occurrence of the target sits at that ARN. -/
def MetasOK (D : List (Str × Str)) (s : FwState) : Prop :=
  ∀ d ∈ D, ∃ t, getRuleNameFromRuleString d.2 = some t ∧
    (∃ g ∈ s.groups, g.arn = d.1) ∧
    ∀ u ∈ annot s, u.2.2 = t → u.1 = d.1

/-- Well-formedness of an `Update` message within its scope: nonempty
fields, and every rule a single line that extracts to its own
`<account>-<vpc>-<hash>` key. -/
structure WfMsg (m : Message) : Prop where
  accNe : m.account ≠ []
  accD : m.account.all Char.isDigit = true
  vpcNe : m.vpc ≠ []
  vpcA : m.vpc.all Char.isAlphanum = true
  cidrNe : m.cidr ≠ []
  regionNe : m.region ≠ []
  ruleOK : ∀ r ∈ m.rules,
    getRuleNameFromRuleString r.2 = some r.1 ∧ '\n' ∉ r.2 ∧
    ∃ h, r.1 = m.account ++ '-' :: (m.vpc ++ '-' :: h) ∧ h ≠ [] ∧
      h.all Char.isAlphanum = true

/-- A concrete Update message used to exercise the reconciler: one rule
for the scope `(123, abc12)`. -/
def demoMsg : Message :=
  ⟨"abc12".data, "123".data, "eu".data, "10.0.0.0/16".data,
   [("123-abc12-h7".data,
     "pass tls any any -> any any (sid:7; metadata: rule_name 123-abc12-h7;)".data)]⟩

/-- A pre-existing `ACTIVE` group holding one rule of another scope
(vpc component `zzz9`). -/
def demoG0 : RuleGroup :=
  ⟨"arn:aws-model:stateful-rulegroup/g0".data,
   "pass tls any any -> any any (sid:9; metadata: rule_name 999-zzz9-aa1;)".data,
   [], 5, "ACTIVE".data⟩

/-- The state `demoMsg` reconciles the empty firewall to: one fresh
group (name draw `g1`) holding the rule and its IP set, associated to a
fresh policy (draw 5). -/
def demoS1 : FwState :=
  ⟨[⟨"arn:aws-model:stateful-rulegroup/g1".data,
     "pass tls any any -> any any (sid:7; metadata: rule_name 123-abc12-h7;)".data,
     [("a123abc12".data, ["10.0.0.0/16".data])], 0, "ACTIVE".data⟩],
   [⟨"arn:aws-model:firewall-policy/Policy-5".data,
     ["arn:aws-model:stateful-rulegroup/g1".data]⟩]⟩

/-- The state `demoMsg` reconciles `⟨[demoG0], []⟩` to: the rule and IP
set land in the existing group `g0`, whose other-scope line survives. -/
def demoS4 : FwState :=
  ⟨[⟨"arn:aws-model:stateful-rulegroup/g0".data,
     ("pass tls any any -> any any (sid:9; metadata: rule_name 999-zzz9-aa1;)"
       ++ "\n"
       ++ "pass tls any any -> any any (sid:7; metadata: rule_name 123-abc12-h7;)").data,
     [("a123abc12".data, ["10.0.0.0/16".data])], 5, "ACTIVE".data⟩],
   []⟩

/-- What one reconciler-internal transformation guarantees: the
invariant persists, entries and live lines only shrink, group ARNs are
untouched, and live intent keys stay live. -/
structure StepOut (KS : List Str) (ipn cidr : Str) (s s' : FwState) :
    Prop where
  inv : Inv KS s'
  annotSub : ∀ u ∈ annot s', u ∈ annot s
  arnsEq : s'.groups.map RuleGroup.arn = s.groups.map RuleGroup.arn
  liveSub : ∀ l ∈ liveLines s', l ∈ liveLines s
  keyKeep : ∀ k ∈ KS, keyLive ipn cidr k s → keyLive ipn cidr k s'

/-! ### Helper lemmas about `containsSub` -/

/-- A prefix occurrence is an occurrence. -/
theorem containsSub_of_isPrefixOf (pat s : Str) (h : pat.isPrefixOf s = true) :
    containsSub pat s = true := by
  cases s with
  | nil => simp [containsSub, h]
  | cons c cs => simp [containsSub, h]

/-- Occurrences survive extending the string on the left by one char. -/
theorem containsSub_cons (pat s : Str) (c : Char)
    (h : containsSub pat s = true) : containsSub pat (c :: s) = true := by
  simp [containsSub, h]

/-- A materialized occurrence `a ++ pat ++ b` is found by `containsSub`. -/
theorem containsSub_append (pat a b : Str) :
    containsSub pat (a ++ pat ++ b) = true := by
  induction a with
  | nil =>
    apply containsSub_of_isPrefixOf
    exact List.isPrefixOf_iff_prefix.mpr (List.prefix_append pat b)
  | cons c cs ih => exact containsSub_cons _ _ c ih

/-- Right-nested variant of `containsSub_append`. -/
theorem containsSub_middle (pat a b : Str) :
    containsSub pat (a ++ (pat ++ b)) = true := by
  simpa [List.append_assoc] using containsSub_append pat a b

/-! ### Claim C1 -/

/-- Shape of every successful predefined compilation: the rule_name is a
sid-free function of the input, and the rule string carries the literal
`sid:<draw>; rev:1; ` in the middle. -/
theorem genPredefined_shape (account vpc ruleOrder protocol domain : Str)
    (sid : Nat) (nm pol : Str)
    (h : generatePredefinedRule account vpc ruleOrder protocol domain sid
      = .ok (nm, pol)) :
    nm = account ++ '-' :: (vpc ++ '-' :: hash10 (pyStrJoin domain protocol)) ∧
    ∃ a b, pol = a ++ ("sid:".data ++ natToStr sid ++ "; rev:1; ".data) ++ b := by
  cases hp : protocolSelector protocol with
  | none => simp [generatePredefinedRule, hp] at h
  | some sRule =>
    cases hps : portSuffixMatch domain with
    | true =>
      cases hvd : isValidDomain ((splitCh ':' domain).headD []) with
      | false =>
        rw [List.headD_eq_head?] at hvd
        simp [generatePredefinedRule, hp, hps, hvd] at h
      | true =>
        rw [List.headD_eq_head?] at hvd
        simp [generatePredefinedRule, hp, hps, hvd] at h
        obtain ⟨h1, h2⟩ := h
        refine ⟨h1.symm, "pass ".data ++ (splitCh '.' sRule).headD [] ++
          " $a".data ++ account ++ vpc ++ " any -> $EXTERNAL_NET ".data ++
          (splitCh ':' domain).getLastD [] ++ " (".data ++
          (if ((splitCh ':' domain).headD []).head? = some '.' then
            sRule ++ "; dotprefix; content:\"".data ++
              (splitCh ':' domain).headD [] ++ "\"; endswith; ".data
           else
            sRule ++ "; content:\"".data ++ (splitCh ':' domain).headD [] ++
              "\"; startswith; endswith; ".data) ++
          priorityOf ruleOrder ++ "flow:to_server, established; ".data,
          "metadata: rule_name ".data ++
            (account ++ '-' :: (vpc ++ '-' :: hash10 (pyStrJoin domain protocol))) ++
            ";)".data, ?_⟩
        rw [← h2]
        simp [List.append_assoc]
    | false =>
      cases hvd : isValidDomain domain with
      | false => simp [generatePredefinedRule, hp, hps, hvd] at h
      | true =>
        simp [generatePredefinedRule, hp, hps, hvd] at h
        obtain ⟨h1, h2⟩ := h
        refine ⟨h1.symm, "pass ".data ++ (splitCh '.' sRule).headD [] ++
          " $a".data ++ account ++ vpc ++ " any -> $EXTERNAL_NET ".data ++
          "any".data ++ " (".data ++
          (if domain.head? = some '.' then
            sRule ++ "; dotprefix; content:\"".data ++ domain ++
              "\"; endswith; ".data
           else
            sRule ++ "; content:\"".data ++ domain ++
              "\"; startswith; endswith; ".data) ++
          priorityOf ruleOrder ++ "flow:to_server, established; ".data,
          "metadata: rule_name ".data ++
            (account ++ '-' :: (vpc ++ '-' :: hash10 (pyStrJoin domain protocol))) ++
            ";)".data, ?_⟩
        rw [← h2]
        simp [List.append_assoc]

/-- Shape of every successful custom compilation: the rule_name is a
sid-free function of the input, and the rewritten rule carries the
literal `sid:<draw>;rev:1;` in its appended options. -/
theorem genCustom_shape (account vpc ruleOrder rule : Str) (sid : Nat)
    (nm pol : Str)
    (h : generateCustomRule account vpc ruleOrder rule sid = .ok (nm, pol)) :
    nm = account ++ '-' :: (vpc ++ '-' :: hash10 rule) ∧
    ∃ a b, pol = a ++ ("sid:".data ++ natToStr sid ++ ";rev:1;".data) ++ b := by
  cases ho : optionsSpan rule with
  | none => simp [generateCustomRule, ho] at h
  | some pgs =>
    obtain ⟨pre, g1, suf⟩ := pgs
    simp only [generateCustomRule, ho] at h
    split at h
    · simp at h
    · simp only [Except.ok.injEq, Prod.mk.injEq] at h
      obtain ⟨h1, h2⟩ := h
      refine ⟨h1.symm, pre ++ '(' :: (g1 ++ priorityOf ruleOrder),
        "metadata: rule_name ".data ++
          (account ++ '-' :: (vpc ++ '-' :: hash10 rule)) ++ ";)".data ++ suf,
        ?_⟩
      rw [← h2]
      simp only [List.append_assoc, List.cons_append]

set_option maxRecDepth 40000 in
/-- Claim C1, counterexample.  The claim: the sid appended to a compiled
rule is the decimal form of the low 24 bits of the rule-name digest, so
two compilations of identical input produce identical sids and identical
rule strings.  In the source the sid is drawn from
`random.randrange(10, 1000000, 3)` (rule_config.py lines 231 and 281);
compiling the same predefined intent under the two admissible draws 10
and 13 yields different rule strings, refuting the claim. -/
theorem c1_counterexample :
    generatePredefinedRule "123456789012".data "123123123123".data []
        "https".data ".amazonaws.com".data 10 ≠
      generatePredefinedRule "123456789012".data "123123123123".data []
        "https".data ".amazonaws.com".data 13 := by decide

/-- Claim C1, amended: the rule_name appended to a compiled rule
(predefined or custom) is determined by the input alone — it does not
depend on the sid draw — while the sid appended to the rule string is the
decimal form of the `random.randrange(10, 1000000, 3)` draw itself, not
of the rule-name digest; hence two compilations of identical input agree
exactly on the rule_name, and agree on the full rule string only when
their draws agree. -/
theorem c1_amended (account vpc ruleOrder protocol domain rule : Str)
    (sid sid' : Nat) (nm pol nm' pol' cnm cpol cnm' cpol' : Str)
    (h₁ : generatePredefinedRule account vpc ruleOrder protocol domain sid
      = .ok (nm, pol))
    (h₂ : generatePredefinedRule account vpc ruleOrder protocol domain sid'
      = .ok (nm', pol'))
    (h₃ : generateCustomRule account vpc ruleOrder rule sid = .ok (cnm, cpol))
    (h₄ : generateCustomRule account vpc ruleOrder rule sid' = .ok (cnm', cpol')) :
    nm' = nm ∧ cnm' = cnm ∧
    containsSub ("sid:".data ++ natToStr sid ++ "; rev:1; ".data) pol = true ∧
    containsSub ("sid:".data ++ natToStr sid ++ ";rev:1;".data) cpol = true := by
  obtain ⟨hn₁, a₁, b₁, hp₁⟩ := genPredefined_shape _ _ _ _ _ _ _ _ h₁
  obtain ⟨hn₂, _, _, _⟩ := genPredefined_shape _ _ _ _ _ _ _ _ h₂
  obtain ⟨hc₁, a₃, b₃, hp₃⟩ := genCustom_shape _ _ _ _ _ _ _ h₃
  obtain ⟨hc₂, _, _, _⟩ := genCustom_shape _ _ _ _ _ _ _ h₄
  refine ⟨hn₂.trans hn₁.symm, hc₂.trans hc₁.symm, ?_, ?_⟩
  · rw [hp₁]; exact containsSub_append _ _ _
  · rw [hp₃]; exact containsSub_append _ _ _

set_option maxRecDepth 200000 in
/-- Witness for `c1_amended`: the compilation of the repository's own test
fixtures (`tests/test_ruleconfig.py`) under the draws 10 and 13. -/
theorem c1_amended_witness :
    ("123456789012-123123123123-96ccf8d27f".data : Str)
      = "123456789012-123123123123-96ccf8d27f".data ∧
    ("123456789012-123123123123-2726ee0a97".data : Str)
      = "123456789012-123123123123-2726ee0a97".data ∧
    containsSub ("sid:".data ++ natToStr 10 ++ "; rev:1; ".data)
      "pass tls $a123456789012123123123123 any -> $EXTERNAL_NET any (tls.sni; dotprefix; content:\".amazonaws.com\"; endswith; flow:to_server, established; sid:10; rev:1; metadata: rule_name 123456789012-123123123123-96ccf8d27f;)".data
      = true ∧
    containsSub ("sid:".data ++ natToStr 10 ++ ";rev:1;".data)
      "pass http $a123456789012123123123123 any -> $EXTERNAL_NET any (http.host; content:\".amazon.com\"; startswith; endswith; flow:to_server, established;sid:10;rev:1;metadata: rule_name 123456789012-123123123123-2726ee0a97;)".data
      = true :=
  c1_amended "123456789012".data "123123123123".data [] "https".data
    ".amazonaws.com".data
    "pass http $a123456789012123123123123 any -> $EXTERNAL_NET any (http.host; content:\".amazon.com\"; startswith; endswith; flow:to_server, established;)".data
    10 13
    "123456789012-123123123123-96ccf8d27f".data
    "pass tls $a123456789012123123123123 any -> $EXTERNAL_NET any (tls.sni; dotprefix; content:\".amazonaws.com\"; endswith; flow:to_server, established; sid:10; rev:1; metadata: rule_name 123456789012-123123123123-96ccf8d27f;)".data
    "123456789012-123123123123-96ccf8d27f".data
    "pass tls $a123456789012123123123123 any -> $EXTERNAL_NET any (tls.sni; dotprefix; content:\".amazonaws.com\"; endswith; flow:to_server, established; sid:13; rev:1; metadata: rule_name 123456789012-123123123123-96ccf8d27f;)".data
    "123456789012-123123123123-2726ee0a97".data
    "pass http $a123456789012123123123123 any -> $EXTERNAL_NET any (http.host; content:\".amazon.com\"; startswith; endswith; flow:to_server, established;sid:10;rev:1;metadata: rule_name 123456789012-123123123123-2726ee0a97;)".data
    "123456789012-123123123123-2726ee0a97".data
    "pass http $a123456789012123123123123 any -> $EXTERNAL_NET any (http.host; content:\".amazon.com\"; startswith; endswith; flow:to_server, established;sid:13;rev:1;metadata: rule_name 123456789012-123123123123-2726ee0a97;)".data
    (by decide) (by decide) (by decide) (by decide)

/-! ### Claim C5 -/

set_option maxRecDepth 200000 in
/-- Claim C5 (code bug): the claim demands that any lone-TLD content value
(matching `^\.[a-zA-Z]{2,}$`, for example `.com`) be rejected with
FormatError.  Because the f-string mangles the pattern to
`^\.[a-zA-Z](2,)$` (see `loneTldMatch`), whose group `(2,)` matches the
literal text `2,`, `_is_valid_domain` accepts `.com` and both the
predefined and the custom compilation path build a rule from it instead
of raising; the only rejected shapes are the four-character strings
dot-letter-`2`-comma such as `.c2,`. -/
theorem c5_lone_tld_accepted :
    isValidDomain ".com".data = true ∧
    loneTldMatch ".c2,".data = true ∧
    isValidDomain ".c2,".data = false ∧
    exceptOk (generatePredefinedRule "123456789012".data
      "0922083e651e7c675".data [] "https".data ".com".data 10) = true ∧
    exceptOk (generateCustomRule "123456789012".data "0922083e651e7c675".data
      []
      "pass http $a1234567890120922083e651e7c675 any -> $EXTERNAL_NET any (tls.sni; content:\".com\"; endswith; flow:to_server, established;)".data
      10) = true := by
  refine ⟨by decide, by decide, by decide, by decide, by decide⟩

/-! ### Claim C8 -/

/-- Inverting `stripLit`: a successful strip exhibits the split. -/
theorem stripLit_eq_some (lit s r : Str) (h : stripLit lit s = some r) :
    s = lit ++ r := by
  unfold stripLit at h
  split at h
  · next hpre =>
    obtain ⟨t, rfl⟩ := List.isPrefixOf_iff_prefix.mp hpre
    simpa [List.drop_left] using h
  · exact absurd h (by simp)

/-- `stripLit` on a materialized split succeeds. -/
theorem stripLit_append (lit r : Str) : stripLit lit (lit ++ r) = some r := by
  unfold stripLit
  rw [if_pos (List.isPrefixOf_iff_prefix.mpr (List.prefix_append lit r))]
  rw [List.drop_left]

/-- A filename match at a position yields a region match at it. -/
theorem regionMatchAt_of_fileNameMatchAt (s : Str)
    (h : fileNameMatchAt s = true) : (regionMatchAt s).isSome = true := by
  unfold fileNameMatchAt at h
  cases hl : regionParsesAt s with
  | nil => rw [hl] at h; simp at h
  | cons q qs => simp [regionMatchAt, hl]

/-- A region match at any suffix makes `re.search` of the region
pattern succeed on the whole key. -/
theorem searchRegion_isSome (key : Str) (t : Str) (ht : t ∈ key.tails)
    (h : (regionMatchAt t).isSome = true) :
    (searchRegion key).isSome = true := by
  induction key with
  | nil =>
    simp at ht
    subst ht
    exact absurd h (by decide)
  | cons c cs ih =>
    rw [List.tails_cons, List.mem_cons] at ht
    rcases ht with ht | ht
    · subst ht
      cases hm : regionMatchAt (c :: cs) with
      | none => rw [hm] at h; simp at h
      | some r =>
        unfold searchRegion
        rw [hm]
        rfl
    · cases hm : regionMatchAt (c :: cs) with
      | none =>
        unfold searchRegion
        rw [hm]
        exact ih ht
      | some r =>
        unfold searchRegion
        rw [hm]
        rfl

/-- Claim C8, counterexample.  The claim: keys that merely contain a
substring matching the filename pattern, or differ after it, are
rejected.  `validate_file_name` uses an unanchored `re.search` with an
unescaped dot, so a key containing the pattern anywhere — or with any
character in place of the dot — passes validation even though the
anchored spec pattern rejects it. -/
theorem c8_counterexample :
    validateFileName "backup-eu-west-1-config.yaml.old".data = true ∧
    validateFileName "eu-west-1-configXyaml".data = true ∧
    validFileNameSpec "backup-eu-west-1-config.yaml.old".data = false ∧
    validFileNameSpec "eu-west-1-configXyaml".data = false := by decide

/-- Claim C8, amended: the filename gate is an unanchored substring
search with an unescaped dot.  Every key matching the spec's anchored
pattern passes it; a key that fails it is skipped as a success (the
handler logs an ERROR line to the tenant log and emits no compilation
message, but raises no FormatError); and the gate as a whole never
raises. -/
theorem c8_amended (key : Str) :
    (validFileNameSpec key = true → validateFileName key = true) ∧
    (validateFileName key = false → collectFileGate key = .ok .skipped) ∧
    exceptOk (collectFileGate key) = true := by
  refine ⟨?_, ?_, ?_⟩
  · intro hs
    unfold validFileNameSpec at hs
    rcases List.any_eq_true.mp hs with ⟨p, hp, htl⟩
    apply List.any_eq_true.mpr
    refine ⟨key, (List.mem_tails key key).mpr (List.suffix_refl key), ?_⟩
    apply List.any_eq_true.mpr
    refine ⟨p, hp, ?_⟩
    cases hsl : stripLit "-config.".data p.2 with
    | none => rw [hsl] at htl; simp at htl
    | some s6 =>
      rw [hsl] at htl
      have hps : p.2 = "-config.".data ++ s6 := stripLit_eq_some _ _ _ hsl
      simp only [Option.elim_some, Bool.or_eq_true, decide_eq_true_eq] at htl
      rcases htl with h7 | h7 <;> (subst h7; rw [hps]; decide)
  · intro hv
    simp [collectFileGate, hv]
  · cases hv : validateFileName key with
    | false => simp [collectFileGate, hv, exceptOk]
    | true =>
      have hv' := hv
      unfold validateFileName at hv'
      rcases List.any_eq_true.mp hv' with ⟨t, ht, hm⟩
      have h2 := searchRegion_isSome key t ht (regionMatchAt_of_fileNameMatchAt t hm)
      cases hs : searchRegion key with
      | none => rw [hs] at h2; simp at h2
      | some r => simp [collectFileGate, hv, getRegionFromString, hs, exceptOk]

/-- Witness for `c8_amended`: the repository test's valid and invalid
keys (`tests/test_event_handler.py`). -/
theorem c8_amended_witness :
    validateFileName "us-east-1-config.yaml".data = true ∧
    collectFileGate "invalid-filename.yaml".data = .ok .skipped :=
  ⟨(c8_amended "us-east-1-config.yaml".data).1 (by decide),
   (c8_amended "invalid-filename.yaml".data).2.1 (by decide)⟩

/-! ### Claim C6 -/

set_option maxRecDepth 40000 in
/-- Claim C6 (code bug): the claim demands that every rule written to the
reserved default-deny group carry `msg:"Drop all <PROTO>"`, priority 255,
flow, sid, rev and a rule_name — including baked-in rules that already
contain an options block.  In `_create_reserved_rules` the enriched
options for a rule with an existing options block are built, but the
`re.sub` result is discarded (firewall_handler.py line 391), so such a
rule is appended to the reserved rules string completely unchanged —
here without any `msg:`, `sid:` or `metadata` stamp.  Only rules without
an options block receive the appended block. -/
theorem c6_reserved_rules_unchanged :
    createReservedRules "111122223333".data "0abc".data
        ["pass tcp $HOME_NET any -> $EXTERNAL_NET any (flow:to_server, established;)".data]
        [10]
      = ["pass tcp $HOME_NET any -> $EXTERNAL_NET any (flow:to_server, established;)".data] ∧
    containsSub "msg:".data
      "pass tcp $HOME_NET any -> $EXTERNAL_NET any (flow:to_server, established;)".data
      = false ∧
    containsSub "metadata: rule_name".data
      "pass tcp $HOME_NET any -> $EXTERNAL_NET any (flow:to_server, established;)".data
      = false ∧
    createReservedRules "111122223333".data "0abc".data
        ["drop udp any any -> any any".data] [13]
      = ["drop udp any any -> any any(msg: \"Drop all UDP\"; priority:255; flow:to_server, established; sid:13; rev:1; metadata: rule_name 111122223333-0abc-f4a16f278e;)".data]
      := by
  refine ⟨by decide, by decide, by decide, by decide⟩

/-! ### Claim C7 -/

/-- Claim C7, counterexample.  The claim: a reference is appended to an
existing policy only when it currently has fewer than 19 entries, so
policies hold at most 19 references.  `_associate_rule_group_to_policy`
compares with `<= MAX_RULES_PRE_POLICY` (19), so a policy holding
exactly 19 references receives a 20th. -/
theorem c7_counterexample :
    ((associateRuleGroupToPolicy "arn:aws-model:stateful-rulegroup/new".data 5
        ⟨[], [⟨"arn:aws-model:firewall-policy/p1".data,
          (List.range 19).map natToStr⟩]⟩).policies.map
      fun p => p.refs.length) = [20] := by decide

/-- Characterization of the first-fit scan: a free slot (at most 19
references) keeps the bound 20 after the append. -/
theorem associateGo_bound (ruleArn : Str) (ps : List FwPolicy)
    (hb : ∀ p ∈ ps, p.refs.length ≤ MAX_RULES_PRE_POLICY + 1) :
    ∀ qs, associateGo ruleArn ps = some qs →
      ∀ q ∈ qs, q.refs.length ≤ MAX_RULES_PRE_POLICY + 1 := by
  induction ps with
  | nil => intro qs h; exact Option.noConfusion h
  | cons p ps ih =>
    intro qs h
    unfold associateGo at h
    split at h
    · next hle =>
      obtain rfl := (Option.some.injEq _ _).mp h
      intro q hq
      rcases List.mem_cons.mp hq with rfl | hq
      · simpa using Nat.add_le_add_right hle 1
      · exact hb q (List.mem_cons_of_mem p hq)
    · next hgt =>
      cases hgo : associateGo ruleArn ps with
      | none => rw [hgo] at h; exact Option.noConfusion h
      | some rs =>
        rw [hgo] at h
        obtain rfl := (Option.some.injEq _ _).mp h
        intro q hq
        rcases List.mem_cons.mp hq with rfl | hq
        · exact hb q (List.mem_cons_self q ps)
        · exact ih (fun r hr => hb r (List.mem_cons_of_mem p hr)) rs hgo q hq

/-- The first-fit scan fails exactly on full policies. -/
theorem associateGo_none (ruleArn : Str) (ps : List FwPolicy)
    (hf : ∀ p ∈ ps, MAX_RULES_PRE_POLICY + 1 ≤ p.refs.length) :
    associateGo ruleArn ps = none := by
  induction ps with
  | nil => rfl
  | cons p ps ih =>
    unfold associateGo
    rw [if_neg, ih fun r hr => hf r (List.mem_cons_of_mem p hr)]
    · rfl
    · have := hf p (List.mem_cons_self p ps)
      omega

/-- Claim C7, amended: every firewall policy holds at most
`MAX_RULES_PRE_POLICY + 1 = 20` stateful rule-group references (the
vendor's soft limit), because association appends to the first policy
currently holding at most 19 (`<= MAX_RULES_PRE_POLICY`) references;
only when every policy already holds at least 20 references is a new
policy `Policy-<random int>` created with the group as sole reference. -/
theorem c7_amended (ruleArn : Str) (draw : Nat) (s : FwState)
    (hb : ∀ p ∈ s.policies, p.refs.length ≤ MAX_RULES_PRE_POLICY + 1) :
    (∀ p ∈ (associateRuleGroupToPolicy ruleArn draw s).policies,
      p.refs.length ≤ MAX_RULES_PRE_POLICY + 1) ∧
    ((∀ p ∈ s.policies, MAX_RULES_PRE_POLICY + 1 ≤ p.refs.length) →
      (associateRuleGroupToPolicy ruleArn draw s).policies
        = s.policies ++
          [⟨policyArnOf ("Policy-".data ++ natToStr draw), [ruleArn]⟩]) := by
  constructor
  · intro p hp
    unfold associateRuleGroupToPolicy at hp
    cases hgo : associateGo ruleArn s.policies with
    | some qs =>
      rw [hgo] at hp
      exact associateGo_bound ruleArn s.policies hb qs hgo p hp
    | none =>
      rw [hgo] at hp
      simp only [createNewPolicy] at hp
      rcases List.mem_append.mp hp with hp | hp
      · exact hb p hp
      · simp at hp
        subst hp
        simp [MAX_RULES_PRE_POLICY]
  · intro hf
    unfold associateRuleGroupToPolicy
    rw [associateGo_none ruleArn s.policies hf]
    rfl

/-- Witness for `c7_amended`: the policy holding 19 references receives
the 20th, and its reference count stays within the bound of 20. -/
theorem c7_amended_witness :
    (⟨"arn:aws-model:firewall-policy/p1".data,
      (List.range 19).map natToStr
        ++ ["arn:aws-model:stateful-rulegroup/new".data]⟩ : FwPolicy).refs.length
      ≤ MAX_RULES_PRE_POLICY + 1 :=
  (c7_amended "arn:aws-model:stateful-rulegroup/new".data 5
    ⟨[], [⟨"arn:aws-model:firewall-policy/p1".data,
      (List.range 19).map natToStr⟩]⟩ (by decide)).1
    ⟨"arn:aws-model:firewall-policy/p1".data,
      (List.range 19).map natToStr
        ++ ["arn:aws-model:stateful-rulegroup/new".data]⟩ (by decide)

/-! ### Claim C9 -/

/-- Claim C9 (code bug): the claim says reading a rule group whose rules
string contains empty lines never fails because the reconciler splits on
`\n` and filters empty entries.  `_get_rule_entries` splits without
filtering, the empty line reaches `_get_rule_name_from_rule_string`,
`re.search` returns `None`, and `matches[0]` raises a `TypeError`: an
Update inserting into a state with one trailing-newline rule group
fails instead of tolerating the empty line. -/
theorem c9_empty_line_crash :
    getRuleEntries
        ⟨[⟨"arn:aws-model:stateful-rulegroup/g1".data,
          "pass tls $a9v9 any -> $EXTERNAL_NET any (sid:13; metadata: rule_name 9-v9-ccc;)\n".data,
          [], 5, "ACTIVE".data⟩], []⟩
      = [("arn:aws-model:stateful-rulegroup/g1".data,
          "pass tls $a9v9 any -> $EXTERNAL_NET any (sid:13; metadata: rule_name 9-v9-ccc;)".data),
         ("arn:aws-model:stateful-rulegroup/g1".data, [])] ∧
    getRuleNameFromRuleString [] = none ∧
    addRuleEntry
        "pass tls $a1v1 any -> $EXTERNAL_NET any (sid:10; metadata: rule_name 1-v1-aaa;)".data
        "10.0.0.0/24".data "a1v1".data
        ⟨[⟨"arn:aws-model:stateful-rulegroup/g1".data,
          "pass tls $a9v9 any -> $EXTERNAL_NET any (sid:13; metadata: rule_name 9-v9-ccc;)\n".data,
          [], 5, "ACTIVE".data⟩], []⟩
      = .error .typeError := by
  refine ⟨by decide, by decide, by decide⟩

/-! ### Claim C10 -/

/-- Claim C10: an Update message whose Rules map is empty, or with any
empty scope field, mutates nothing: no branch of `json_to_rule` runs its
body and the invocation completes as success with the state unchanged —
in particular an empty-rules Update does not clear the scope's
previously live rules. -/
theorem c10_empty_update_noop (m : Message) (gns : List Str)
    (pds : List Nat) (s : FwState)
    (h : m.rules = [] ∨ m.account = [] ∨ m.vpc = [] ∨ m.region = [] ∨
      m.cidr = []) :
    jsonToRule "Update".data m gns pds s = .ok s := by
  have hcond : ¬ (m.account ≠ [] ∧ m.cidr ≠ [] ∧ m.vpc ≠ [] ∧
      m.region ≠ [] ∧ m.rules ≠ []) := by
    rintro ⟨ha, hc, hv, hr, hru⟩
    rcases h with h | h | h | h | h
    · exact hru h
    · exact ha h
    · exact hv h
    · exact hr h
    · exact hc h
  have e2 : ("Update".data : Str) ≠ "DeleteVpc".data := by decide
  have e3 : ("Update".data : Str) ≠ "DeleteS3".data := by decide
  have e4 : ("Update".data : Str) ≠ "DeleteAccount".data := by decide
  simp [jsonToRule, hcond, e2, e3, e4]

/-- Witness for `c10_empty_update_noop`: an empty-rules Update against a
state holding a live rule leaves it untouched. -/
theorem c10_empty_update_noop_witness :
    jsonToRule "Update".data
        ⟨"v1".data, "1".data, "r".data, "10.0.0.0/24".data, []⟩ [] []
        ⟨[⟨"arn:aws-model:stateful-rulegroup/g1".data,
          "pass tls $a1v1 any -> $EXTERNAL_NET any (sid:12; metadata: rule_name 1-v1-old;)".data,
          [], 5, "ACTIVE".data⟩], []⟩
      = .ok
        ⟨[⟨"arn:aws-model:stateful-rulegroup/g1".data,
          "pass tls $a1v1 any -> $EXTERNAL_NET any (sid:12; metadata: rule_name 1-v1-old;)".data,
          [], 5, "ACTIVE".data⟩], []⟩ :=
  c10_empty_update_noop
    ⟨"v1".data, "1".data, "r".data, "10.0.0.0/24".data, []⟩ [] []
    ⟨[⟨"arn:aws-model:stateful-rulegroup/g1".data,
      "pass tls $a1v1 any -> $EXTERNAL_NET any (sid:12; metadata: rule_name 1-v1-old;)".data,
      [], 5, "ACTIVE".data⟩], []⟩
    (Or.inl rfl)

/-! ### Claims C2 and C4, counterexamples -/

/-- Claim C2, counterexample.  The claim quantifies over every Update
message; for a message whose Rules map is empty, `json_to_rule` takes no
branch, so a previously live in-scope rule (`1-v1-old`) survives and the
live scope does not equal the (empty) map. -/
theorem c2_counterexample :
    (jsonToRule "Update".data
        ⟨"v1".data, "1".data, "r".data, "10.0.0.0/24".data, []⟩ [] []
        ⟨[⟨"arn:aws-model:stateful-rulegroup/g1".data,
          "pass tls $a1v1 any -> $EXTERNAL_NET any (sid:12; metadata: rule_name 1-v1-old;)".data,
          [], 5, "ACTIVE".data⟩], []⟩).map
      (fun s => listSetEq (inScopeNames "1".data "v1".data s) [])
      = .ok false := by decide

/-- Claim C4, counterexample.  The claim: an Update targeting (A, V1)
leaves a rule `B-V1-h` of another account untouched.  The cleanup pass
of `_clean_up_rules` filters by the vpc component of the rule name only
(`rule_name.split("-", maxsplit=2)[1]`), so the update for account 1
deletes account 2's rule `2-v1-bbb`, which shares the vpc component. -/
theorem c4_counterexample :
    (jsonToRule "Update".data
        ⟨"v1".data, "1".data, "r".data, "10.0.0.0/24".data,
          [("1-v1-aaa".data,
            "pass tls $a1v1 any -> $EXTERNAL_NET any (sid:10; metadata: rule_name 1-v1-aaa;)".data)]⟩
        ["77".data] [42]
        ⟨[⟨"arn:aws-model:stateful-rulegroup/g1".data,
          "pass tls $a2v1 any -> $EXTERNAL_NET any (sid:11; metadata: rule_name 2-v1-bbb;)".data,
          [("a2v1".data, ["10.1.0.0/24".data])], 5, "ACTIVE".data⟩],
          [⟨"arn:aws-model:firewall-policy/p1".data,
            ["arn:aws-model:stateful-rulegroup/g1".data]⟩]⟩).map
      (fun s => (liveNames s).contains "2-v1-bbb".data)
      = .ok false := by decide

/-! ### List and string lemmas for the reconciler proofs -/

theorem splitCh_cons_sep (c : Char) (t : Str) :
    splitCh c (c :: t) = [] :: splitCh c t := by
  rw [splitCh]
  simp

theorem splitCh_ne_nil (c : Char) (s : Str) : splitCh c s ≠ [] := by
  cases s with
  | nil => simp [splitCh]
  | cons d ds =>
    rw [splitCh]
    split
    · simp
    · split <;> simp

theorem sep_not_mem_splitCh (c : Char) (s : Str) :
    ∀ p ∈ splitCh c s, c ∉ p := by
  induction s with
  | nil =>
    intro p hp
    simp [splitCh] at hp
    subst hp
    simp
  | cons d ds ih =>
    intro p hp
    rw [splitCh] at hp
    by_cases hd : d = c
    · rw [if_pos hd] at hp
      rcases List.mem_cons.mp hp with rfl | hp
      · simp
      · exact ih p hp
    · rw [if_neg hd] at hp
      cases hsp : splitCh c ds with
      | nil => exact absurd hsp (splitCh_ne_nil c ds)
      | cons r rs =>
        rw [hsp] at hp
        rcases List.mem_cons.mp hp with rfl | hp
        · intro hmem
          rcases List.mem_cons.mp hmem with heq | hmem
          · exact hd heq.symm
          · exact ih r (by rw [hsp]; exact List.mem_cons_self r rs) hmem
        · exact ih p (by rw [hsp]; exact List.mem_cons_of_mem r hp)

theorem joinCh_cons_cons (c : Char) (x y : Str) (rs : List Str) :
    joinCh c (x :: y :: rs) = x ++ c :: joinCh c (y :: rs) := rfl

theorem joinCh_splitCh (c : Char) (s : Str) : joinCh c (splitCh c s) = s := by
  induction s with
  | nil => rfl
  | cons d ds ih =>
    rw [splitCh]
    by_cases hd : d = c
    · subst hd
      rw [if_pos rfl]
      cases hsp : splitCh d ds with
      | nil => exact absurd hsp (splitCh_ne_nil d ds)
      | cons r rs =>
        rw [joinCh_cons_cons, ← hsp, ih]
        rfl
    · rw [if_neg hd]
      cases hsp : splitCh c ds with
      | nil => exact absurd hsp (splitCh_ne_nil c ds)
      | cons r rs =>
        have hjoin : joinCh c ((d :: r) :: rs) = d :: joinCh c (r :: rs) := by
          cases rs <;> rfl
        rw [hjoin, ← hsp, ih]

theorem splitCh_of_not_mem (c : Char) (s : Str) (h : c ∉ s) :
    splitCh c s = [s] := by
  induction s with
  | nil => rfl
  | cons d ds ih =>
    rw [splitCh]
    rw [if_neg (fun hd => h (List.mem_cons.mpr (Or.inl hd.symm)))]
    rw [ih fun hm => h (List.mem_cons_of_mem d hm)]

theorem splitCh_append_sep (c : Char) (u t : Str) (hu : c ∉ u) :
    splitCh c (u ++ c :: t) = u :: splitCh c t := by
  induction u with
  | nil => exact splitCh_cons_sep c t
  | cons d ds ih =>
    have hd : ¬ d = c := fun hd => hu (List.mem_cons.mpr (Or.inl hd.symm))
    show splitCh c (d :: (ds ++ c :: t)) = (d :: ds) :: splitCh c t
    rw [splitCh, if_neg hd, ih fun hm => hu (List.mem_cons_of_mem d hm)]

theorem splitCh_joinCh (c : Char) (ls : List Str) (h : ∀ p ∈ ls, c ∉ p)
    (hne : ls ≠ []) : splitCh c (joinCh c ls) = ls := by
  induction ls with
  | nil => exact absurd rfl hne
  | cons x xs ih =>
    cases xs with
    | nil =>
      show splitCh c x = [x]
      exact splitCh_of_not_mem c x (h x (List.mem_cons_self x []))
    | cons y ys =>
      rw [joinCh_cons_cons]
      rw [splitCh_append_sep c x _ (h x (List.mem_cons_self x _))]
      rw [ih (fun p hp => h p (List.mem_cons_of_mem x hp)) (by simp)]

theorem takeWhile_append_sep (p : Char → Bool) (u : Str) (c : Char) (t : Str)
    (hu : u.all p) (hc : ¬ p c = true) : (u ++ c :: t).takeWhile p = u := by
  induction u with
  | nil =>
    show (c :: t).takeWhile p = []
    rw [List.takeWhile_cons, if_neg hc]
  | cons d ds ih =>
    have hd : p d = true := List.all_eq_true.mp hu d (List.mem_cons_self d ds)
    show ((d :: (ds ++ c :: t)).takeWhile p) = d :: ds
    rw [List.takeWhile_cons, if_pos hd,
      ih (List.all_eq_true.mpr fun x hx =>
        List.all_eq_true.mp hu x (List.mem_cons_of_mem d hx))]

theorem not_dash_mem_of_all_digit (d : Str) (h : d.all Char.isDigit = true) :
    '-' ∉ d := by
  intro hm
  have := List.all_eq_true.mp h '-' hm
  simp at this

theorem not_dash_mem_of_all_alnum (w : Str) (h : w.all Char.isAlphanum = true) :
    '-' ∉ w := by
  intro hm
  have := List.all_eq_true.mp h '-' hm
  simp at this

theorem not_nl_mem_of_all_digit (d : Str) (h : d.all Char.isDigit = true) :
    '\n' ∉ d := by
  intro hm
  have := List.all_eq_true.mp h '\n' hm
  simp at this

/-! ### Shape of extracted rule names -/

theorem takeWhile_all (p : Char → Bool) (l : Str) :
    (l.takeWhile p).all p = true :=
  List.all_eq_true.mpr fun x hx => List.mem_takeWhile_imp hx

theorem ruleNameMatchAt_shape (cs n : Str) (h : ruleNameMatchAt cs = some n) :
    RuleNameShape n := by
  unfold ruleNameMatchAt at h
  rw [List.span_eq_take_drop] at h
  simp only [] at h
  split at h
  · exact absurd h (by simp)
  · next hd =>
    split at h
    · next r2 heq =>
      rw [List.span_eq_take_drop] at h
      simp only [] at h
      split at h
      · exact absurd h (by simp)
      · next h1 =>
        split at h
        · next r4 heq2 =>
          rw [List.span_eq_take_drop] at h
          simp only [] at h
          split at h
          · exact absurd h (by simp)
          · next h2 =>
            obtain rfl := (Option.some.injEq _ _).mp h
            refine ⟨cs.takeWhile Char.isDigit, r2.takeWhile Char.isAlphanum,
              r4.takeWhile Char.isAlphanum, rfl, ?_, takeWhile_all _ _, ?_,
              takeWhile_all _ _, ?_, takeWhile_all _ _⟩
            · simpa using hd
            · simpa using h1
            · simpa using h2
        · exact absurd h (by simp)
    · exact absurd h (by simp)

theorem searchRuleName_shape (l n : Str) (h : searchRuleName l = some n) :
    RuleNameShape n := by
  induction l with
  | nil => exact absurd h (by simp [searchRuleName])
  | cons c cs ih =>
    rw [searchRuleName] at h
    cases hm : ruleNameMatchAt (c :: cs) with
    | some m =>
      rw [hm] at h
      obtain rfl := (Option.some.injEq _ _).mp h
      exact ruleNameMatchAt_shape _ _ hm
    | none =>
      rw [hm] at h
      exact ih h

theorem lineName_shape (l n : Str) (h : getRuleNameFromRuleString l = some n) :
    RuleNameShape n := searchRuleName_shape l n h

/-- On shaped names, the vpc component is the middle run. -/
theorem vpcComponent_shape (d w1 w2 : Str) (hd : '-' ∉ d) (h1 : '-' ∉ w1) :
    vpcComponent (d ++ '-' :: (w1 ++ '-' :: w2)) = w1 := by
  unfold vpcComponent
  rw [splitCh_append_sep '-' d _ hd, splitCh_append_sep '-' w1 _ h1]
  rfl

/-- On shaped names, the account component is the leading run. -/
theorem accountComponent_shape (d w1 w2 : Str) (hd : '-' ∉ d) :
    accountComponent (d ++ '-' :: (w1 ++ '-' :: w2)) = d := by
  unfold accountComponent
  rw [splitCh_append_sep '-' d _ hd]
  rfl

/-- A shaped name carrying the `A-V-` prefix has account component `A`
and vpc component `V`. -/
theorem components_of_scoped (A V n : Str) (hA : A.all Char.isDigit = true)
    (hV : V.all Char.isAlphanum = true) (hs : RuleNameShape n)
    (hpre : (scopeMark A V).isPrefixOf n = true) :
    accountComponent n = A ∧ vpcComponent n = V := by
  obtain ⟨d, w1, w2, rfl, hdne, hdd, h1ne, h1a, h2ne, h2a⟩ := hs
  obtain ⟨t, ht⟩ := List.isPrefixOf_iff_prefix.mp hpre
  have hflat : A ++ '-' :: (V ++ '-' :: t) = d ++ '-' :: (w1 ++ '-' :: w2) := by
    rw [← ht]
    simp [scopeMark, List.append_assoc]
  have hdA : d = A := by
    have hL : (A ++ '-' :: (V ++ '-' :: t)).takeWhile Char.isDigit = A :=
      takeWhile_append_sep _ _ _ _ hA (by simp)
    have hR : (d ++ '-' :: (w1 ++ '-' :: w2)).takeWhile Char.isDigit = d :=
      takeWhile_append_sep _ _ _ _ hdd (by simp)
    rw [← hL, ← hR, hflat]
  subst hdA
  have htail : V ++ '-' :: t = w1 ++ '-' :: w2 :=
    List.cons_injective.eq_iff.mp (List.append_cancel_left hflat)
  have h1V : w1 = V := by
    have hL : (V ++ '-' :: t).takeWhile Char.isAlphanum = V :=
      takeWhile_append_sep _ _ _ _ hV (by simp)
    have hR : (w1 ++ '-' :: w2).takeWhile Char.isAlphanum = w1 :=
      takeWhile_append_sep _ _ _ _ h1a (by simp)
    rw [← hL, ← hR, htail]
  subst h1V
  exact ⟨accountComponent_shape _ _ _ (not_dash_mem_of_all_digit _ hdd),
    vpcComponent_shape _ _ _ (not_dash_mem_of_all_digit _ hdd)
      (not_dash_mem_of_all_alnum _ h1a)⟩

/-- A key of the shape `A-V-h` carries the `A-V-` prefix. -/
theorem scoped_of_key (A V h : Str) :
    (scopeMark A V).isPrefixOf (A ++ '-' :: (V ++ '-' :: h)) = true := by
  apply List.isPrefixOf_iff_prefix.mpr
  refine ⟨h, ?_⟩
  simp [scopeMark, List.append_assoc]

/-! ### ARN lemmas -/

theorem afterFirst_of_append (c : Char) (p t : Str) (hp : c ∉ p) :
    afterFirst c (p ++ c :: t) = some t := by
  induction p with
  | nil => simp [afterFirst]
  | cons d ds ih =>
    show afterFirst c (d :: (ds ++ c :: t)) = some t
    rw [afterFirst]
    rw [if_neg (fun hd => hp (List.mem_cons.mpr (Or.inl hd.symm)))]
    exact ih fun hm => hp (List.mem_cons_of_mem d hm)

theorem arnToName_groupArnOf (n : Str) : arnToName (groupArnOf n) = n := by
  unfold arnToName groupArnOf
  rw [afterFirst_of_append '/' _ n (by decide)]
  rfl

theorem groupArnOf_inj (n m : Str) (h : groupArnOf n = groupArnOf m) :
    n = m := by
  have := congrArg arnToName h
  rwa [arnToName_groupArnOf, arnToName_groupArnOf] at this

/-! ### `annot` and `namedEntries` lemmas -/

theorem namedEntries_ok (es : List (Str × Str))
    (h : ∀ e ∈ es, (getRuleNameFromRuleString e.2).isSome = true) :
    namedEntries es =
      .ok (es.map fun e => (e.1, e.2, (getRuleNameFromRuleString e.2).getD [])) := by
  induction es with
  | nil => rfl
  | cons e es ih =>
    rw [namedEntries]
    cases hm : getRuleNameFromRuleString e.2 with
    | none =>
      have := h e (List.mem_cons_self e es)
      rw [hm] at this
      simp at this
    | some n =>
      rw [ih fun x hx => h x (List.mem_cons_of_mem e hx)]
      simp [hm]

theorem getRuleEntries_eq (s : FwState) :
    getRuleEntries s = s.groups.flatMap fun g =>
      (groupLines g).map fun l => (g.arn, l) := rfl

theorem namedEntries_getRuleEntries (s : FwState)
    (h : ∀ g ∈ s.groups, ∀ l ∈ groupLines g,
      (getRuleNameFromRuleString l).isSome = true) :
    namedEntries (getRuleEntries s) = .ok (annot s) := by
  rw [getRuleEntries_eq, namedEntries_ok]
  · unfold annot
    congr 1
    rw [List.map_flatMap]
    congr 1
    funext g
    rw [List.map_map]
    rfl
  · intro e he
    rw [List.mem_flatMap] at he
    obtain ⟨g, hg, he⟩ := he
    rw [List.mem_map] at he
    obtain ⟨l, hl, rfl⟩ := he
    exact h g hg l hl

theorem mem_annot (s : FwState) (a l n : Str) :
    (a, l, n) ∈ annot s ↔ ∃ g ∈ s.groups, a = g.arn ∧ l ∈ groupLines g ∧
      n = (getRuleNameFromRuleString l).getD [] := by
  unfold annot
  rw [List.mem_flatMap]
  constructor
  · rintro ⟨g, hg, ht⟩
    rw [List.mem_map] at ht
    obtain ⟨l', hl, heq⟩ := ht
    have e1 : g.arn = a := congrArg Prod.fst heq
    have e2 : l' = l := congrArg (fun p => p.2.1) heq
    have e3 : (getRuleNameFromRuleString l').getD [] = n :=
      congrArg (fun p => p.2.2) heq
    subst e2
    exact ⟨g, hg, e1.symm, hl, e3.symm⟩
  · rintro ⟨g, hg, rfl, h2, rfl⟩
    refine ⟨g, hg, ?_⟩
    rw [List.mem_map]
    exact ⟨l, h2, rfl⟩

/-! ### Group decomposition and frame lemmas -/

/-- A group of an ARN-nodup state splits the group list, and an
ARN-keyed pointwise update touches exactly it. -/
theorem groups_decomp_update (s : FwState) (g : RuleGroup)
    (f : RuleGroup → RuleGroup)
    (hn : (s.groups.map RuleGroup.arn).Nodup) (hg : g ∈ s.groups) :
    ∃ pre post, s.groups = pre ++ g :: post ∧
      (∀ h ∈ pre, h.arn ≠ g.arn) ∧ (∀ h ∈ post, h.arn ≠ g.arn) ∧
      (s.groups.map fun h => if h.arn = g.arn then f h else h)
        = pre ++ f g :: post := by
  obtain ⟨pre, post, heq⟩ := List.append_of_mem hg
  rw [heq, List.map_append, List.map_cons] at hn
  have hparts := List.nodup_append.mp hn
  have hpre : ∀ h ∈ pre, h.arn ≠ g.arn := by
    intro h hh heqa
    have hmem : g.arn ∈ pre.map RuleGroup.arn := by
      rw [← heqa]
      exact List.mem_map_of_mem _ hh
    exact hparts.2.2 hmem (List.mem_cons_self _ _)
  have hpost : ∀ h ∈ post, h.arn ≠ g.arn := by
    intro h hh heqa
    have := (List.nodup_cons.mp hparts.2.1).1
    apply this
    rw [← heqa]
    exact List.mem_map_of_mem _ hh
  refine ⟨pre, post, heq, hpre, hpost, ?_⟩
  rw [heq, List.map_append, List.map_cons, if_pos rfl]
  congr 1
  · calc pre.map (fun h => if h.arn = g.arn then f h else h)
        = pre.map id := List.map_congr_left fun h hh => if_neg (hpre h hh)
      _ = pre := List.map_id pre
  · congr 1
    calc post.map (fun h => if h.arn = g.arn then f h else h)
        = post.map id := List.map_congr_left fun h hh => if_neg (hpost h hh)
      _ = post := List.map_id post

theorem find?_arn (l : List RuleGroup) (g : RuleGroup)
    (hn : (l.map RuleGroup.arn).Nodup) (hg : g ∈ l) :
    l.find? (fun h => h.arn = g.arn) = some g := by
  induction l with
  | nil => exact absurd hg (by simp)
  | cons h t ih =>
    rw [List.map_cons, List.nodup_cons] at hn
    by_cases harn : h.arn = g.arn
    · rcases List.mem_cons.mp hg with rfl | hgt
      · rw [List.find?_cons_of_pos _ (by simp)]
      · exact absurd (harn ▸ List.mem_map_of_mem RuleGroup.arn hgt) hn.1
    · have hgt : g ∈ t := by
        rcases List.mem_cons.mp hg with rfl | hgt
        · exact absurd rfl harn
        · exact hgt
      rw [List.find?_cons_of_neg _ (by simpa using harn)]
      exact ih hn.2 hgt

theorem findGroup_eq (s : FwState) (g : RuleGroup)
    (hn : (s.groups.map RuleGroup.arn).Nodup) (hg : g ∈ s.groups) :
    findGroup s g.arn = some g := find?_arn s.groups g hn hg

/-- Entries of one group, by ARN, out of the whole entry list. -/
theorem entries_filter_arn (s : FwState) (g : RuleGroup)
    (hn : (s.groups.map RuleGroup.arn).Nodup) (hg : g ∈ s.groups) :
    (getRuleEntries s).filter (fun e => e.1 = g.arn)
      = (groupLines g).map fun l => (g.arn, l) := by
  obtain ⟨pre, post, heq, hpre, hpost, -⟩ :=
    groups_decomp_update s g id hn hg
  rw [getRuleEntries_eq, heq, List.flatMap_append, List.flatMap_cons,
    List.filter_append, List.filter_append]
  have hside : ∀ (l : List RuleGroup), (∀ h ∈ l, h.arn ≠ g.arn) →
      (l.flatMap fun h => (groupLines h).map fun x => (h.arn, x)).filter
        (fun e => e.1 = g.arn) = [] := by
    intro l hl
    rw [List.filter_eq_nil_iff]
    intro e he
    rw [List.mem_flatMap] at he
    obtain ⟨h, hh, he⟩ := he
    rw [List.mem_map] at he
    obtain ⟨x, -, rfl⟩ := he
    simpa using hl h hh
  rw [hside pre hpre, hside post hpost]
  have hown : ((groupLines g).map fun x => (g.arn, x)).filter
      (fun e => e.1 = g.arn) = (groupLines g).map fun x => (g.arn, x) := by
    rw [List.filter_eq_self]
    intro e he
    rw [List.mem_map] at he
    obtain ⟨x, -, rfl⟩ := he
    simp
  rw [hown]
  simp

/-- `keepLines` on a list whose matching entries extract. -/
theorem keepLines_spec (a target : Str) (es : List (Str × Str))
    (h : ∀ e ∈ es, e.1 = a → (getRuleNameFromRuleString e.2).isSome = true) :
    keepLines a target es =
      .ok (((es.filter (fun e => e.1 = a)).map (fun e => e.2)).filter
        (fun l => (getRuleNameFromRuleString l).getD [] ≠ target)) := by
  induction es with
  | nil => rfl
  | cons e es ih =>
    rw [keepLines]
    by_cases hea : e.1 = a
    · rw [if_pos hea]
      cases hm : getRuleNameFromRuleString e.2 with
      | none =>
        have := h e (List.mem_cons_self e es) hea
        rw [hm] at this
        simp at this
      | some n =>
        rw [ih fun x hx hxa => h x (List.mem_cons_of_mem e hx) hxa]
        by_cases hnt : n = target
        · simp [List.filter_cons, hea, hm, hnt]
        · simp [List.filter_cons, hea, hm, hnt]
    · rw [if_neg hea, ih fun x hx hxa => h x (List.mem_cons_of_mem e hx) hxa]
      rw [List.filter_cons, if_neg (by simpa using hea)]

/-- `cleanUpStep`, characterized on a well-formed state: filter the
target's group, then update or delete. -/
theorem cleanUpStep_spec (s : FwState) (line target : Str) (g : RuleGroup)
    (hwf : WfBase s) (hg : g ∈ s.groups)
    (hline : getRuleNameFromRuleString line = some target) :
    cleanUpStep s (g.arn, line) =
      (if joinCh '\n' ((groupLines g).filter
          (fun l => (getRuleNameFromRuleString l).getD [] ≠ target)) = [] then
        .ok (deleteRuleIfExists (arnToName g.arn) s)
      else
        .ok (setGroupRules g.arn (joinCh '\n' ((groupLines g).filter
          (fun l => (getRuleNameFromRuleString l).getD [] ≠ target))) s)) := by
  have hkeep := keepLines_spec g.arn target (getRuleEntries s) ?side
  case side =>
    intro e he hea
    rw [getRuleEntries_eq, List.mem_flatMap] at he
    obtain ⟨h, hh, he⟩ := he
    rw [List.mem_map] at he
    obtain ⟨x, hx, rfl⟩ := he
    exact hwf.extractable h hh x hx
  have hlines : ((getRuleEntries s).filter (fun e => e.1 = g.arn)).map
      (fun e => e.2) = groupLines g := by
    rw [entries_filter_arn s g hwf.arnsNodup hg, List.map_map]
    simp
  rw [hlines] at hkeep
  unfold cleanUpStep
  simp only [hline, hkeep, findGroup_eq s g hwf.arnsNodup hg]

/-! ### Small list helpers for the reconciler development -/

theorem eq_singleton_of_all_eq {α : Type} (l : List α) (x : α) (hx : x ∈ l)
    (hnd : l.Nodup) (hall : ∀ y ∈ l, y = x) : l = [x] := by
  cases l with
  | nil => exact absurd hx (by simp)
  | cons a t =>
    have ha : a = x := hall a (by simp)
    cases t with
    | nil => rw [ha]
    | cons b u =>
      have hb : b = x := hall b (by simp)
      rw [List.nodup_cons] at hnd
      exact absurd (show a ∈ b :: u by rw [ha, ← hb]; simp) hnd.1

theorem removeFirst_sublist (x : Str) (l : List Str) :
    (removeFirst x l).Sublist l := by
  induction l with
  | nil => simp [removeFirst]
  | cons y ys ih =>
    rw [removeFirst]
    by_cases h : y = x
    · rw [if_pos h]
      exact List.sublist_cons_self y ys
    · rw [if_neg h]
      exact ih.cons₂ y

theorem removeFirst_of_not_mem (x : Str) (l : List Str) (h : x ∉ l) :
    removeFirst x l = l := by
  induction l with
  | nil => rfl
  | cons y ys ih =>
    rw [removeFirst, if_neg (fun hy => h (by rw [hy]; simp)),
      ih fun hm => h (List.mem_cons_of_mem y hm)]

theorem not_mem_removeFirst (x : Str) (l : List Str) (h : l.Nodup) :
    x ∉ removeFirst x l := by
  induction l with
  | nil => simp [removeFirst]
  | cons y ys ih =>
    rw [List.nodup_cons] at h
    rw [removeFirst]
    by_cases hy : y = x
    · rw [if_pos hy]
      exact hy ▸ h.1
    · rw [if_neg hy]
      intro hm
      rcases List.mem_cons.mp hm with rfl | hm2
      · exact hy rfl
      · exact ih h.2 hm2

/-! ### `upsertKeepPos` (the Python dict) -/

theorem upsertKeepPos_keys_mem (k k' : Str) (v : Str × Str)
    (l : List (Str × (Str × Str))) :
    k' ∈ (upsertKeepPos k v l).map Prod.fst ↔
      k' ∈ l.map Prod.fst ∨ k' = k := by
  induction l with
  | nil => simp [upsertKeepPos]
  | cons e t ih =>
    obtain ⟨ek, ev⟩ := e
    rw [upsertKeepPos]
    by_cases hek : ek = k
    · subst hek
      rw [if_pos rfl]
      simp
      tauto
    · rw [if_neg hek]
      simp only [List.map_cons, List.mem_cons, ih]
      constructor
      · rintro (h | h | h)
        · exact Or.inl (Or.inl h)
        · exact Or.inl (Or.inr h)
        · exact Or.inr h
      · rintro ((h | h) | h)
        · exact Or.inl h
        · exact Or.inr (Or.inl h)
        · exact Or.inr (Or.inr h)

theorem upsertKeepPos_keys_nodup (k : Str) (v : Str × Str)
    (l : List (Str × (Str × Str))) (h : (l.map Prod.fst).Nodup) :
    ((upsertKeepPos k v l).map Prod.fst).Nodup := by
  induction l with
  | nil => simp [upsertKeepPos]
  | cons e t ih =>
    obtain ⟨ek, ev⟩ := e
    rw [List.map_cons, List.nodup_cons] at h
    rw [upsertKeepPos]
    by_cases hek : ek = k
    · rw [if_pos hek]
      rw [List.map_cons, List.nodup_cons]
      exact ⟨h.1, h.2⟩
    · rw [if_neg hek]
      rw [List.map_cons, List.nodup_cons]
      refine ⟨?_, ih h.2⟩
      intro hm
      rcases (upsertKeepPos_keys_mem k ek v t).mp hm with h2 | h2
      · exact h.1 h2
      · exact hek h2

theorem upsertKeepPos_mem (k : Str) (v : Str × Str)
    (l : List (Str × (Str × Str))) (e : Str × (Str × Str))
    (he : e ∈ upsertKeepPos k v l) : e = (k, v) ∨ e ∈ l := by
  induction l with
  | nil =>
    rw [upsertKeepPos] at he
    exact Or.inl (by simpa using he)
  | cons f t ih =>
    obtain ⟨fk, fv⟩ := f
    rw [upsertKeepPos] at he
    by_cases hf : fk = k
    · rw [if_pos hf] at he
      rcases List.mem_cons.mp he with rfl | h2
      · exact Or.inl (by rw [hf])
      · exact Or.inr (List.mem_cons_of_mem _ h2)
    · rw [if_neg hf] at he
      rcases List.mem_cons.mp he with rfl | h2
      · exact Or.inr (by simp)
      · rcases ih h2 with h3 | h3
        · exact Or.inl h3
        · exact Or.inr (List.mem_cons_of_mem _ h3)

/-! ### `ensureIpSet` -/

theorem ensureIpSet_fixed (n sp : Str) (sets : List (Str × List Str))
    (hmem : sets.any (fun p => p.1 = n) = true)
    (h : ∀ p ∈ sets, p.1 = n → p = (n, [sp])) :
    ensureIpSet n sp sets = sets := by
  unfold ensureIpSet
  rw [if_pos hmem]
  calc sets.map (fun p => if p.1 = n then (p.1, [sp]) else p)
      = sets.map id := by
        apply List.map_congr_left
        intro p hp
        by_cases hpn : p.1 = n
        · rw [if_pos hpn, h p hp hpn]
          rfl
        · rw [if_neg hpn]
          rfl
    _ = sets := List.map_id sets

theorem ensureIpSet_any (n sp : Str) (sets : List (Str × List Str)) :
    (ensureIpSet n sp sets).any (fun p => p.1 = n) = true := by
  unfold ensureIpSet
  by_cases hmem : sets.any (fun p => p.1 = n) = true
  · rw [if_pos hmem]
    rw [List.any_eq_true] at hmem ⊢
    obtain ⟨p, hp, hpn⟩ := hmem
    refine ⟨(p.1, [sp]), ?_, hpn⟩
    rw [List.mem_map]
    exact ⟨p, hp, by rw [if_pos (by simpa using hpn)]⟩
  · rw [if_neg hmem]
    rw [List.any_eq_true]
    exact ⟨(n, [sp]), by simp, by simp⟩

theorem ensureIpSet_keyfixed (n sp : Str) (sets : List (Str × List Str)) :
    ∀ p ∈ ensureIpSet n sp sets, p.1 = n → p = (n, [sp]) := by
  unfold ensureIpSet
  by_cases hmem : sets.any (fun p => p.1 = n) = true
  · rw [if_pos hmem]
    intro p hp hpn
    rw [List.mem_map] at hp
    obtain ⟨q, hq, rfl⟩ := hp
    by_cases hqn : q.1 = n
    · rw [if_pos hqn] at hpn ⊢
      rw [hqn]
    · rw [if_neg hqn] at hpn
      exact absurd hpn hqn
  · rw [if_neg hmem]
    intro p hp hpn
    rcases List.mem_append.mp hp with h2 | h2
    · rw [List.any_eq_true] at hmem
      exact absurd ⟨p, h2, by simpa using hpn⟩ hmem
    · simpa using h2

theorem ensureIpSet_idem (n sp : Str) (sets : List (Str × List Str)) :
    ensureIpSet n sp (ensureIpSet n sp sets) = ensureIpSet n sp sets :=
  ensureIpSet_fixed n sp _ (ensureIpSet_any n sp sets)
    (ensureIpSet_keyfixed n sp sets)

/-! ### `associateGo` and policy bookkeeping -/

theorem associateGo_mem (arn : Str) (ps ps' : List FwPolicy)
    (h : associateGo arn ps = some ps') :
    ∀ p' ∈ ps', p' ∈ ps ∨ ∃ p ∈ ps, p' = { p with refs := p.refs ++ [arn] } := by
  induction ps generalizing ps' with
  | nil => exact absurd h (by simp [associateGo])
  | cons p t ih =>
    rw [associateGo] at h
    by_cases hlen : p.refs.length ≤ MAX_RULES_PRE_POLICY
    · rw [if_pos hlen] at h
      obtain rfl := (Option.some.injEq _ _).mp h
      intro p' hp'
      rcases List.mem_cons.mp hp' with rfl | h2
      · exact Or.inr ⟨p, by simp, rfl⟩
      · exact Or.inl (List.mem_cons_of_mem _ h2)
    · rw [if_neg hlen] at h
      cases hgo : associateGo arn t with
      | none =>
        rw [hgo] at h
        exact absurd h (by simp)
      | some q =>
        rw [hgo] at h
        obtain rfl := (Option.some.injEq _ _).mp h
        intro p' hp'
        rcases List.mem_cons.mp hp' with rfl | h2
        · exact Or.inl (by simp)
        · rcases ih q hgo p' h2 with h3 | ⟨q', hq', rfl⟩
          · exact Or.inl (List.mem_cons_of_mem _ h3)
          · exact Or.inr ⟨q', List.mem_cons_of_mem _ hq', rfl⟩

/-! ### Decomposition keyed on the group name -/

theorem groups_decomp_update_name (s : FwState) (g : RuleGroup)
    (f : RuleGroup → RuleGroup)
    (hn : (s.groups.map fun h => arnToName h.arn).Nodup) (hg : g ∈ s.groups) :
    ∃ pre post, s.groups = pre ++ g :: post ∧
      (∀ h ∈ pre, arnToName h.arn ≠ arnToName g.arn) ∧
      (∀ h ∈ post, arnToName h.arn ≠ arnToName g.arn) ∧
      (s.groups.map fun h =>
        if arnToName h.arn = arnToName g.arn then f h else h)
        = pre ++ f g :: post := by
  obtain ⟨pre, post, heq⟩ := List.append_of_mem hg
  rw [heq, List.map_append, List.map_cons] at hn
  have hparts := List.nodup_append.mp hn
  have hpre : ∀ h ∈ pre, arnToName h.arn ≠ arnToName g.arn := by
    intro h hh heqa
    have hmem : arnToName g.arn ∈ pre.map fun h => arnToName h.arn := by
      rw [← heqa]
      exact List.mem_map_of_mem _ hh
    exact hparts.2.2 hmem (List.mem_cons_self _ _)
  have hpost : ∀ h ∈ post, arnToName h.arn ≠ arnToName g.arn := by
    intro h hh heqa
    have := (List.nodup_cons.mp hparts.2.1).1
    apply this
    rw [← heqa]
    exact List.mem_map_of_mem _ hh
  refine ⟨pre, post, heq, hpre, hpost, ?_⟩
  rw [heq, List.map_append, List.map_cons, if_pos rfl]
  congr 1
  · calc pre.map (fun h =>
          if arnToName h.arn = arnToName g.arn then f h else h)
        = pre.map id := List.map_congr_left fun h hh => if_neg (hpre h hh)
      _ = pre := List.map_id pre
  · congr 1
    calc post.map (fun h =>
          if arnToName h.arn = arnToName g.arn then f h else h)
        = post.map id := List.map_congr_left fun h hh => if_neg (hpost h hh)
      _ = post := List.map_id post

/-! ### `annot` decomposition -/

theorem annot_eq_flatMap (s : FwState) : annot s = s.groups.flatMap annotG :=
  rfl

theorem annot_decomp (s : FwState) (pre post : List RuleGroup) (g : RuleGroup)
    (h : s.groups = pre ++ g :: post) :
    annot s = pre.flatMap annotG ++ (annotG g ++ post.flatMap annotG) := by
  rw [annot_eq_flatMap, h, List.flatMap_append, List.flatMap_cons]

theorem annot_filter_arn (s : FwState) (g : RuleGroup)
    (hn : (s.groups.map RuleGroup.arn).Nodup) (hg : g ∈ s.groups) :
    (annot s).filter (fun t => t.1 = g.arn) = annotG g := by
  obtain ⟨pre, post, heq, hpre, hpost, -⟩ := groups_decomp_update s g id hn hg
  rw [annot_decomp s pre post g heq, List.filter_append, List.filter_append]
  have hside : ∀ (l : List RuleGroup), (∀ h ∈ l, h.arn ≠ g.arn) →
      (l.flatMap annotG).filter (fun t => t.1 = g.arn) = [] := by
    intro l hl
    rw [List.filter_eq_nil_iff]
    intro t ht
    rw [List.mem_flatMap] at ht
    obtain ⟨h, hh, ht⟩ := ht
    unfold annotG at ht
    rw [List.mem_map] at ht
    obtain ⟨x, -, rfl⟩ := ht
    simpa using hl h hh
  have hown : (annotG g).filter (fun t => t.1 = g.arn) = annotG g := by
    rw [List.filter_eq_self]
    intro t ht
    unfold annotG at ht
    rw [List.mem_map] at ht
    obtain ⟨x, -, rfl⟩ := ht
    simp
  rw [hside pre hpre, hside post hpost, hown]
  simp

/-- The unique filter hit for a name present in a well-formed state. -/
theorem hits_eq_singleton (s : FwState) (k : Str) (t : Str × Str × Str)
    (hwf : WfBase s) (ht : t ∈ annot s) (htk : t.2.2 = k) :
    (annot s).filter (fun u => u.2.2 = k) = [t] := by
  have hnd : (annot s).Nodup := List.Nodup.of_map _ hwf.namesNodup
  apply eq_singleton_of_all_eq
  · exact List.mem_filter.mpr ⟨ht, by simp [htk]⟩
  · exact (List.filter_sublist _).nodup hnd
  · intro u hu
    have hu2 := List.mem_filter.mp hu
    refine List.inj_on_of_nodup_map hwf.namesNodup hu2.1 ht ?_
    have := hu2.2
    simp only [decide_eq_true_eq] at this
    rw [this, htk]

/-! ### Smallest-fit scan -/

theorem getRuleGroup_aux (l : List RuleGroup) (acc : Nat × Str) :
    (l.foldl (fun acc g =>
      if g.consumed < acc.1 ∧ g.status ≠ "DELETING".data ∧
          ¬ ("reserved".data.isSuffixOf g.arn) then
        (g.consumed, g.arn)
      else acc) acc).2 = acc.2 ∨
    ∃ g ∈ l, (l.foldl (fun acc g =>
      if g.consumed < acc.1 ∧ g.status ≠ "DELETING".data ∧
          ¬ ("reserved".data.isSuffixOf g.arn) then
        (g.consumed, g.arn)
      else acc) acc).2 = g.arn ∧ g.status ≠ "DELETING".data ∧
      ¬ ("reserved".data.isSuffixOf g.arn) := by
  induction l generalizing acc with
  | nil => exact Or.inl rfl
  | cons g t ih =>
    rw [List.foldl_cons]
    by_cases hc : g.consumed < acc.1 ∧ g.status ≠ "DELETING".data ∧
        ¬ ("reserved".data.isSuffixOf g.arn)
    · rw [if_pos hc]
      rcases ih (g.consumed, g.arn) with h | ⟨g', hg', h⟩
      · exact Or.inr ⟨g, by simp, h, hc.2.1, hc.2.2⟩
      · exact Or.inr ⟨g', List.mem_cons_of_mem _ hg', h⟩
    · rw [if_neg hc]
      rcases ih acc with h | ⟨g', hg', h⟩
      · exact Or.inl h
      · exact Or.inr ⟨g', List.mem_cons_of_mem _ hg', h⟩

theorem getRuleGroup_mem (s : FwState) (h : getRuleGroup s ≠ []) :
    ∃ g ∈ s.groups, getRuleGroup s = g.arn ∧ g.status ≠ "DELETING".data ∧
      ¬ ("reserved".data.isSuffixOf g.arn) := by
  rcases getRuleGroup_aux s.groups (RULE_GROUP_CAPACITY, ([] : Str)) with h2 | h2
  · exact absurd h2 h
  · exact h2

/-! ### Delete-by-name -/

theorem foldl_delete_skip (n : Str) (l : List RuleGroup) (st : FwState)
    (h : ∀ g ∈ l, arnToName g.arn ≠ n) :
    l.foldl (fun st g => if arnToName g.arn = n then
      markDeletingByName n (disassociateRuleFromPolicy g.arn st) else st) st
      = st := by
  induction l generalizing st with
  | nil => rfl
  | cons g t ih =>
    rw [List.foldl_cons, if_neg (h g (by simp))]
    exact ih _ fun g' hg' => h g' (List.mem_cons_of_mem _ hg')

theorem deleteRuleIfExists_eq (s : FwState) (g : RuleGroup)
    (hn : (s.groups.map fun h => arnToName h.arn).Nodup) (hg : g ∈ s.groups) :
    deleteRuleIfExists (arnToName g.arn) s =
      markDeletingByName (arnToName g.arn)
        (disassociateRuleFromPolicy g.arn s) := by
  obtain ⟨pre, post, heq, hpre, hpost, -⟩ :=
    groups_decomp_update_name s g id hn hg
  unfold deleteRuleIfExists
  rw [heq, List.foldl_append, List.foldl_cons,
    foldl_delete_skip _ pre s hpre, if_pos rfl]
  exact foldl_delete_skip _ post _ hpost

/-! ### `__add_rule_entry`, case by case -/

theorem annotG_lines (g : RuleGroup) :
    (annotG g).map (fun t => t.2.1) = groupLines g := by
  unfold annotG
  rw [List.map_map]
  exact List.map_id _

theorem joinCh_groupLines (g : RuleGroup) :
    joinCh '\n' (groupLines g) = g.rulesString := by
  unfold groupLines
  exact joinCh_splitCh '\n' g.rulesString

/-- The existing-rule branch: the rule name is already present, so the
holding group is rewritten with its own lines (and the ensured IP set). -/
theorem addRuleEntry_hit (rs sp ipn k : Str) (s : FwState)
    (t : Str × Str × Str) (g : RuleGroup)
    (hwf : WfBase s)
    (hk : getRuleNameFromRuleString rs = some k)
    (ht : t ∈ annot s) (htk : t.2.2 = k)
    (hg : g ∈ s.groups) (hga : t.1 = g.arn) :
    addRuleEntry rs sp ipn s =
      .ok (setGroupRulesIp g.arn g.rulesString (ensureIpSet ipn sp g.ipSets) s,
        some g.arn) := by
  have hnamed := namedEntries_getRuleEntries s hwf.extractable
  have hhits := hits_eq_singleton s k t hwf ht htk
  have hlines : ((annot s).filter (fun u => u.1 = g.arn)).map (fun u => u.2.1)
      = groupLines g := by
    rw [annot_filter_arn s g hwf.arnsNodup hg, annotG_lines]
  unfold addRuleEntry
  rw [hk, hnamed]
  simp only [hhits, hga, List.isEmpty_cons, List.getLast?_singleton,
    Option.map_some, Option.getD_some]
  simp [hga, hlines, joinCh_groupLines g, findGroup_eq s g hwf.arnsNodup hg]

/-- The fresh-rule branch with room: the smallest-fit group receives its
own lines plus the new rule. -/
theorem addRuleEntry_miss_room (rs sp ipn k : Str) (s : FwState)
    (g : RuleGroup) (hwf : WfBase s)
    (hk : getRuleNameFromRuleString rs = some k)
    (hfresh : ∀ u ∈ annot s, u.2.2 ≠ k)
    (hgg : getRuleGroup s = g.arn) (hg : g ∈ s.groups) (hne : g.arn ≠ []) :
    addRuleEntry rs sp ipn s =
      .ok (setGroupRulesIp g.arn (joinCh '\n' (groupLines g ++ [rs]))
        (ensureIpSet ipn sp g.ipSets) s, some g.arn) := by
  have hnamed := namedEntries_getRuleEntries s hwf.extractable
  have hhits : (annot s).filter (fun u => u.2.2 = k) = [] := by
    rw [List.filter_eq_nil_iff]
    intro u hu
    simpa using hfresh u hu
  have hlines : ((annot s).filter (fun u => u.1 = g.arn)).map (fun u => u.2.1)
      = groupLines g := by
    rw [annot_filter_arn s g hwf.arnsNodup hg, annotG_lines]
  unfold addRuleEntry
  rw [hk, hnamed]
  simp only [hhits, hgg, List.isEmpty_nil]
  rw [if_neg (by simp [hne])]
  simp [hlines, findGroup_eq s g hwf.arnsNodup hg]

/-- The fresh-rule branch without room: the early return that triggers
group creation in `add_new_rule`. -/
theorem addRuleEntry_miss_noroom (rs sp ipn k : Str) (s : FwState)
    (hwf : WfBase s) (hk : getRuleNameFromRuleString rs = some k)
    (hfresh : ∀ u ∈ annot s, u.2.2 ≠ k)
    (hgg : getRuleGroup s = []) :
    addRuleEntry rs sp ipn s = .ok (s, none) := by
  have hnamed := namedEntries_getRuleEntries s hwf.extractable
  have hhits : (annot s).filter (fun u => u.2.2 = k) = [] := by
    rw [List.filter_eq_nil_iff]
    intro u hu
    simpa using hfresh u hu
  unfold addRuleEntry
  rw [hk, hnamed]
  simp [hhits, hgg]

/-! ### State-shape and observation helpers -/

theorem groupLines_ne_nil (g : RuleGroup) : groupLines g ≠ [] :=
  splitCh_ne_nil '\n' g.rulesString

theorem joinCh_ne_nil_of (c : Char) (ls : List Str) (hne : ls ≠ [])
    (h0 : ∀ p ∈ ls, p ≠ []) : joinCh c ls ≠ [] := by
  cases ls with
  | nil => exact absurd rfl hne
  | cons x xs =>
    cases xs with
    | nil => exact h0 x (by simp)
    | cons y r =>
      show x ++ c :: joinCh c (y :: r) ≠ []
      simp

theorem gnames_eq_of_arns_eq (l l' : List RuleGroup)
    (h : l.map RuleGroup.arn = l'.map RuleGroup.arn) :
    (l.map fun g => arnToName g.arn) = l'.map fun g => arnToName g.arn := by
  have hm : ∀ (m : List RuleGroup), (m.map fun g => arnToName g.arn)
      = (m.map RuleGroup.arn).map arnToName := by
    intro m
    rw [List.map_map]
    rfl
  rw [hm, hm, h]

theorem mem_liveLines (s : FwState) (l : Str) :
    l ∈ liveLines s ↔ ∃ g ∈ s.groups, g.status ≠ "DELETING".data ∧
      l ∈ groupLines g := by
  unfold liveLines liveGroups
  rw [List.mem_flatMap]
  constructor
  · rintro ⟨g, hg, hl⟩
    have h2 := List.mem_filter.mp hg
    exact ⟨g, h2.1, by simpa using h2.2, hl⟩
  · rintro ⟨g, hg, hs, hl⟩
    exact ⟨g, List.mem_filter.mpr ⟨hg, by simpa using hs⟩, hl⟩

theorem mem_liveNames (s : FwState) (n : Str) :
    n ∈ liveNames s ↔ ∃ l ∈ liveLines s,
      getRuleNameFromRuleString l = some n := by
  unfold liveNames
  rw [List.mem_filterMap]

theorem annotG_congr (g g' : RuleGroup) (ha : g'.arn = g.arn)
    (hr : g'.rulesString = g.rulesString) : annotG g' = annotG g := by
  unfold annotG groupLines
  rw [ha, hr]

theorem mem_groups_decomp (s : FwState) (pre post : List RuleGroup)
    (g h : RuleGroup) (heq : s.groups = pre ++ g :: post)
    (hh : h ∈ s.groups) : h ∈ pre ∨ h = g ∨ h ∈ post := by
  rw [heq] at hh
  rcases List.mem_append.mp hh with h2 | h2
  · exact Or.inl h2
  · rcases List.mem_cons.mp h2 with h3 | h3
    · exact Or.inr (Or.inl h3)
    · exact Or.inr (Or.inr h3)

theorem setGroupRules_shape (s : FwState) (g : RuleGroup) (rs' : Str)
    (hn : (s.groups.map RuleGroup.arn).Nodup) (hg : g ∈ s.groups) :
    ∃ pre post, s.groups = pre ++ g :: post ∧
      (∀ h ∈ pre, h.arn ≠ g.arn) ∧ (∀ h ∈ post, h.arn ≠ g.arn) ∧
      (setGroupRules g.arn rs' s).groups
        = pre ++ { g with rulesString := rs' } :: post ∧
      (setGroupRules g.arn rs' s).policies = s.policies := by
  obtain ⟨pre, post, heq, hpre, hpost, hmap⟩ :=
    groups_decomp_update s g (fun h => { h with rulesString := rs' }) hn hg
  exact ⟨pre, post, heq, hpre, hpost, hmap, rfl⟩

theorem setGroupRulesIp_shape (s : FwState) (g : RuleGroup) (rs' : Str)
    (sets : List (Str × List Str))
    (hn : (s.groups.map RuleGroup.arn).Nodup) (hg : g ∈ s.groups) :
    ∃ pre post, s.groups = pre ++ g :: post ∧
      (∀ h ∈ pre, h.arn ≠ g.arn) ∧ (∀ h ∈ post, h.arn ≠ g.arn) ∧
      (setGroupRulesIp g.arn rs' sets s).groups
        = pre ++ { g with rulesString := rs', ipSets := sets } :: post ∧
      (setGroupRulesIp g.arn rs' sets s).policies = s.policies := by
  obtain ⟨pre, post, heq, hpre, hpost, hmap⟩ :=
    groups_decomp_update s g
      (fun h => { h with rulesString := rs', ipSets := sets }) hn hg
  exact ⟨pre, post, heq, hpre, hpost, hmap, rfl⟩

theorem markDeleting_disassoc_shape (s : FwState) (g : RuleGroup)
    (hn : (s.groups.map fun h => arnToName h.arn).Nodup) (hg : g ∈ s.groups) :
    ∃ pre post, s.groups = pre ++ g :: post ∧
      (∀ h ∈ pre, arnToName h.arn ≠ arnToName g.arn) ∧
      (∀ h ∈ post, arnToName h.arn ≠ arnToName g.arn) ∧
      (deleteRuleIfExists (arnToName g.arn) s).groups
        = pre ++ { g with status := "DELETING".data } :: post ∧
      (deleteRuleIfExists (arnToName g.arn) s).policies
        = s.policies.map fun p => { p with refs := removeFirst g.arn p.refs }
      := by
  obtain ⟨pre, post, heq, hpre, hpost, hmap⟩ :=
    groups_decomp_update_name s g
      (fun h => { h with status := "DELETING".data }) hn hg
  rw [deleteRuleIfExists_eq s g hn hg]
  exact ⟨pre, post, heq, hpre, hpost, hmap, rfl⟩

/-- A group whose lines all extract to the same name holds exactly one
line (rule names are globally unique). -/
theorem lines_singleton_of_all_name (s : FwState) (g : RuleGroup) (t : Str)
    (hwf : WfBase s) (hg : g ∈ s.groups)
    (hall : ∀ l ∈ groupLines g, getRuleNameFromRuleString l = some t) :
    ∃ l, groupLines g = [l] := by
  obtain ⟨pre, post, heq⟩ := List.append_of_mem hg
  have h1 : (annotG g).Sublist (annot s) := by
    rw [annot_decomp s pre post g heq]
    exact (List.sublist_append_left _ _).trans (List.sublist_append_right _ _)
  have hnd := (h1.map fun u => u.2.2).nodup hwf.namesNodup
  have hmapeq : (annotG g).map (fun u => u.2.2)
      = (groupLines g).map fun l => (getRuleNameFromRuleString l).getD [] := by
    unfold annotG
    rw [List.map_map]
    rfl
  obtain ⟨l0, hl0⟩ : ∃ l0, l0 ∈ groupLines g := by
    cases hL : groupLines g with
    | nil => exact absurd hL (groupLines_ne_nil g)
    | cons a r => exact ⟨a, by simp [hL]⟩
  have hsingle : (annotG g).map (fun u => u.2.2) = [t] := by
    apply eq_singleton_of_all_eq
    · rw [hmapeq, List.mem_map]
      exact ⟨l0, hl0, by rw [hall l0 hl0]; rfl⟩
    · exact hnd
    · intro y hy
      rw [hmapeq, List.mem_map] at hy
      obtain ⟨l, hl, rfl⟩ := hy
      rw [hall l hl]
      rfl
  have hlen : (groupLines g).length = 1 := by
    have h2 := congrArg List.length hsingle
    simpa [annotG] using h2
  exact List.length_eq_one.mp hlen

/-- Effect of the group-deletion arm of the cleanup step: every line of
`g` extracts to the target `t`, `g` is disassociated and marked
`DELETING`, the run invariant persists, and exactly the lines named `t`
leave the live set. -/
theorem delete_branch_effect (KS : List Str) (ipn cidr t : Str)
    (s : FwState) (g : RuleGroup)
    (hinv : Inv KS s) (hg : g ∈ s.groups)
    (hall : ∀ l ∈ groupLines g, getRuleNameFromRuleString l = some t)
    (hocc : ∀ u ∈ annot s, u.2.2 = t → u.1 = g.arn)
    (htK : t ∉ KS) :
    StepOut KS ipn cidr s (deleteRuleIfExists (arnToName g.arn) s) ∧
    (∀ l ∈ liveLines (deleteRuleIfExists (arnToName g.arn) s),
      getRuleNameFromRuleString l ≠ some t) ∧
    (∀ l ∈ liveLines s, getRuleNameFromRuleString l ≠ some t →
      l ∈ liveLines (deleteRuleIfExists (arnToName g.arn) s)) := by
  obtain ⟨pre, post, heq, hpre, hpost, hgr, hpol⟩ :=
    markDeleting_disassoc_shape s g hinv.base.gNamesNodup hg
  have hpre_arn : ∀ h ∈ pre, h.arn ≠ g.arn := fun h hh he =>
    hpre h hh (by rw [he])
  have hpost_arn : ∀ h ∈ post, h.arn ≠ g.arn := fun h hh he =>
    hpost h hh (by rw [he])
  have hmem_pre : ∀ h ∈ pre, h ∈ s.groups := by
    intro h hh
    rw [heq]
    exact List.mem_append_left _ hh
  have hmem_post : ∀ h ∈ post, h ∈ s.groups := by
    intro h hh
    rw [heq]
    exact List.mem_append_right _ (List.mem_cons_of_mem _ hh)
  have hmem' : ∀ h ∈ (deleteRuleIfExists (arnToName g.arn) s).groups,
      h ∈ pre ∨ h = { g with status := "DELETING".data } ∨ h ∈ post := by
    intro h hh
    rw [hgr] at hh
    rcases List.mem_append.mp hh with h2 | h2
    · exact Or.inl h2
    · rcases List.mem_cons.mp h2 with h3 | h3
      · exact Or.inr (Or.inl h3)
      · exact Or.inr (Or.inr h3)
  have hmem'_pre : ∀ h ∈ pre,
      h ∈ (deleteRuleIfExists (arnToName g.arn) s).groups := by
    intro h hh
    rw [hgr]
    exact List.mem_append_left _ hh
  have hmem'_post : ∀ h ∈ post,
      h ∈ (deleteRuleIfExists (arnToName g.arn) s).groups := by
    intro h hh
    rw [hgr]
    exact List.mem_append_right _ (List.mem_cons_of_mem _ hh)
  have hannot : annot (deleteRuleIfExists (arnToName g.arn) s) = annot s := by
    rw [annot_decomp _ pre post _ hgr, annot_decomp s pre post g heq,
      annotG_congr { g with status := "DELETING".data } g rfl rfl]
  have harns : (deleteRuleIfExists (arnToName g.arn) s).groups.map
      RuleGroup.arn = s.groups.map RuleGroup.arn := by
    rw [hgr, heq]
    simp
  have hinv' : Inv KS (deleteRuleIfExists (arnToName g.arn) s) := by
    refine ⟨⟨?_, ?_, ?_, ?_, ?_⟩, ?_, ?_, ?_, ?_, ?_, ?_⟩
    · intro h hh l hl
      rcases hmem' h hh with h2 | h2 | h2
      · exact hinv.base.extractable h (hmem_pre h h2) l hl
      · subst h2
        exact hinv.base.extractable g hg l hl
      · exact hinv.base.extractable h (hmem_post h h2) l hl
    · rw [hannot]
      exact hinv.base.namesNodup
    · rw [harns]
      exact hinv.base.arnsNodup
    · rw [gnames_eq_of_arns_eq _ _ harns]
      exact hinv.base.gNamesNodup
    · intro h hh
      rcases hmem' h hh with h2 | h2 | h2
      · exact hinv.base.statusOK h (hmem_pre h h2)
      · subst h2
        exact Or.inr rfl
      · exact hinv.base.statusOK h (hmem_post h h2)
    · intro u hu
      rw [hannot] at hu
      exact hinv.shaped u hu
    · intro h hh hdel l hl k hk
      rcases hmem' h hh with h2 | h2 | h2
      · exact hinv.delOut h (hmem_pre h h2) hdel l hl k hk
      · subst h2
        intro he
        rw [hall l hl] at he
        exact htK (((Option.some.injEq _ _).mp he) ▸ hk)
      · exact hinv.delOut h (hmem_post h h2) hdel l hl k hk
    · intro h hh hdel
      rcases hmem' h hh with h2 | h2 | h2
      · exact hinv.delSingle h (hmem_pre h h2) hdel
      · subst h2
        exact lines_singleton_of_all_name s g t hinv.base hg hall
      · exact hinv.delSingle h (hmem_post h h2) hdel
    · intro h hh hdel p' hp'
      rw [hpol, List.mem_map] at hp'
      obtain ⟨p, hp, rfl⟩ := hp'
      rcases hmem' h hh with h2 | h2 | h2
      · exact fun hm => hinv.delDisassoc h (hmem_pre h h2) hdel p hp
          ((removeFirst_sublist g.arn p.refs).subset hm)
      · subst h2
        exact not_mem_removeFirst g.arn p.refs (hinv.polNodup p hp)
      · exact fun hm => hinv.delDisassoc h (hmem_post h h2) hdel p hp
          ((removeFirst_sublist g.arn p.refs).subset hm)
    · intro p' hp'
      rw [hpol, List.mem_map] at hp'
      obtain ⟨p, hp, rfl⟩ := hp'
      exact (removeFirst_sublist _ _).nodup (hinv.polNodup p hp)
    · intro p' hp' a ha
      rw [hpol, List.mem_map] at hp'
      obtain ⟨p, hp, rfl⟩ := hp'
      obtain ⟨g2, hg2, hg2a⟩ := hinv.refsSub p hp a
        ((removeFirst_sublist _ _).subset ha)
      have hmm : a ∈ (deleteRuleIfExists (arnToName g.arn) s).groups.map
          RuleGroup.arn := by
        rw [harns]
        exact hg2a ▸ List.mem_map_of_mem _ hg2
      rw [List.mem_map] at hmm
      obtain ⟨g3, hg3, hg3a⟩ := hmm
      exact ⟨g3, hg3, hg3a⟩
  refine ⟨⟨hinv', ?_, harns, ?_, ?_⟩, ?_, ?_⟩
  · intro u hu
    rw [hannot] at hu
    exact hu
  · intro l hl
    rw [mem_liveLines] at hl ⊢
    obtain ⟨h, hh, hst, hl2⟩ := hl
    rcases hmem' h hh with h2 | h2 | h2
    · exact ⟨h, hmem_pre h h2, hst, hl2⟩
    · subst h2
      exact absurd rfl hst
    · exact ⟨h, hmem_post h h2, hst, hl2⟩
  · intro k hkK hkl
    obtain ⟨h, hh, hst, ⟨l, hl, hex⟩, hips⟩ := hkl
    rcases mem_groups_decomp s pre post g h heq hh with h2 | h2 | h2
    · exact ⟨h, hmem'_pre h h2, hst, ⟨l, hl, hex⟩, hips⟩
    · subst h2
      rw [hall l hl] at hex
      exact absurd (((Option.some.injEq _ _).mp hex) ▸ hkK) htK
    · exact ⟨h, hmem'_post h h2, hst, ⟨l, hl, hex⟩, hips⟩
  · intro l hl he
    rw [mem_liveLines] at hl
    obtain ⟨h, hh, hst, hl2⟩ := hl
    rcases hmem' h hh with h2 | h2 | h2
    · have hu : (h.arn, l, t) ∈ annot s := by
        rw [mem_annot]
        exact ⟨h, hmem_pre h h2, rfl, hl2, by rw [he]; rfl⟩
      exact hpre_arn h h2 (hocc _ hu rfl)
    · subst h2
      exact absurd rfl hst
    · have hu : (h.arn, l, t) ∈ annot s := by
        rw [mem_annot]
        exact ⟨h, hmem_post h h2, rfl, hl2, by rw [he]; rfl⟩
      exact hpost_arn h h2 (hocc _ hu rfl)
  · intro l hl hne
    rw [mem_liveLines] at hl ⊢
    obtain ⟨h, hh, hst, hl2⟩ := hl
    rcases mem_groups_decomp s pre post g h heq hh with h2 | h2 | h2
    · exact ⟨h, hmem'_pre h h2, hst, hl2⟩
    · subst h2
      exact absurd (hall l hl2) hne
    · exact ⟨h, hmem'_post h h2, hst, hl2⟩

/-- Effect of the group-rewrite arm of the cleanup step: the target's
group keeps exactly its lines not named `t`, the run invariant persists,
and exactly the lines named `t` leave the live set. -/
theorem update_branch_effect (KS : List Str) (ipn cidr t : Str)
    (s : FwState) (g : RuleGroup)
    (hinv : Inv KS s) (hg : g ∈ s.groups)
    (hocc : ∀ u ∈ annot s, u.2.2 = t → u.1 = g.arn)
    (htK : t ∉ KS)
    (hkne : (groupLines g).filter
      (fun l => (getRuleNameFromRuleString l).getD [] ≠ t) ≠ []) :
    StepOut KS ipn cidr s
      (setGroupRules g.arn (joinCh '\n' ((groupLines g).filter
        (fun l => (getRuleNameFromRuleString l).getD [] ≠ t))) s) ∧
    (∀ l ∈ liveLines (setGroupRules g.arn (joinCh '\n' ((groupLines g).filter
        (fun l => (getRuleNameFromRuleString l).getD [] ≠ t))) s),
      getRuleNameFromRuleString l ≠ some t) ∧
    (∀ l ∈ liveLines s, getRuleNameFromRuleString l ≠ some t →
      l ∈ liveLines (setGroupRules g.arn (joinCh '\n' ((groupLines g).filter
        (fun l => (getRuleNameFromRuleString l).getD [] ≠ t))) s)) := by
  obtain ⟨pre, post, heq, hpre, hpost, hgr, hpol⟩ :=
    setGroupRules_shape s g (joinCh '\n' ((groupLines g).filter
      (fun l => (getRuleNameFromRuleString l).getD [] ≠ t)))
      hinv.base.arnsNodup hg
  have hmem_pre : ∀ h ∈ pre, h ∈ s.groups := by
    intro h hh
    rw [heq]
    exact List.mem_append_left _ hh
  have hmem_post : ∀ h ∈ post, h ∈ s.groups := by
    intro h hh
    rw [heq]
    exact List.mem_append_right _ (List.mem_cons_of_mem _ hh)
  have hmem' : ∀ h, h ∈ (setGroupRules g.arn (joinCh '\n'
      ((groupLines g).filter
        (fun l => (getRuleNameFromRuleString l).getD [] ≠ t))) s).groups →
      h ∈ pre ∨ h = { g with rulesString := (joinCh '\n' ((groupLines g).filter
        (fun l => (getRuleNameFromRuleString l).getD [] ≠ t))) } ∨ h ∈ post := by
    intro h hh
    rw [hgr] at hh
    rcases List.mem_append.mp hh with h2 | h2
    · exact Or.inl h2
    · rcases List.mem_cons.mp h2 with h3 | h3
      · exact Or.inr (Or.inl h3)
      · exact Or.inr (Or.inr h3)
  have hmem'_pre : ∀ h ∈ pre, h ∈ (setGroupRules g.arn (joinCh '\n'
      ((groupLines g).filter
        (fun l => (getRuleNameFromRuleString l).getD [] ≠ t))) s).groups := by
    intro h hh
    rw [hgr]
    exact List.mem_append_left _ hh
  have hmem'_post : ∀ h ∈ post, h ∈ (setGroupRules g.arn (joinCh '\n'
      ((groupLines g).filter
        (fun l => (getRuleNameFromRuleString l).getD [] ≠ t))) s).groups := by
    intro h hh
    rw [hgr]
    exact List.mem_append_right _ (List.mem_cons_of_mem _ hh)
  have hmem'_mid : { g with rulesString := (joinCh '\n' ((groupLines g).filter
      (fun l => (getRuleNameFromRuleString l).getD [] ≠ t))) }
      ∈ (setGroupRules g.arn (joinCh '\n' ((groupLines g).filter
        (fun l => (getRuleNameFromRuleString l).getD [] ≠ t))) s).groups := by
    rw [hgr]
    exact List.mem_append_right _ (List.mem_cons_self _ _)
  have hnl : ∀ p ∈ (groupLines g).filter
      (fun l => (getRuleNameFromRuleString l).getD [] ≠ t), '\n' ∉ p :=
    fun p hp =>
      sep_not_mem_splitCh '\n' g.rulesString p (List.mem_of_mem_filter hp)
  have hlines2 : groupLines { g with rulesString := (joinCh '\n'
      ((groupLines g).filter
        (fun l => (getRuleNameFromRuleString l).getD [] ≠ t))) }
      = (groupLines g).filter
        (fun l => (getRuleNameFromRuleString l).getD [] ≠ t) := by
    show splitCh '\n' (joinCh '\n' _) = _
    exact splitCh_joinCh '\n' _ hnl hkne
  have hanng : annotG { g with rulesString := (joinCh '\n'
      ((groupLines g).filter
        (fun l => (getRuleNameFromRuleString l).getD [] ≠ t))) }
      = (annotG g).filter (fun u => u.2.2 ≠ t) := by
    have h1 : annotG { g with rulesString := (joinCh '\n'
        ((groupLines g).filter
          (fun l => (getRuleNameFromRuleString l).getD [] ≠ t))) }
        = ((groupLines g).filter
            (fun l => (getRuleNameFromRuleString l).getD [] ≠ t)).map
          fun l => (g.arn, l, (getRuleNameFromRuleString l).getD []) := by
      unfold annotG
      rw [hlines2]
    rw [h1]
    unfold annotG
    rw [List.filter_map]
    refine congrArg (List.map _) (List.filter_congr fun x hx => ?_)
    rfl
  have hannot_sl : (annot (setGroupRules g.arn (joinCh '\n'
      ((groupLines g).filter
        (fun l => (getRuleNameFromRuleString l).getD [] ≠ t))) s)).Sublist
      (annot s) := by
    rw [annot_decomp _ pre post _ hgr, hanng, annot_decomp s pre post g heq]
    exact (List.Sublist.refl _).append
      ((List.filter_sublist _).append (List.Sublist.refl _))
  have harns : (setGroupRules g.arn (joinCh '\n' ((groupLines g).filter
      (fun l => (getRuleNameFromRuleString l).getD [] ≠ t))) s).groups.map
      RuleGroup.arn = s.groups.map RuleGroup.arn := by
    rw [hgr, heq]
    simp
  have hinv' : Inv KS (setGroupRules g.arn (joinCh '\n'
      ((groupLines g).filter
        (fun l => (getRuleNameFromRuleString l).getD [] ≠ t))) s) := by
    refine ⟨⟨?_, ?_, ?_, ?_, ?_⟩, ?_, ?_, ?_, ?_, ?_, ?_⟩
    · intro h hh l hl
      rcases hmem' h hh with h2 | h2 | h2
      · exact hinv.base.extractable h (hmem_pre h h2) l hl
      · subst h2
        rw [hlines2] at hl
        exact hinv.base.extractable g hg l (List.mem_of_mem_filter hl)
      · exact hinv.base.extractable h (hmem_post h h2) l hl
    · exact (hannot_sl.map _).nodup hinv.base.namesNodup
    · rw [harns]
      exact hinv.base.arnsNodup
    · rw [gnames_eq_of_arns_eq _ _ harns]
      exact hinv.base.gNamesNodup
    · intro h hh
      rcases hmem' h hh with h2 | h2 | h2
      · exact hinv.base.statusOK h (hmem_pre h h2)
      · subst h2
        exact hinv.base.statusOK g hg
      · exact hinv.base.statusOK h (hmem_post h h2)
    · intro u hu
      exact hinv.shaped u (hannot_sl.subset hu)
    · intro h hh hdel l hl k hk
      rcases hmem' h hh with h2 | h2 | h2
      · exact hinv.delOut h (hmem_pre h h2) hdel l hl k hk
      · subst h2
        rw [hlines2] at hl
        exact hinv.delOut g hg hdel l (List.mem_of_mem_filter hl) k hk
      · exact hinv.delOut h (hmem_post h h2) hdel l hl k hk
    · intro h hh hdel
      rcases hmem' h hh with h2 | h2 | h2
      · exact hinv.delSingle h (hmem_pre h h2) hdel
      · subst h2
        obtain ⟨l0, hl0⟩ := hinv.delSingle g hg hdel
        refine ⟨l0, ?_⟩
        rw [hlines2, hl0]
        have hq : (getRuleNameFromRuleString l0).getD [] ≠ t := by
          have h3 := hkne
          rw [hl0] at h3
          by_contra hqq
          rw [List.filter_cons] at h3
          simp only [hqq] at h3
          simp at h3
        rw [List.filter_cons]
        simp [hq]
      · exact hinv.delSingle h (hmem_post h h2) hdel
    · intro h hh hdel p' hp'
      rw [hpol] at hp'
      rcases hmem' h hh with h2 | h2 | h2
      · exact hinv.delDisassoc h (hmem_pre h h2) hdel p' hp'
      · subst h2
        exact hinv.delDisassoc g hg hdel p' hp'
      · exact hinv.delDisassoc h (hmem_post h h2) hdel p' hp'
    · intro p' hp'
      rw [hpol] at hp'
      exact hinv.polNodup p' hp'
    · intro p' hp' a ha
      rw [hpol] at hp'
      obtain ⟨g2, hg2, hg2a⟩ := hinv.refsSub p' hp' a ha
      have hmm : a ∈ (setGroupRules g.arn (joinCh '\n'
          ((groupLines g).filter
            (fun l => (getRuleNameFromRuleString l).getD [] ≠ t))) s).groups.map
          RuleGroup.arn := by
        rw [harns]
        exact hg2a ▸ List.mem_map_of_mem _ hg2
      rw [List.mem_map] at hmm
      obtain ⟨g3, hg3, hg3a⟩ := hmm
      exact ⟨g3, hg3, hg3a⟩
  have hpre_arn : ∀ h ∈ pre, h.arn ≠ g.arn := hpre
  have hpost_arn : ∀ h ∈ post, h.arn ≠ g.arn := hpost
  refine ⟨⟨hinv', hannot_sl.subset, harns, ?_, ?_⟩, ?_, ?_⟩
  · intro l hl
    rw [mem_liveLines] at hl ⊢
    obtain ⟨h, hh, hst, hl2⟩ := hl
    rcases hmem' h hh with h2 | h2 | h2
    · exact ⟨h, hmem_pre h h2, hst, hl2⟩
    · subst h2
      rw [hlines2] at hl2
      exact ⟨g, hg, hst, List.mem_of_mem_filter hl2⟩
    · exact ⟨h, hmem_post h h2, hst, hl2⟩
  · intro k hkK hkl
    obtain ⟨h, hh, hst, ⟨l, hl, hex⟩, hips⟩ := hkl
    rcases mem_groups_decomp s pre post g h heq hh with h2 | h2 | h2
    · exact ⟨h, hmem'_pre h h2, hst, ⟨l, hl, hex⟩, hips⟩
    · subst h2
      refine ⟨_, hmem'_mid, hst, ⟨l, ?_, hex⟩, hips⟩
      rw [hlines2]
      rw [List.mem_filter]
      refine ⟨hl, ?_⟩
      have hkt : k ≠ t := fun hkt => htK (hkt ▸ hkK)
      rw [hex]
      simp [hkt]
    · exact ⟨h, hmem'_post h h2, hst, ⟨l, hl, hex⟩, hips⟩
  · intro l hl he
    rw [mem_liveLines] at hl
    obtain ⟨h, hh, hst, hl2⟩ := hl
    rcases hmem' h hh with h2 | h2 | h2
    · have hu : (h.arn, l, t) ∈ annot s := by
        rw [mem_annot]
        exact ⟨h, hmem_pre h h2, rfl, hl2, by rw [he]; rfl⟩
      exact hpre_arn h h2 (hocc _ hu rfl)
    · subst h2
      rw [hlines2, List.mem_filter] at hl2
      have h3 := hl2.2
      rw [he] at h3
      simp at h3
    · have hu : (h.arn, l, t) ∈ annot s := by
        rw [mem_annot]
        exact ⟨h, hmem_post h h2, rfl, hl2, by rw [he]; rfl⟩
      exact hpost_arn h h2 (hocc _ hu rfl)
  · intro l hl hne
    rw [mem_liveLines] at hl ⊢
    obtain ⟨h, hh, hst, hl2⟩ := hl
    rcases mem_groups_decomp s pre post g h heq hh with h2 | h2 | h2
    · exact ⟨h, hmem'_pre h h2, hst, hl2⟩
    · subst h2
      refine ⟨_, hmem'_mid, hst, ?_⟩
      rw [hlines2, List.mem_filter]
      refine ⟨hl2, ?_⟩
      have h3 := hinv.base.extractable h hg l hl2
      rw [Option.isSome_iff_exists] at h3
      obtain ⟨n, hn⟩ := h3
      have hnt : n ≠ t := fun hnt => hne (by rw [hn, hnt])
      rw [hn]
      simpa using hnt
    · exact ⟨h, hmem'_post h h2, hst, hl2⟩

/-- One delete-loop iteration of `_clean_up_rules`, in full: the run
invariant persists, lines and ARNs behave as `StepOut` records, the
step's target is no longer live afterwards, and every live line not
named by the target survives. -/
theorem cleanUpStep_effect (KS : List Str) (ipn cidr : Str) (s s' : FwState)
    (d : Str × Str) (t : Str) (g : RuleGroup)
    (hinv : Inv KS s)
    (ht : getRuleNameFromRuleString d.2 = some t)
    (hg : g ∈ s.groups) (hga : g.arn = d.1)
    (hocc : ∀ u ∈ annot s, u.2.2 = t → u.1 = d.1)
    (htK : t ∉ KS)
    (hrun : cleanUpStep s d = .ok s') :
    StepOut KS ipn cidr s s' ∧
    (∀ l ∈ liveLines s', getRuleNameFromRuleString l ≠ some t) ∧
    (∀ l ∈ liveLines s, getRuleNameFromRuleString l ≠ some t →
      l ∈ liveLines s') := by
  have hd : d = (g.arn, d.2) := by
    rw [hga]
  rw [hd, cleanUpStep_spec s d.2 t g hinv.base hg ht] at hrun
  have hocc' : ∀ u ∈ annot s, u.2.2 = t → u.1 = g.arn := by
    intro u hu hut
    rw [hga]
    exact hocc u hu hut
  by_cases hj : joinCh '\n' ((groupLines g).filter
      (fun l => (getRuleNameFromRuleString l).getD [] ≠ t)) = []
  · rw [if_pos hj] at hrun
    have hs' : s' = deleteRuleIfExists (arnToName g.arn) s :=
      ((Except.ok.injEq _ _).mp hrun).symm
    subst hs'
    have hlne : ∀ l ∈ groupLines g, l ≠ [] := by
      intro l hl hnil
      have h2 := hinv.base.extractable g hg l hl
      rw [hnil] at h2
      simp [getRuleNameFromRuleString, searchRuleName] at h2
    have hkeptnil : (groupLines g).filter
        (fun l => (getRuleNameFromRuleString l).getD [] ≠ t) = [] := by
      by_contra hne
      exact joinCh_ne_nil_of '\n' _ hne
        (fun p hp => hlne p (List.mem_of_mem_filter hp)) hj
    have hall : ∀ l ∈ groupLines g, getRuleNameFromRuleString l = some t := by
      intro l hl
      have h2 := List.filter_eq_nil_iff.mp hkeptnil l hl
      have h3 := hinv.base.extractable g hg l hl
      rw [Option.isSome_iff_exists] at h3
      obtain ⟨n, hn⟩ := h3
      rw [hn] at h2 ⊢
      simp at h2
      rw [h2]
    exact delete_branch_effect KS ipn cidr t s g hinv hg hall hocc' htK
  · rw [if_neg hj] at hrun
    have hs' : s' = setGroupRules g.arn (joinCh '\n' ((groupLines g).filter
        (fun l => (getRuleNameFromRuleString l).getD [] ≠ t))) s :=
      ((Except.ok.injEq _ _).mp hrun).symm
    subst hs'
    have hkne : (groupLines g).filter
        (fun l => (getRuleNameFromRuleString l).getD [] ≠ t) ≠ [] := by
      intro hnil
      rw [hnil] at hj
      exact hj rfl
    exact update_branch_effect KS ipn cidr t s g hinv hg hocc' htK hkne

theorem stepOut_refl (KS : List Str) (ipn cidr : Str) (s : FwState)
    (hinv : Inv KS s) : StepOut KS ipn cidr s s :=
  ⟨hinv, fun _ hu => hu, rfl, fun _ hl => hl, fun _ _ h => h⟩

theorem stepOut_trans (KS : List Str) (ipn cidr : Str) (s1 s2 s3 : FwState)
    (h12 : StepOut KS ipn cidr s1 s2) (h23 : StepOut KS ipn cidr s2 s3) :
    StepOut KS ipn cidr s1 s3 :=
  ⟨h23.inv, fun u hu => h12.annotSub u (h23.annotSub u hu),
   h23.arnsEq.trans h12.arnsEq,
   fun l hl => h12.liveSub l (h23.liveSub l hl),
   fun k hk hkl => h23.keyKeep k hk (h12.keyKeep k hk hkl)⟩

/-- The delete loop of `_clean_up_rules`: every target is dead at the
end, every live line named by no target survives, and the run invariant
persists. -/
theorem cleanUpLoop_spec (KS : List Str) (ipn cidr : Str)
    (D : List (Str × Str)) (s s' : FwState)
    (hinv : Inv KS s)
    (hmet : MetasOK D s)
    (hDK : ∀ d ∈ D, ∀ t, getRuleNameFromRuleString d.2 = some t → t ∉ KS)
    (hrun : cleanUpLoop D s = .ok s') :
    StepOut KS ipn cidr s s' ∧
    (∀ d ∈ D, ∀ t, getRuleNameFromRuleString d.2 = some t →
      ∀ l ∈ liveLines s', getRuleNameFromRuleString l ≠ some t) ∧
    (∀ l ∈ liveLines s,
      (∀ d ∈ D, ∀ t, getRuleNameFromRuleString d.2 = some t →
        getRuleNameFromRuleString l ≠ some t) → l ∈ liveLines s') := by
  induction D generalizing s with
  | nil =>
    rw [cleanUpLoop] at hrun
    have hss : s = s' := (Except.ok.injEq _ _).mp hrun
    subst hss
    exact ⟨stepOut_refl KS ipn cidr s hinv, by simp, fun l hl _ => hl⟩
  | cons d D ih =>
    rw [cleanUpLoop] at hrun
    cases hstep : cleanUpStep s d with
    | error e =>
      rw [hstep] at hrun
      exact absurd hrun (by simp)
    | ok s1 =>
      rw [hstep] at hrun
      obtain ⟨t, ht, ⟨g, hg, hga⟩, hocc⟩ := hmet d (by simp)
      have htK := hDK d (by simp) t ht
      obtain ⟨hso1, hkill1, hpres1⟩ :=
        cleanUpStep_effect KS ipn cidr s s1 d t g hinv ht hg hga hocc htK
          hstep
      have hmet1 : MetasOK D s1 := by
        intro d' hd'
        obtain ⟨t', ht', ⟨g', hg', hga'⟩, hocc'⟩ :=
          hmet d' (List.mem_cons_of_mem _ hd')
        refine ⟨t', ht', ?_, ?_⟩
        · have hmm : d'.1 ∈ s1.groups.map RuleGroup.arn := by
            rw [hso1.arnsEq]
            exact hga' ▸ List.mem_map_of_mem _ hg'
          rw [List.mem_map] at hmm
          obtain ⟨g2, hg2, hg2a⟩ := hmm
          exact ⟨g2, hg2, hg2a⟩
        · intro u hu hut
          exact hocc' u (hso1.annotSub u hu) hut
      have hDK1 : ∀ d' ∈ D, ∀ t',
          getRuleNameFromRuleString d'.2 = some t' → t' ∉ KS :=
        fun d' hd' t' ht' => hDK d' (List.mem_cons_of_mem _ hd') t' ht'
      obtain ⟨hso2, hkill2, hpres2⟩ := ih s1 hso1.inv hmet1 hDK1 hrun
      refine ⟨stepOut_trans _ _ _ _ _ _ hso1 hso2, ?_, ?_⟩
      · intro d' hd' t' ht' l hl
        rcases List.mem_cons.mp hd' with rfl | hd2
        · rw [ht] at ht'
          obtain rfl := (Option.some.injEq _ _).mp ht'
          exact hkill1 l (hso2.liveSub l hl)
        · exact hkill2 d' hd2 t' ht' l hl
      · intro l hl hsafe
        have hl1 : l ∈ liveLines s1 :=
          hpres1 l hl (hsafe d (by simp) t ht)
        exact hpres2 l hl1
          (fun d' hd' t' ht' => hsafe d' (List.mem_cons_of_mem _ hd') t' ht')

/-! ### The `existing_account_rules` dict of `_clean_up_rules` -/

theorem annot_extract (s : FwState)
    (hex : ∀ g ∈ s.groups, ∀ l ∈ groupLines g,
      (getRuleNameFromRuleString l).isSome = true)
    (u : Str × Str × Str) (hu : u ∈ annot s) :
    getRuleNameFromRuleString u.2.1 = some u.2.2 := by
  obtain ⟨a, l, n⟩ := u
  rw [mem_annot] at hu
  obtain ⟨g, hg, -, hl, hn⟩ := hu
  have h2 := hex g hg l hl
  rw [Option.isSome_iff_exists] at h2
  obtain ⟨m, hm⟩ := h2
  rw [hm] at hn ⊢
  simp at hn
  rw [hn]

theorem ear_fold_keys_mono (V k : Str) (l : List (Str × Str × Str))
    (acc : List (Str × (Str × Str))) (hk : k ∈ acc.map Prod.fst) :
    k ∈ (l.foldl (fun acc t =>
      if vpcComponent t.2.2 = V then upsertKeepPos t.2.2 (t.1, t.2.1) acc
      else acc) acc).map Prod.fst := by
  induction l generalizing acc with
  | nil => exact hk
  | cons u l ih =>
    rw [List.foldl_cons]
    by_cases hc : vpcComponent u.2.2 = V
    · rw [if_pos hc]
      exact ih _ ((upsertKeepPos_keys_mem _ _ _ _).mpr (Or.inl hk))
    · rw [if_neg hc]
      exact ih _ hk

theorem ear_fold_cover (V : Str) (l : List (Str × Str × Str))
    (acc : List (Str × (Str × Str))) (u : Str × Str × Str) (hu : u ∈ l)
    (hvpc : vpcComponent u.2.2 = V) :
    u.2.2 ∈ (l.foldl (fun acc t =>
      if vpcComponent t.2.2 = V then upsertKeepPos t.2.2 (t.1, t.2.1) acc
      else acc) acc).map Prod.fst := by
  induction l generalizing acc with
  | nil => exact absurd hu (by simp)
  | cons w l ih =>
    rw [List.foldl_cons]
    rcases List.mem_cons.mp hu with rfl | hu2
    · rw [if_pos hvpc]
      exact ear_fold_keys_mono V u.2.2 l _
        ((upsertKeepPos_keys_mem _ _ _ _).mpr (Or.inr rfl))
    · by_cases hc : vpcComponent w.2.2 = V
      · rw [if_pos hc]
        exact ih _ hu2
      · rw [if_neg hc]
        exact ih _ hu2

theorem ear_fold_sound (V : Str) (l : List (Str × Str × Str))
    (acc : List (Str × (Str × Str))) (kv : Str × (Str × Str))
    (hkv : kv ∈ l.foldl (fun acc t =>
      if vpcComponent t.2.2 = V then upsertKeepPos t.2.2 (t.1, t.2.1) acc
      else acc) acc) :
    kv ∈ acc ∨ ∃ u ∈ l, u.2.2 = kv.1 ∧ kv.2 = (u.1, u.2.1) ∧
      vpcComponent kv.1 = V := by
  induction l generalizing acc with
  | nil => exact Or.inl hkv
  | cons w l ih =>
    rw [List.foldl_cons] at hkv
    by_cases hc : vpcComponent w.2.2 = V
    · rw [if_pos hc] at hkv
      rcases ih _ hkv with h2 | ⟨u, hu, h3⟩
      · rcases upsertKeepPos_mem _ _ _ _ h2 with h3 | h3
        · refine Or.inr ⟨w, by simp, ?_, ?_, ?_⟩
          · rw [h3]
          · rw [h3]
          · rw [h3]
            exact hc
        · exact Or.inl h3
      · exact Or.inr ⟨u, List.mem_cons_of_mem _ hu, h3⟩
    · rw [if_neg hc] at hkv
      rcases ih _ hkv with h2 | ⟨u, hu, h3⟩
      · exact Or.inl h2
      · exact Or.inr ⟨u, List.mem_cons_of_mem _ hu, h3⟩

/-- `_clean_up_rules` on a nonempty account and vpc (the `DeleteVPC`
inference) is the delete loop over the vpc-scoped dict entries whose
names are no keys of `rules`. -/
theorem cleanUpRules_eq_vpc (rules : List (Str × Str)) (A V : Str)
    (s : FwState) (hA : A ≠ []) (hV : V ≠ [])
    (hex : ∀ g ∈ s.groups, ∀ l ∈ groupLines g,
      (getRuleNameFromRuleString l).isSome = true) :
    cleanUpRules rules A V s = cleanUpLoop
      ((((annot s).foldl (fun acc t =>
          if vpcComponent t.2.2 = V then upsertKeepPos t.2.2 (t.1, t.2.1) acc
          else acc) []).filter
        (fun kv => ¬ rules.any fun r => r.1 = kv.1)).map (fun kv => kv.2))
      s := by
  unfold cleanUpRules
  rw [namedEntries_getRuleEntries s hex, if_pos ⟨hA, hV⟩]
  simp

/-- `_clean_up_rules` under the run invariant: afterwards every live
name with the scope's vpc component is a key of `rules`, live lines
with another vpc component survive untouched, and the invariant (and
`StepOut` bookkeeping) persists. -/
theorem cleanUpRules_spec (ipn cidr : Str) (rules : List (Str × Str))
    (A V : Str) (s s' : FwState)
    (hA : A ≠ []) (hV : V ≠ [])
    (hinv : Inv (rules.map Prod.fst) s)
    (hrun : cleanUpRules rules A V s = .ok s') :
    StepOut (rules.map Prod.fst) ipn cidr s s' ∧
    (∀ n ∈ liveNames s', vpcComponent n = V → n ∈ rules.map Prod.fst) ∧
    (∀ l ∈ liveLines s, (∀ n, getRuleNameFromRuleString l = some n →
      vpcComponent n ≠ V) → l ∈ liveLines s') := by
  rw [cleanUpRules_eq_vpc rules A V s hA hV hinv.base.extractable] at hrun
  have hsound : ∀ kv ∈ ((annot s).foldl (fun acc t =>
      if vpcComponent t.2.2 = V then upsertKeepPos t.2.2 (t.1, t.2.1) acc
      else acc) []),
      ∃ u ∈ annot s, u.2.2 = kv.1 ∧ kv.2 = (u.1, u.2.1) ∧
        vpcComponent kv.1 = V := by
    intro kv hkv
    rcases ear_fold_sound V (annot s) [] kv hkv with h2 | h2
    · exact absurd h2 (by simp)
    · exact h2
  have hmet : MetasOK ((((annot s).foldl (fun acc t =>
      if vpcComponent t.2.2 = V then upsertKeepPos t.2.2 (t.1, t.2.1) acc
      else acc) []).filter
        (fun kv => ¬ rules.any fun r => r.1 = kv.1)).map (fun kv => kv.2))
      s := by
    intro d hd
    rw [List.mem_map] at hd
    obtain ⟨kv, hkv, rfl⟩ := hd
    obtain ⟨u, hu, hukv, hkv2, hvpc⟩ := hsound kv (List.mem_of_mem_filter hkv)
    refine ⟨kv.1, ?_, ?_, ?_⟩
    · rw [hkv2]
      rw [← hukv]
      exact annot_extract s hinv.base.extractable u hu
    · rw [hkv2]
      obtain ⟨a, l, n⟩ := u
      rw [mem_annot] at hu
      obtain ⟨g, hg, ha, -, -⟩ := hu
      exact ⟨g, hg, ha.symm⟩
    · intro w hw hwk
      have hww : w = u :=
        List.inj_on_of_nodup_map hinv.base.namesNodup hw hu
          (by rw [hwk, hukv])
      rw [hww, hkv2]
  have hDK : ∀ d ∈ ((((annot s).foldl (fun acc t =>
      if vpcComponent t.2.2 = V then upsertKeepPos t.2.2 (t.1, t.2.1) acc
      else acc) []).filter
        (fun kv => ¬ rules.any fun r => r.1 = kv.1)).map (fun kv => kv.2)),
      ∀ t, getRuleNameFromRuleString d.2 = some t →
        t ∉ rules.map Prod.fst := by
    intro d hd t ht
    rw [List.mem_map] at hd
    obtain ⟨kv, hkv, rfl⟩ := hd
    obtain ⟨u, hu, hukv, hkv2, hvpc⟩ := hsound kv (List.mem_of_mem_filter hkv)
    have hext : getRuleNameFromRuleString kv.2.2 = some kv.1 := by
      rw [hkv2, ← hukv]
      exact annot_extract s hinv.base.extractable u hu
    rw [hext] at ht
    obtain rfl := (Option.some.injEq _ _).mp ht
    have hq := (List.mem_filter.mp hkv).2
    intro hmem
    rw [List.mem_map] at hmem
    obtain ⟨r, hr, hrk⟩ := hmem
    have : rules.any (fun r => r.1 = kv.1) = true :=
      List.any_eq_true.mpr ⟨r, hr, by simp [hrk]⟩
    simp [this] at hq
  obtain ⟨hso, hkill, hpres⟩ :=
    cleanUpLoop_spec (rules.map Prod.fst) ipn cidr _ s s' hinv hmet hDK hrun
  refine ⟨hso, ?_, ?_⟩
  · intro n hn hvpc
    rw [mem_liveNames] at hn
    obtain ⟨l, hl, hln⟩ := hn
    have hls : l ∈ liveLines s := hso.liveSub l hl
    rw [mem_liveLines] at hls
    obtain ⟨g, hg, hst, hlg⟩ := hls
    have hu : (g.arn, l, n) ∈ annot s := by
      rw [mem_annot]
      exact ⟨g, hg, rfl, hlg, by rw [hln]; rfl⟩
    by_contra hnk
    have hcov := ear_fold_cover V (annot s) [] (g.arn, l, n) hu hvpc
    rw [List.mem_map] at hcov
    obtain ⟨kv, hkv, hkvn⟩ := hcov
    have hkvn2 : kv.1 = n := hkvn
    have hq : ¬ rules.any (fun r => r.1 = kv.1) = true := by
      intro hany
      rw [List.any_eq_true] at hany
      obtain ⟨r, hr, hrk⟩ := hany
      simp only [decide_eq_true_eq] at hrk
      exact hnk (by rw [← hkvn2, ← hrk]; exact List.mem_map_of_mem _ hr)
    have hkvf : kv ∈ (((annot s).foldl (fun acc t =>
        if vpcComponent t.2.2 = V then upsertKeepPos t.2.2 (t.1, t.2.1) acc
        else acc) []).filter
          (fun kv => ¬ rules.any fun r => r.1 = kv.1)) :=
      List.mem_filter.mpr ⟨hkv, by simp only [decide_eq_true_eq]; exact hq⟩
    obtain ⟨u, hu2, hukv, hkv2, -⟩ := hsound kv hkv
    have hext : getRuleNameFromRuleString kv.2.2 = some kv.1 := by
      rw [hkv2, ← hukv]
      exact annot_extract s hinv.base.extractable u hu2
    have := hkill kv.2 (List.mem_map_of_mem _ hkvf) kv.1 hext l hl
    rw [hkvn2] at this
    exact this hln
  · intro l hl hother
    refine hpres l hl ?_
    intro d hd t ht hlt
    rw [List.mem_map] at hd
    obtain ⟨kv, hkv, rfl⟩ := hd
    obtain ⟨u, hu, hukv, hkv2, hvpc⟩ := hsound kv (List.mem_of_mem_filter hkv)
    have hext : getRuleNameFromRuleString kv.2.2 = some kv.1 := by
      rw [hkv2, ← hukv]
      exact annot_extract s hinv.base.extractable u hu
    rw [hext] at ht
    obtain rfl := (Option.some.injEq _ _).mp ht
    exact hother kv.1 hlt hvpc

/-! ### Group creation and policy association -/

theorem ensureIpSet_sing (n sp : Str) :
    ensureIpSet n sp [(n, [sp])] = [(n, [sp])] := by
  simp [ensureIpSet]

theorem associate_groups (a : Str) (pd : Nat) (s : FwState) :
    (associateRuleGroupToPolicy a pd s).groups = s.groups := by
  unfold associateRuleGroupToPolicy
  cases associateGo a s.policies with
  | some ps => rfl
  | none => rfl

theorem associate_policies_mem (a : Str) (pd : Nat) (s : FwState) :
    ∀ p' ∈ (associateRuleGroupToPolicy a pd s).policies,
      p' ∈ s.policies ∨
      (∃ p ∈ s.policies, p' = { p with refs := p.refs ++ [a] }) ∨
      p'.refs = [a] := by
  unfold associateRuleGroupToPolicy
  cases hgo : associateGo a s.policies with
  | some ps =>
    intro p' hp'
    rcases associateGo_mem a s.policies ps hgo p' hp' with h2 | h2
    · exact Or.inl h2
    · exact Or.inr (Or.inl h2)
  | none =>
    intro p' hp'
    rcases List.mem_append.mp hp' with h2 | h2
    · exact Or.inl h2
    · rw [List.mem_singleton] at h2
      rw [h2]
      exact Or.inr (Or.inr rfl)

theorem createNewRuleGroup_groups (gname rs ipn cidr : Str) (pd : Nat)
    (s : FwState) :
    (createNewRuleGroup gname rs ipn cidr pd s).groups
      = s.groups ++ [{ arn := groupArnOf gname, rulesString := rs, ipSets := [(ipn, [cidr])], consumed := 0, status := "ACTIVE".data }] := by
  unfold createNewRuleGroup
  simp only [associate_groups]

theorem createNewRuleGroup_policies_mem (gname rs ipn cidr : Str) (pd : Nat)
    (s : FwState) :
    ∀ p' ∈ (createNewRuleGroup gname rs ipn cidr pd s).policies,
      p' ∈ s.policies ∨
      (∃ p ∈ s.policies,
        p' = { p with refs := p.refs ++ [groupArnOf gname] }) ∨
      p'.refs = [groupArnOf gname] := by
  intro p' hp'
  exact associate_policies_mem (groupArnOf gname) pd s p' hp'

theorem nodup_insert_middle {α : Type} (A B C : List α) (k : α)
    (h : (A ++ (B ++ C)).Nodup) (hk : k ∉ A ++ (B ++ C)) :
    (A ++ ((B ++ [k]) ++ C)).Nodup := by
  have heq : A ++ ((B ++ [k]) ++ C) = A ++ (B ++ k :: C) := by
    simp
  rw [heq]
  have hperm : List.Perm (A ++ (B ++ k :: C)) (k :: (A ++ (B ++ C))) := by
    have h1 : A ++ (B ++ k :: C) = (A ++ B) ++ k :: C := by
      rw [List.append_assoc]
    have h2 : k :: ((A ++ B) ++ C) = k :: (A ++ (B ++ C)) := by
      rw [List.append_assoc]
    rw [h1, ← h2]
    exact List.perm_middle
  exact hperm.nodup_iff.mpr (List.nodup_cons.mpr ⟨hk, h⟩)

/-- Inserting a rule whose name is already present: the holding group is
rewritten in place (lines unchanged, IP set ensured); invariant, live
lines and key liveness carry over. -/
theorem insert_hit_effect (KS : List Str) (ipn cidr k rs : Str)
    (s : FwState) (u : Str × Str × Str) (g : RuleGroup)
    (hinv : Inv KS s) (hkK : k ∈ KS)
    (hk : getRuleNameFromRuleString rs = some k)
    (hu : u ∈ annot s) (huk : u.2.2 = k)
    (hg : g ∈ s.groups) (hga : u.1 = g.arn) :
    ∃ s2, addRuleEntry rs cidr ipn s = .ok (s2, some g.arn) ∧
      Inv KS s2 ∧ keyLive ipn cidr k s2 ∧
      (∀ k', keyLive ipn cidr k' s → keyLive ipn cidr k' s2) ∧
      (∀ l ∈ liveLines s, l ∈ liveLines s2) ∧
      ((s2.groups.map fun h => arnToName h.arn)
        = s.groups.map fun h => arnToName h.arn) := by
  have hruneq := addRuleEntry_hit rs cidr ipn k s u g hinv.base hk hu huk hg
    hga
  have hlk : ∃ l ∈ groupLines g, getRuleNameFromRuleString l = some k := by
    obtain ⟨a, l, n⟩ := u
    have hext := annot_extract s hinv.base.extractable (a, l, n) hu
    rw [mem_annot] at hu
    obtain ⟨g2, hg2, ha2, hl2, -⟩ := hu
    have hga2 : a = g.arn := hga
    have hg2g : g2 = g :=
      List.inj_on_of_nodup_map hinv.base.arnsNodup hg2 hg (by rw [← ha2, hga2])
    subst hg2g
    refine ⟨l, hl2, ?_⟩
    rw [hext, huk]
  have hglive : g.status ≠ "DELETING".data := by
    intro hdel
    obtain ⟨l, hl, hext⟩ := hlk
    exact hinv.delOut g hg hdel l hl k hkK hext
  obtain ⟨pre, post, heq, hpre, hpost, hgr, hpol⟩ :=
    setGroupRulesIp_shape s g g.rulesString (ensureIpSet ipn cidr g.ipSets)
      hinv.base.arnsNodup hg
  refine ⟨_, hruneq, ?_⟩
  have hmem_pre : ∀ h ∈ pre, h ∈ s.groups := by
    intro h hh
    rw [heq]
    exact List.mem_append_left _ hh
  have hmem_post : ∀ h ∈ post, h ∈ s.groups := by
    intro h hh
    rw [heq]
    exact List.mem_append_right _ (List.mem_cons_of_mem _ hh)
  have hmem' : ∀ h, h ∈ (setGroupRulesIp g.arn g.rulesString
      (ensureIpSet ipn cidr g.ipSets) s).groups →
      h ∈ pre ∨
      h = { g with rulesString := g.rulesString, ipSets := ensureIpSet ipn cidr g.ipSets } ∨
      h ∈ post := by
    intro h hh
    rw [hgr] at hh
    rcases List.mem_append.mp hh with h2 | h2
    · exact Or.inl h2
    · rcases List.mem_cons.mp h2 with h3 | h3
      · exact Or.inr (Or.inl h3)
      · exact Or.inr (Or.inr h3)
  have hmem'_pre : ∀ h ∈ pre, h ∈ (setGroupRulesIp g.arn g.rulesString
      (ensureIpSet ipn cidr g.ipSets) s).groups := by
    intro h hh
    rw [hgr]
    exact List.mem_append_left _ hh
  have hmem'_post : ∀ h ∈ post, h ∈ (setGroupRulesIp g.arn g.rulesString
      (ensureIpSet ipn cidr g.ipSets) s).groups := by
    intro h hh
    rw [hgr]
    exact List.mem_append_right _ (List.mem_cons_of_mem _ hh)
  have hmem'_mid : { g with rulesString := g.rulesString, ipSets := ensureIpSet ipn cidr g.ipSets }
      ∈ (setGroupRulesIp g.arn g.rulesString
        (ensureIpSet ipn cidr g.ipSets) s).groups := by
    rw [hgr]
    exact List.mem_append_right _ (List.mem_cons_self _ _)
  have hannot : annot (setGroupRulesIp g.arn g.rulesString
      (ensureIpSet ipn cidr g.ipSets) s) = annot s := by
    rw [annot_decomp _ pre post _ hgr, annot_decomp s pre post g heq,
      annotG_congr
        { g with rulesString := g.rulesString, ipSets := ensureIpSet ipn cidr g.ipSets }
        g rfl rfl]
  have harns : (setGroupRulesIp g.arn g.rulesString
      (ensureIpSet ipn cidr g.ipSets) s).groups.map RuleGroup.arn
      = s.groups.map RuleGroup.arn := by
    rw [hgr, heq]
    simp
  have hinv' : Inv KS (setGroupRulesIp g.arn g.rulesString
      (ensureIpSet ipn cidr g.ipSets) s) := by
    refine ⟨⟨?_, ?_, ?_, ?_, ?_⟩, ?_, ?_, ?_, ?_, ?_, ?_⟩
    · intro h hh l hl
      rcases hmem' h hh with h2 | h2 | h2
      · exact hinv.base.extractable h (hmem_pre h h2) l hl
      · subst h2
        exact hinv.base.extractable g hg l hl
      · exact hinv.base.extractable h (hmem_post h h2) l hl
    · rw [hannot]
      exact hinv.base.namesNodup
    · rw [harns]
      exact hinv.base.arnsNodup
    · rw [gnames_eq_of_arns_eq _ _ harns]
      exact hinv.base.gNamesNodup
    · intro h hh
      rcases hmem' h hh with h2 | h2 | h2
      · exact hinv.base.statusOK h (hmem_pre h h2)
      · subst h2
        exact hinv.base.statusOK g hg
      · exact hinv.base.statusOK h (hmem_post h h2)
    · intro w hw
      rw [hannot] at hw
      exact hinv.shaped w hw
    · intro h hh hdel l hl k' hk'
      rcases hmem' h hh with h2 | h2 | h2
      · exact hinv.delOut h (hmem_pre h h2) hdel l hl k' hk'
      · subst h2
        exact hinv.delOut g hg hdel l hl k' hk'
      · exact hinv.delOut h (hmem_post h h2) hdel l hl k' hk'
    · intro h hh hdel
      rcases hmem' h hh with h2 | h2 | h2
      · exact hinv.delSingle h (hmem_pre h h2) hdel
      · subst h2
        exact hinv.delSingle g hg hdel
      · exact hinv.delSingle h (hmem_post h h2) hdel
    · intro h hh hdel p' hp'
      rw [hpol] at hp'
      rcases hmem' h hh with h2 | h2 | h2
      · exact hinv.delDisassoc h (hmem_pre h h2) hdel p' hp'
      · subst h2
        exact hinv.delDisassoc g hg hdel p' hp'
      · exact hinv.delDisassoc h (hmem_post h h2) hdel p' hp'
    · intro p' hp'
      rw [hpol] at hp'
      exact hinv.polNodup p' hp'
    · intro p' hp' a ha
      rw [hpol] at hp'
      obtain ⟨g2, hg2, hg2a⟩ := hinv.refsSub p' hp' a ha
      have hmm : a ∈ (setGroupRulesIp g.arn g.rulesString
          (ensureIpSet ipn cidr g.ipSets) s).groups.map RuleGroup.arn := by
        rw [harns]
        exact hg2a ▸ List.mem_map_of_mem _ hg2
      rw [List.mem_map] at hmm
      obtain ⟨g3, hg3, hg3a⟩ := hmm
      exact ⟨g3, hg3, hg3a⟩
  refine ⟨hinv', ?_, ?_, ?_, ?_⟩
  · obtain ⟨l, hl, hext⟩ := hlk
    exact ⟨_, hmem'_mid, hglive, ⟨l, hl, hext⟩, ensureIpSet_idem ipn cidr _⟩
  · intro k' hkl
    obtain ⟨h, hh, hst, ⟨l, hl, hex⟩, hips⟩ := hkl
    rcases mem_groups_decomp s pre post g h heq hh with h2 | h2 | h2
    · exact ⟨h, hmem'_pre h h2, hst, ⟨l, hl, hex⟩, hips⟩
    · subst h2
      exact ⟨_, hmem'_mid, hst, ⟨l, hl, hex⟩, ensureIpSet_idem ipn cidr _⟩
    · exact ⟨h, hmem'_post h h2, hst, ⟨l, hl, hex⟩, hips⟩
  · intro l hl
    rw [mem_liveLines] at hl ⊢
    obtain ⟨h, hh, hst, hl2⟩ := hl
    rcases mem_groups_decomp s pre post g h heq hh with h2 | h2 | h2
    · exact ⟨h, hmem'_pre h h2, hst, hl2⟩
    · subst h2
      exact ⟨_, hmem'_mid, hst, hl2⟩
    · exact ⟨h, hmem'_post h h2, hst, hl2⟩
  · exact gnames_eq_of_arns_eq _ _ harns

/-- Inserting a fresh rule while some group has room: the smallest-fit
group gains the line; invariant, live lines and key liveness carry
over, and the new key becomes live. -/
theorem insert_room_effect (KS : List Str) (ipn cidr k rs : Str)
    (s : FwState)
    (hinv : Inv KS s)
    (hk : getRuleNameFromRuleString rs = some k)
    (hnl : '\n' ∉ rs) (hsh : RuleNameShape k)
    (hfreshk : ∀ u ∈ annot s, u.2.2 ≠ k)
    (hroom : getRuleGroup s ≠ []) :
    ∃ s2 a2, addRuleEntry rs cidr ipn s = .ok (s2, some a2) ∧
      Inv KS s2 ∧ keyLive ipn cidr k s2 ∧
      (∀ k', keyLive ipn cidr k' s → keyLive ipn cidr k' s2) ∧
      (∀ l ∈ liveLines s, l ∈ liveLines s2) ∧
      ((s2.groups.map fun h => arnToName h.arn)
        = s.groups.map fun h => arnToName h.arn) := by
  obtain ⟨g, hg, hgg, hglive, -⟩ := getRuleGroup_mem s hroom
  have hgne : g.arn ≠ [] := by
    rw [← hgg]
    exact hroom
  have hruneq := addRuleEntry_miss_room rs cidr ipn k s g hinv.base hk
    hfreshk hgg hg hgne
  obtain ⟨pre, post, heq, hpre, hpost, hgr, hpol⟩ :=
    setGroupRulesIp_shape s g (joinCh '\n' (groupLines g ++ [rs]))
      (ensureIpSet ipn cidr g.ipSets) hinv.base.arnsNodup hg
  refine ⟨_, g.arn, hruneq, ?_⟩
  have hmem_pre : ∀ h ∈ pre, h ∈ s.groups := by
    intro h hh
    rw [heq]
    exact List.mem_append_left _ hh
  have hmem_post : ∀ h ∈ post, h ∈ s.groups := by
    intro h hh
    rw [heq]
    exact List.mem_append_right _ (List.mem_cons_of_mem _ hh)
  have hmem' : ∀ h, h ∈ (setGroupRulesIp g.arn
      (joinCh '\n' (groupLines g ++ [rs]))
      (ensureIpSet ipn cidr g.ipSets) s).groups →
      h ∈ pre ∨
      h = { g with rulesString := (joinCh '\n' (groupLines g ++ [rs])), ipSets := ensureIpSet ipn cidr g.ipSets } ∨
      h ∈ post := by
    intro h hh
    rw [hgr] at hh
    rcases List.mem_append.mp hh with h2 | h2
    · exact Or.inl h2
    · rcases List.mem_cons.mp h2 with h3 | h3
      · exact Or.inr (Or.inl h3)
      · exact Or.inr (Or.inr h3)
  have hmem'_pre : ∀ h ∈ pre, h ∈ (setGroupRulesIp g.arn
      (joinCh '\n' (groupLines g ++ [rs]))
      (ensureIpSet ipn cidr g.ipSets) s).groups := by
    intro h hh
    rw [hgr]
    exact List.mem_append_left _ hh
  have hmem'_post : ∀ h ∈ post, h ∈ (setGroupRulesIp g.arn
      (joinCh '\n' (groupLines g ++ [rs]))
      (ensureIpSet ipn cidr g.ipSets) s).groups := by
    intro h hh
    rw [hgr]
    exact List.mem_append_right _ (List.mem_cons_of_mem _ hh)
  have hmem'_mid :
      { g with rulesString := (joinCh '\n' (groupLines g ++ [rs])), ipSets := ensureIpSet ipn cidr g.ipSets }
      ∈ (setGroupRulesIp g.arn (joinCh '\n' (groupLines g ++ [rs]))
        (ensureIpSet ipn cidr g.ipSets) s).groups := by
    rw [hgr]
    exact List.mem_append_right _ (List.mem_cons_self _ _)
  have hnl2 : ∀ p ∈ groupLines g ++ [rs], '\n' ∉ p := by
    intro p hp
    rcases List.mem_append.mp hp with h2 | h2
    · exact sep_not_mem_splitCh '\n' g.rulesString p h2
    · rw [List.mem_singleton] at h2
      rw [h2]
      exact hnl
  have hlines2 : groupLines
      { g with rulesString := (joinCh '\n' (groupLines g ++ [rs])), ipSets := ensureIpSet ipn cidr g.ipSets }
      = groupLines g ++ [rs] := by
    show splitCh '\n' (joinCh '\n' _) = _
    exact splitCh_joinCh '\n' _ hnl2 (by simp)
  have hanng : annotG
      { g with rulesString := (joinCh '\n' (groupLines g ++ [rs])), ipSets := ensureIpSet ipn cidr g.ipSets }
      = annotG g ++ [(g.arn, rs, k)] := by
    unfold annotG
    rw [hlines2, List.map_append]
    simp [hk]
  have hannot2 : annot (setGroupRulesIp g.arn
      (joinCh '\n' (groupLines g ++ [rs]))
      (ensureIpSet ipn cidr g.ipSets) s)
      = pre.flatMap annotG ++ ((annotG g ++ [(g.arn, rs, k)])
        ++ post.flatMap annotG) := by
    rw [annot_decomp _ pre post _ hgr, hanng]
  have hannot1 : annot s = pre.flatMap annotG ++ (annotG g ++
      post.flatMap annotG) := annot_decomp s pre post g heq
  have hannot_mem : ∀ u, u ∈ annot (setGroupRulesIp g.arn
      (joinCh '\n' (groupLines g ++ [rs]))
      (ensureIpSet ipn cidr g.ipSets) s) →
      u ∈ annot s ∨ u = (g.arn, rs, k) := by
    intro u hu
    rw [hannot2] at hu
    rcases List.mem_append.mp hu with h2 | h2
    · exact Or.inl (by rw [hannot1]; exact List.mem_append_left _ h2)
    · rcases List.mem_append.mp h2 with h3 | h3
      · rcases List.mem_append.mp h3 with h4 | h4
        · exact Or.inl (by
            rw [hannot1]
            exact List.mem_append_right _ (List.mem_append_left _ h4))
        · rw [List.mem_singleton] at h4
          exact Or.inr h4
      · exact Or.inl (by
          rw [hannot1]
          exact List.mem_append_right _ (List.mem_append_right _ h3))
  have hknotin : k ∉ (annot s).map fun u => u.2.2 := by
    intro hmem
    rw [List.mem_map] at hmem
    obtain ⟨u, hu, huk⟩ := hmem
    exact hfreshk u hu huk
  have harns : (setGroupRulesIp g.arn (joinCh '\n' (groupLines g ++ [rs]))
      (ensureIpSet ipn cidr g.ipSets) s).groups.map RuleGroup.arn
      = s.groups.map RuleGroup.arn := by
    rw [hgr, heq]
    simp
  have hinv' : Inv KS (setGroupRulesIp g.arn
      (joinCh '\n' (groupLines g ++ [rs]))
      (ensureIpSet ipn cidr g.ipSets) s) := by
    refine ⟨⟨?_, ?_, ?_, ?_, ?_⟩, ?_, ?_, ?_, ?_, ?_, ?_⟩
    · intro h hh l hl
      rcases hmem' h hh with h2 | h2 | h2
      · exact hinv.base.extractable h (hmem_pre h h2) l hl
      · subst h2
        rw [hlines2] at hl
        rcases List.mem_append.mp hl with h3 | h3
        · exact hinv.base.extractable g hg l h3
        · rw [List.mem_singleton] at h3
          rw [h3, hk]
          rfl
      · exact hinv.base.extractable h (hmem_post h h2) l hl
    · rw [hannot2]
      have hshape : ((pre.flatMap annotG ++ ((annotG g ++ [(g.arn, rs, k)])
          ++ post.flatMap annotG)).map fun u => u.2.2)
          = (pre.flatMap annotG).map (fun u => u.2.2) ++
            ((((annotG g).map fun u => u.2.2) ++ [k]) ++
              (post.flatMap annotG).map (fun u => u.2.2)) := by
        simp
      rw [hshape]
      apply nodup_insert_middle
      · have := hinv.base.namesNodup
        rw [hannot1] at this
        simpa using this
      · have hknotin2 := hknotin
        rw [hannot1] at hknotin2
        simpa using hknotin2
    · rw [harns]
      exact hinv.base.arnsNodup
    · rw [gnames_eq_of_arns_eq _ _ harns]
      exact hinv.base.gNamesNodup
    · intro h hh
      rcases hmem' h hh with h2 | h2 | h2
      · exact hinv.base.statusOK h (hmem_pre h h2)
      · subst h2
        exact hinv.base.statusOK g hg
      · exact hinv.base.statusOK h (hmem_post h h2)
    · intro w hw
      rcases hannot_mem w hw with h2 | h2
      · exact hinv.shaped w h2
      · rw [h2]
        exact hsh
    · intro h hh hdel l hl k' hk'
      rcases hmem' h hh with h2 | h2 | h2
      · exact hinv.delOut h (hmem_pre h h2) hdel l hl k' hk'
      · subst h2
        exact absurd hdel hglive
      · exact hinv.delOut h (hmem_post h h2) hdel l hl k' hk'
    · intro h hh hdel
      rcases hmem' h hh with h2 | h2 | h2
      · exact hinv.delSingle h (hmem_pre h h2) hdel
      · subst h2
        exact absurd hdel hglive
      · exact hinv.delSingle h (hmem_post h h2) hdel
    · intro h hh hdel p' hp'
      rw [hpol] at hp'
      rcases hmem' h hh with h2 | h2 | h2
      · exact hinv.delDisassoc h (hmem_pre h h2) hdel p' hp'
      · subst h2
        exact absurd hdel hglive
      · exact hinv.delDisassoc h (hmem_post h h2) hdel p' hp'
    · intro p' hp'
      rw [hpol] at hp'
      exact hinv.polNodup p' hp'
    · intro p' hp' a ha
      rw [hpol] at hp'
      obtain ⟨g2, hg2, hg2a⟩ := hinv.refsSub p' hp' a ha
      have hmm : a ∈ (setGroupRulesIp g.arn
          (joinCh '\n' (groupLines g ++ [rs]))
          (ensureIpSet ipn cidr g.ipSets) s).groups.map RuleGroup.arn := by
        rw [harns]
        exact hg2a ▸ List.mem_map_of_mem _ hg2
      rw [List.mem_map] at hmm
      obtain ⟨g3, hg3, hg3a⟩ := hmm
      exact ⟨g3, hg3, hg3a⟩
  refine ⟨hinv', ?_, ?_, ?_, ?_⟩
  · refine ⟨_, hmem'_mid, hglive, ⟨rs, ?_, hk⟩, ensureIpSet_idem ipn cidr _⟩
    rw [hlines2]
    exact List.mem_append_right _ (by simp)
  · intro k' hkl
    obtain ⟨h, hh, hst, ⟨l, hl, hex⟩, hips⟩ := hkl
    rcases mem_groups_decomp s pre post g h heq hh with h2 | h2 | h2
    · exact ⟨h, hmem'_pre h h2, hst, ⟨l, hl, hex⟩, hips⟩
    · subst h2
      refine ⟨_, hmem'_mid, hst, ⟨l, ?_, hex⟩, ensureIpSet_idem ipn cidr _⟩
      rw [hlines2]
      exact List.mem_append_left _ hl
    · exact ⟨h, hmem'_post h h2, hst, ⟨l, hl, hex⟩, hips⟩
  · intro l hl
    rw [mem_liveLines] at hl ⊢
    obtain ⟨h, hh, hst, hl2⟩ := hl
    rcases mem_groups_decomp s pre post g h heq hh with h2 | h2 | h2
    · exact ⟨h, hmem'_pre h h2, hst, hl2⟩
    · subst h2
      refine ⟨_, hmem'_mid, hst, ?_⟩
      rw [hlines2]
      exact List.mem_append_left _ hl2
    · exact ⟨h, hmem'_post h h2, hst, hl2⟩
  · exact gnames_eq_of_arns_eq _ _ harns

/-- Creating a fresh group for a fresh rule: the collection gains an
`ACTIVE` singleton group; invariant, live lines and key liveness carry
over, and the new key becomes live. -/
theorem insert_create_effect (KS : List Str) (ipn cidr k rs gname : Str)
    (pd : Nat) (s : FwState)
    (hinv : Inv KS s)
    (hk : getRuleNameFromRuleString rs = some k)
    (hnl : '\n' ∉ rs) (hsh : RuleNameShape k)
    (hfreshk : ∀ u ∈ annot s, u.2.2 ≠ k)
    (hfreshg : gname ∉ s.groups.map fun h => arnToName h.arn) :
    Inv KS (createNewRuleGroup gname rs ipn cidr pd s) ∧
    keyLive ipn cidr k (createNewRuleGroup gname rs ipn cidr pd s) ∧
    (∀ k', keyLive ipn cidr k' s →
      keyLive ipn cidr k' (createNewRuleGroup gname rs ipn cidr pd s)) ∧
    (∀ l ∈ liveLines s,
      l ∈ liveLines (createNewRuleGroup gname rs ipn cidr pd s)) ∧
    ((createNewRuleGroup gname rs ipn cidr pd s).groups.map
        fun h => arnToName h.arn)
      = (s.groups.map fun h => arnToName h.arn) ++ [gname] := by
  have hgr := createNewRuleGroup_groups gname rs ipn cidr pd s
  have hlinesG : groupLines { arn := groupArnOf gname, rulesString := rs, ipSets := [(ipn, [cidr])], consumed := 0, status := "ACTIVE".data }
      = [rs] := by
    show splitCh '\n' rs = [rs]
    exact splitCh_of_not_mem '\n' rs hnl
  have hanng : annotG { arn := groupArnOf gname, rulesString := rs, ipSets := [(ipn, [cidr])], consumed := 0, status := "ACTIVE".data }
      = [(groupArnOf gname, rs, k)] := by
    unfold annotG
    rw [hlinesG]
    simp [hk]
  have hannot2 : annot (createNewRuleGroup gname rs ipn cidr pd s)
      = annot s ++ [(groupArnOf gname, rs, k)] := by
    rw [annot_eq_flatMap, hgr, List.flatMap_append, ← annot_eq_flatMap]
    simp [hanng]
  have hmem' : ∀ h, h ∈ (createNewRuleGroup gname rs ipn cidr pd s).groups →
      h ∈ s.groups ∨ h = { arn := groupArnOf gname, rulesString := rs, ipSets := [(ipn, [cidr])], consumed := 0, status := "ACTIVE".data } := by
    intro h hh
    rw [hgr] at hh
    rcases List.mem_append.mp hh with h2 | h2
    · exact Or.inl h2
    · rw [List.mem_singleton] at h2
      exact Or.inr h2
  have hmem'_old : ∀ h ∈ s.groups,
      h ∈ (createNewRuleGroup gname rs ipn cidr pd s).groups := by
    intro h hh
    rw [hgr]
    exact List.mem_append_left _ hh
  have hmem'_new : { arn := groupArnOf gname, rulesString := rs, ipSets := [(ipn, [cidr])], consumed := 0, status := "ACTIVE".data }
      ∈ (createNewRuleGroup gname rs ipn cidr pd s).groups := by
    rw [hgr]
    exact List.mem_append_right _ (by simp)
  have harnnew : ∀ h ∈ s.groups, h.arn ≠ groupArnOf gname := by
    intro h hh he
    apply hfreshg
    rw [← arnToName_groupArnOf gname, ← he]
    exact List.mem_map_of_mem _ hh
  have hgnames : ((createNewRuleGroup gname rs ipn cidr pd s).groups.map
      fun h => arnToName h.arn)
      = (s.groups.map fun h => arnToName h.arn) ++ [gname] := by
    rw [hgr, List.map_append]
    simp [arnToName_groupArnOf]
  have hpolmem := createNewRuleGroup_policies_mem gname rs ipn cidr pd s
  have hinv' : Inv KS (createNewRuleGroup gname rs ipn cidr pd s) := by
    refine ⟨⟨?_, ?_, ?_, ?_, ?_⟩, ?_, ?_, ?_, ?_, ?_, ?_⟩
    · intro h hh l hl
      rcases hmem' h hh with h2 | h2
      · exact hinv.base.extractable h h2 l hl
      · subst h2
        rw [hlinesG, List.mem_singleton] at hl
        rw [hl, hk]
        rfl
    · rw [hannot2, List.map_append]
      rw [List.nodup_append]
      refine ⟨hinv.base.namesNodup, by simp, ?_⟩
      intro n hn hn2
      simp at hn2
      rw [List.mem_map] at hn
      obtain ⟨u, hu, hun⟩ := hn
      exact hfreshk u hu (by rw [hun, hn2])
    · rw [hgr, List.map_append, List.nodup_append]
      refine ⟨hinv.base.arnsNodup, by simp, ?_⟩
      intro a ha ha2
      simp at ha2
      rw [List.mem_map] at ha
      obtain ⟨h, hh, hha⟩ := ha
      exact harnnew h hh (by rw [hha, ha2])
    · rw [hgnames, List.nodup_append]
      refine ⟨hinv.base.gNamesNodup, by simp, ?_⟩
      intro a ha ha2
      simp at ha2
      rw [ha2] at ha
      exact hfreshg ha
    · intro h hh
      rcases hmem' h hh with h2 | h2
      · exact hinv.base.statusOK h h2
      · subst h2
        exact Or.inl rfl
    · intro w hw
      rw [hannot2] at hw
      rcases List.mem_append.mp hw with h2 | h2
      · exact hinv.shaped w h2
      · rw [List.mem_singleton] at h2
        rw [h2]
        exact hsh
    · intro h hh hdel l hl k' hk'
      rcases hmem' h hh with h2 | h2
      · exact hinv.delOut h h2 hdel l hl k' hk'
      · subst h2
        exact absurd hdel (show ¬("ACTIVE".data = "DELETING".data) by decide)
    · intro h hh hdel
      rcases hmem' h hh with h2 | h2
      · exact hinv.delSingle h h2 hdel
      · subst h2
        exact absurd hdel (show ¬("ACTIVE".data = "DELETING".data) by decide)
    · intro h hh hdel p' hp'
      rcases hmem' h hh with h2 | h2
      · rcases hpolmem p' hp' with h3 | ⟨p, hp, rfl⟩ | h3
        · exact hinv.delDisassoc h h2 hdel p' h3
        · intro hm
          rcases List.mem_append.mp hm with h4 | h4
          · exact hinv.delDisassoc h h2 hdel p hp h4
          · rw [List.mem_singleton] at h4
            exact harnnew h h2 h4
        · intro hm
          rw [h3, List.mem_singleton] at hm
          exact harnnew h h2 hm
      · subst h2
        exact absurd hdel (show ¬("ACTIVE".data = "DELETING".data) by decide)
    · intro p' hp'
      rcases hpolmem p' hp' with h3 | ⟨p, hp, rfl⟩ | h3
      · exact hinv.polNodup p' h3
      · rw [List.nodup_append]
        refine ⟨hinv.polNodup p hp, by simp, ?_⟩
        intro a ha ha2
        simp at ha2
        obtain ⟨h, hh, hha⟩ := hinv.refsSub p hp a ha
        exact harnnew h hh (by rw [hha, ha2])
      · rw [h3]
        simp
    · intro p' hp' a ha
      rcases hpolmem p' hp' with h3 | ⟨p, hp, rfl⟩ | h3
      · obtain ⟨h, hh, hha⟩ := hinv.refsSub p' h3 a ha
        exact ⟨h, hmem'_old h hh, hha⟩
      · rcases List.mem_append.mp ha with h4 | h4
        · obtain ⟨h, hh, hha⟩ := hinv.refsSub p hp a h4
          exact ⟨h, hmem'_old h hh, hha⟩
        · rw [List.mem_singleton] at h4
          exact ⟨_, hmem'_new, h4.symm⟩
      · rw [h3, List.mem_singleton] at ha
        exact ⟨_, hmem'_new, ha.symm⟩
  refine ⟨hinv', ?_, ?_, ?_, hgnames⟩
  · refine ⟨_, hmem'_new,
      (show ("ACTIVE".data ≠ "DELETING".data) by decide), ⟨rs, ?_, hk⟩, ?_⟩
    · rw [hlinesG]
      simp
    · exact ensureIpSet_sing ipn cidr
  · intro k' hkl
    obtain ⟨h, hh, hst, hline, hips⟩ := hkl
    exact ⟨h, hmem'_old h hh, hst, hline, hips⟩
  · intro l hl
    rw [mem_liveLines] at hl ⊢
    obtain ⟨h, hh, hst, hl2⟩ := hl
    exact ⟨h, hmem'_old h hh, hst, hl2⟩

/-- The per-rule loop of `add_new_rule`, end to end: the run invariant
persists, every key of the map is live at the end, live lines outside
the vpc scope survive, and — once at least one rule has been processed,
so that the trailing cleanup has run — every live name inside the vpc
scope is a key of the map. -/
theorem addNewRuleLoop_master (A V cidr ipn : Str)
    (rules R : List (Str × Str)) (gns : List Str) (pds : List Nat)
    (s s' : FwState)
    (hA : A ≠ []) (hV : V ≠ [])
    (hRsub : ∀ r ∈ R, r ∈ rules)
    (hrules : ∀ r ∈ rules, getRuleNameFromRuleString r.2 = some r.1 ∧
      '\n' ∉ r.2 ∧ RuleNameShape r.1)
    (hinv : Inv (rules.map Prod.fst) s)
    (hfresh : freshSupply gns s)
    (hlen : R.length ≤ gns.length)
    (hprev : ∀ r ∈ rules, r ∉ R → keyLive ipn cidr r.1 s)
    (hrun : addNewRuleLoop A V cidr ipn rules R gns pds s = .ok s') :
    Inv (rules.map Prod.fst) s' ∧
    (∀ r ∈ rules, keyLive ipn cidr r.1 s') ∧
    (∀ l ∈ liveLines s, (∀ n, getRuleNameFromRuleString l = some n →
      vpcComponent n ≠ V) → l ∈ liveLines s') ∧
    (R ≠ [] → ∀ n ∈ liveNames s', vpcComponent n = V →
      n ∈ rules.map Prod.fst) := by
  induction R generalizing s gns pds with
  | nil =>
    rw [addNewRuleLoop] at hrun
    obtain rfl := (Except.ok.injEq _ _).mp hrun
    exact ⟨hinv, fun r hr => hprev r hr (by simp), fun l hl _ => hl,
      fun hne => absurd rfl hne⟩
  | cons r rest ih =>
    obtain ⟨k0, rs⟩ := r
    have hr : (k0, rs) ∈ rules := hRsub _ (List.mem_cons_self _ _)
    obtain ⟨hk, hnl, hsh⟩ := hrules (k0, rs) hr
    have hkK : k0 ∈ rules.map Prod.fst := List.mem_map_of_mem _ hr
    have hgnsne : gns ≠ [] := by
      intro hnil
      rw [hnil] at hlen
      simp at hlen
    rw [addNewRuleLoop] at hrun
    have hmain : ∃ s2, (match addRuleEntry rs cidr ipn s with
        | Except.error e => (Except.error e : Except RunErr FwState)
        | Except.ok (s1, arnOpt) =>
          (match cleanUpRules rules A V
            (match arnOpt with
             | some _ => s1
             | none => createNewRuleGroup (gns.headD []) rs ipn cidr
                 (pds.headD 0) s1) with
          | Except.error e => Except.error e
          | Except.ok s3 => addNewRuleLoop A V cidr ipn rules rest
              gns.tail pds.tail s3)) = (match cleanUpRules rules A V s2 with
          | Except.error e => Except.error e
          | Except.ok s3 => addNewRuleLoop A V cidr ipn rules rest
              gns.tail pds.tail s3) ∧
        Inv (rules.map Prod.fst) s2 ∧ keyLive ipn cidr k0 s2 ∧
        (∀ k', keyLive ipn cidr k' s → keyLive ipn cidr k' s2) ∧
        (∀ l ∈ liveLines s, l ∈ liveLines s2) ∧
        ((s2.groups.map fun h => arnToName h.arn)
            = (s.groups.map fun h => arnToName h.arn) ∨
          (s2.groups.map fun h => arnToName h.arn)
            = (s.groups.map fun h => arnToName h.arn) ++ [gns.headD []]) := by
      by_cases hex : ∃ u ∈ annot s, u.2.2 = k0
      · obtain ⟨u, hu, huk⟩ := hex
        have hga : ∃ g ∈ s.groups, u.1 = g.arn := by
          obtain ⟨a, l, n⟩ := u
          rw [mem_annot] at hu
          obtain ⟨g, hg, ha, -, -⟩ := hu
          exact ⟨g, hg, ha⟩
        obtain ⟨g, hg, hga⟩ := hga
        obtain ⟨s2, hrun2, hinv2, hklive2, hkeep2, hlive2, hgn2⟩ :=
          insert_hit_effect (rules.map Prod.fst) ipn cidr k0 rs s u g hinv
            hkK hk hu huk hg hga
        refine ⟨s2, ?_, hinv2, hklive2, hkeep2, hlive2, Or.inl hgn2⟩
        rw [hrun2]
      · push_neg at hex
        by_cases hroom : getRuleGroup s = []
        · have hruneq := addRuleEntry_miss_noroom rs cidr ipn k0 s hinv.base
            hk hex hroom
          obtain ⟨gn, gtail, rfl⟩ : ∃ gn gtail, gns = gn :: gtail := by
            cases gns with
            | nil => exact absurd rfl hgnsne
            | cons gn gtail => exact ⟨gn, gtail, rfl⟩
          have hfreshgn : gn ∉ s.groups.map fun h => arnToName h.arn := by
            unfold freshSupply at hfresh
            rw [List.nodup_append] at hfresh
            intro hm
            exact hfresh.2.2 hm (by simp)
          obtain ⟨hinv2, hklive2, hkeep2, hlive2, hgn2⟩ :=
            insert_create_effect (rules.map Prod.fst) ipn cidr k0 rs gn
              (pds.headD 0) s hinv hk hnl hsh hex hfreshgn
          refine ⟨createNewRuleGroup gn rs ipn cidr (pds.headD 0) s, ?_,
            hinv2, hklive2, hkeep2, hlive2, Or.inr (by simpa using hgn2)⟩
          rw [hruneq]
          rfl
        · obtain ⟨s2, a2, hrun2, hinv2, hklive2, hkeep2, hlive2, hgn2⟩ :=
            insert_room_effect (rules.map Prod.fst) ipn cidr k0 rs s hinv
              hk hnl hsh hex hroom
          refine ⟨s2, ?_, hinv2, hklive2, hkeep2, hlive2, Or.inl hgn2⟩
          rw [hrun2]
    obtain ⟨s2, hstepeq, hinv2, hklive2, hkeep2, hlive2, hgn2⟩ := hmain
    rw [hstepeq] at hrun
    cases hclean : cleanUpRules rules A V s2 with
    | error e =>
      rw [hclean] at hrun
      exact absurd hrun (by simp)
    | ok s3 =>
      rw [hclean] at hrun
      obtain ⟨hso3, hbound3, hpres3⟩ :=
        cleanUpRules_spec ipn cidr rules A V s2 s3 hA hV hinv2 hclean
      have hgn3 : (s3.groups.map fun h => arnToName h.arn)
          = s2.groups.map fun h => arnToName h.arn :=
        gnames_eq_of_arns_eq _ _ hso3.arnsEq
      have hfresh3 : freshSupply gns.tail s3 := by
        unfold freshSupply at hfresh ⊢
        rw [hgn3]
        rcases hgn2 with h2 | h2
        · rw [h2]
          exact ((List.Sublist.refl _).append (List.tail_sublist gns)).nodup
            hfresh
        · rw [h2]
          have heq2 : ((s.groups.map fun h => arnToName h.arn)
              ++ [gns.headD []]) ++ gns.tail
              = (s.groups.map fun h => arnToName h.arn)
                ++ (gns.headD [] :: gns.tail) := by
            simp
          rw [heq2]
          have hcons : gns.headD [] :: gns.tail = gns := by
            cases gns with
            | nil => exact absurd rfl hgnsne
            | cons a b => rfl
          rw [hcons]
          exact hfresh
      have hlen3 : rest.length ≤ gns.tail.length := by
        rw [List.length_tail]
        have := hlen
        rw [List.length_cons] at this
        omega
      have hprev3 : ∀ r ∈ rules, r ∉ rest → keyLive ipn cidr r.1 s3 := by
        intro r hrr hnr
        by_cases hhead : r = (k0, rs)
        · subst hhead
          exact hso3.keyKeep (k0, rs).1 (List.mem_map_of_mem _ hrr) hklive2
        · have hnR : r ∉ (k0, rs) :: rest := by
            intro hm
            rcases List.mem_cons.mp hm with h2 | h2
            · exact hhead h2
            · exact hnr h2
          exact hso3.keyKeep r.1 (List.mem_map_of_mem _ hrr)
            (hkeep2 r.1 (hprev r hrr hnR))
      obtain ⟨hinv', hkeys', hpres', hbound'⟩ := ih gns.tail pds.tail s3
        (fun r hrr => hRsub r (List.mem_cons_of_mem _ hrr)) hso3.inv
        hfresh3 hlen3 hprev3 hrun
      refine ⟨hinv', hkeys', ?_, ?_⟩
      · intro l hl hother
        exact hpres' l (hpres3 l (hlive2 l hl) hother) hother
      · intro hne
        by_cases hrest : rest = []
        · subst hrest
          have hs3 : s3 = s' := by
            have h4 : (Except.ok s3 : Except RunErr FwState)
                = Except.ok s' := hrun
            exact (Except.ok.injEq _ _).mp h4
          subst hs3
          exact hbound3
        · exact hbound' hrest

/-- On nonempty fields, the `Update` event runs exactly `add_new_rule`:
the other three event branches test different event strings. -/
theorem jsonToRule_update_eq (m : Message) (gns : List Str) (pds : List Nat)
    (s : FwState) (hacc : m.account ≠ []) (hcidr : m.cidr ≠ [])
    (hvpc : m.vpc ≠ []) (hreg : m.region ≠ []) (hrules : m.rules ≠ []) :
    jsonToRule "Update".data m gns pds s
      = addNewRule m.vpc m.account m.rules m.cidr gns pds s := by
  unfold jsonToRule
  rw [if_pos ⟨rfl, hacc, hcidr, hvpc, hreg, hrules⟩]
  cases hadd : addNewRule m.vpc m.account m.rules m.cidr gns pds s with
  | error e => rfl
  | ok s1 =>
    have h2 : ¬("Update".data = "DeleteVpc".data ∧ m.vpc ≠ []) := by
      rintro ⟨h3, -⟩
      exact absurd h3 (by decide)
    have h3 : ¬("Update".data = "DeleteS3".data ∧ m.account ≠ [] ∧
        m.region ≠ []) := by
      rintro ⟨h4, -⟩
      exact absurd h4 (by decide)
    have h4 : ¬("Update".data = "DeleteAccount".data ∧ m.account ≠ []) := by
      rintro ⟨h5, -⟩
      exact absurd h5 (by decide)
    simp only [if_neg h2, if_neg h3, if_neg h4]

/-- A state with every group `ACTIVE` satisfies the run invariant as
soon as the base well-formedness, name shapes and policy bookkeeping
hold: the `DELETING` obligations are vacuous. -/
theorem inv_of_active (KS : List Str) (s : FwState) (hwf : WfBase s)
    (hact : ∀ g ∈ s.groups, g.status = "ACTIVE".data)
    (hshaped : ∀ t ∈ annot s, RuleNameShape t.2.2)
    (hpoln : ∀ p ∈ s.policies, p.refs.Nodup)
    (hrefs : ∀ p ∈ s.policies, ∀ a ∈ p.refs, ∃ g ∈ s.groups, g.arn = a) :
    Inv KS s := by
  refine ⟨hwf, hshaped, ?_, ?_, ?_, hpoln, hrefs⟩ <;>
    (intro g hg hdel
     rw [hact g hg] at hdel
     exact absurd hdel (by decide))

theorem contains_iff_mem_str (l : List Str) (x : Str) :
    l.contains x = true ↔ x ∈ l := List.elem_iff

/-- Rules of a well-formed message satisfy the loop's per-rule facts. -/
theorem wfMsg_rule_facts (m : Message) (hmsg : WfMsg m) :
    ∀ r ∈ m.rules, getRuleNameFromRuleString r.2 = some r.1 ∧
      '\n' ∉ r.2 ∧ RuleNameShape r.1 := by
  intro r hr
  obtain ⟨hex, hnl, h, hkey, hhne, hha⟩ := hmsg.ruleOK r hr
  exact ⟨hex, hnl, m.account, m.vpc, h, hkey, hmsg.accNe, hmsg.accD,
    hmsg.vpcNe, hmsg.vpcA, hhne, hha⟩

/-- C2 (corrected): for every well-formed nonempty-`Rules` Update
message, processed against a well-formed all-`ACTIVE` firewall with a
fresh name supply, the live rule names carrying the scope prefix
`<account>-<vpc>-` afterwards are exactly the keys of the message's
`Rules` map.  (The original claim also asserted this for the
empty-`Rules` Update, where the reconciler instead leaves the scope
untouched — see the counterexample.) -/
theorem c2_amended (m : Message) (gns : List Str) (pds : List Nat)
    (s s' : FwState)
    (hmsg : WfMsg m) (hrulesNe : m.rules ≠ [])
    (hwf : WfBase s)
    (hact : ∀ g ∈ s.groups, g.status = "ACTIVE".data)
    (hshaped : ∀ t ∈ annot s, RuleNameShape t.2.2)
    (hpoln : ∀ p ∈ s.policies, p.refs.Nodup)
    (hrefs : ∀ p ∈ s.policies, ∀ a ∈ p.refs, ∃ g ∈ s.groups, g.arn = a)
    (hfresh : freshSupply gns s)
    (hlen : m.rules.length ≤ gns.length)
    (hrun : jsonToRule "Update".data m gns pds s = .ok s') :
    listSetEq (inScopeNames m.account m.vpc s') (m.rules.map Prod.fst)
      = true := by
  have hinv0 : Inv (m.rules.map Prod.fst) s :=
    inv_of_active _ s hwf hact hshaped hpoln hrefs
  rw [jsonToRule_update_eq m gns pds s hmsg.accNe hmsg.cidrNe hmsg.vpcNe
    hmsg.regionNe hrulesNe] at hrun
  unfold addNewRule at hrun
  obtain ⟨hinv', hkeys, hpres, hbound⟩ :=
    addNewRuleLoop_master m.account m.vpc m.cidr
      ('a' :: (m.account ++ m.vpc)) m.rules m.rules gns pds s s'
      hmsg.accNe hmsg.vpcNe (fun r hr => hr) (wfMsg_rule_facts m hmsg)
      hinv0 hfresh hlen (fun r hr hn => absurd hr hn) hrun
  have hbound2 := hbound hrulesNe
  unfold listSetEq inScopeNames
  rw [Bool.and_eq_true, List.all_eq_true, List.all_eq_true]
  constructor
  · intro n hn
    rw [List.mem_filter] at hn
    obtain ⟨hnl, hnp⟩ := hn
    have hshape : RuleNameShape n := by
      have hnl2 := hnl
      rw [mem_liveNames] at hnl2
      obtain ⟨l, hl, hln⟩ := hnl2
      rw [mem_liveLines] at hl
      obtain ⟨g, hg, hst, hlg⟩ := hl
      have hu : (g.arn, l, n) ∈ annot s' := by
        rw [mem_annot]
        exact ⟨g, hg, rfl, hlg, by rw [hln]; rfl⟩
      exact hinv'.shaped _ hu
    have hcomp := components_of_scoped m.account m.vpc n hmsg.accD
      hmsg.vpcA hshape hnp
    rw [contains_iff_mem_str]
    exact hbound2 n hnl hcomp.2
  · intro k hk
    rw [List.mem_map] at hk
    obtain ⟨r, hr, rfl⟩ := hk
    obtain ⟨g, hg, hst, ⟨l, hl, hex⟩, -⟩ := hkeys r hr
    rw [contains_iff_mem_str, List.mem_filter]
    constructor
    · rw [mem_liveNames]
      refine ⟨l, ?_, hex⟩
      rw [mem_liveLines]
      exact ⟨g, hg, hst, hl⟩
    · obtain ⟨-, -, h, hkey, -, -⟩ := hmsg.ruleOK r hr
      rw [hkey]
      exact scoped_of_key m.account m.vpc h

/-- C4 (corrected): an Update for scope `(A, V)` leaves every live rule
whose name's vpc component differs from `V` in place, byte-identical.
(The claim's example of a rule `B-V1-h` for a *different account* but
the *same* vpc component is in fact deleted by the cleanup pass, which
compares only the vpc component — see the counterexample; the frame
that does hold is vpc-component isolation.) -/
theorem c4_amended (m : Message) (gns : List Str) (pds : List Nat)
    (s s' : FwState)
    (hmsg : WfMsg m) (hrulesNe : m.rules ≠ [])
    (hwf : WfBase s)
    (hact : ∀ g ∈ s.groups, g.status = "ACTIVE".data)
    (hshaped : ∀ t ∈ annot s, RuleNameShape t.2.2)
    (hpoln : ∀ p ∈ s.policies, p.refs.Nodup)
    (hrefs : ∀ p ∈ s.policies, ∀ a ∈ p.refs, ∃ g ∈ s.groups, g.arn = a)
    (hfresh : freshSupply gns s)
    (hlen : m.rules.length ≤ gns.length)
    (hrun : jsonToRule "Update".data m gns pds s = .ok s')
    (l n : Str) (hl : l ∈ liveLines s)
    (hn : getRuleNameFromRuleString l = some n)
    (hvpc : vpcComponent n ≠ m.vpc) :
    l ∈ liveLines s' := by
  have hinv0 : Inv (m.rules.map Prod.fst) s :=
    inv_of_active _ s hwf hact hshaped hpoln hrefs
  rw [jsonToRule_update_eq m gns pds s hmsg.accNe hmsg.cidrNe hmsg.vpcNe
    hmsg.regionNe hrulesNe] at hrun
  unfold addNewRule at hrun
  obtain ⟨-, -, hpres, -⟩ :=
    addNewRuleLoop_master m.account m.vpc m.cidr
      ('a' :: (m.account ++ m.vpc)) m.rules m.rules gns pds s s'
      hmsg.accNe hmsg.vpcNe (fun r hr => hr) (wfMsg_rule_facts m hmsg)
      hinv0 hfresh hlen (fun r hr hn2 => absurd hr hn2) hrun
  refine hpres l hl ?_
  intro n2 hn2
  rw [hn] at hn2
  obtain rfl := (Option.some.injEq _ _).mp hn2
  exact hvpc

/-! ### The second run: reinsertion and recleanup are no-ops -/

theorem disassoc_id (a : Str) (s : FwState)
    (h : ∀ p ∈ s.policies, a ∉ p.refs) :
    disassociateRuleFromPolicy a s = s := by
  show { s with policies := (s.policies.map
    fun p => { p with refs := removeFirst a p.refs }) } = s
  have hmap : (s.policies.map fun p =>
      { p with refs := removeFirst a p.refs }) = s.policies := by
    calc s.policies.map (fun p => { p with refs := removeFirst a p.refs })
        = s.policies.map id := by
          apply List.map_congr_left
          intro p hp
          rw [removeFirst_of_not_mem a p.refs (h p hp)]
          rfl
      _ = s.policies := List.map_id _
  rw [hmap]

theorem markDeleting_id (s : FwState) (g : RuleGroup)
    (hn : (s.groups.map fun h => arnToName h.arn).Nodup) (hg : g ∈ s.groups)
    (hdel : g.status = "DELETING".data) :
    markDeletingByName (arnToName g.arn) s = s := by
  show { s with groups := s.groups.map fun h =>
    if arnToName h.arn = arnToName g.arn then
      { h with status := "DELETING".data } else h } = s
  have hmap : (s.groups.map fun h =>
      if arnToName h.arn = arnToName g.arn then
        { h with status := "DELETING".data } else h) = s.groups := by
    calc (s.groups.map fun h =>
        if arnToName h.arn = arnToName g.arn then
          { h with status := "DELETING".data } else h)
        = s.groups.map id := by
          apply List.map_congr_left
          intro h hh
          by_cases hha : arnToName h.arn = arnToName g.arn
          · rw [if_pos hha]
            have hhg : h = g := List.inj_on_of_nodup_map hn hh hg hha
            subst hhg
            rw [← hdel]
            rfl
          · rw [if_neg hha]
            rfl
      _ = s.groups := List.map_id _
  rw [hmap]

theorem cleanUpLoop_id (D : List (Str × Str)) (s : FwState)
    (h : ∀ d ∈ D, cleanUpStep s d = .ok s) : cleanUpLoop D s = .ok s := by
  induction D with
  | nil => rfl
  | cons d D ih =>
    rw [cleanUpLoop, h d (by simp)]
    exact ih fun d' hd' => h d' (List.mem_cons_of_mem _ hd')

/-- Reinserting a live key rewrites its group with its own data: the
state is unchanged. -/
theorem second_run_hit (KS : List Str) (ipn cidr k rs : Str) (s : FwState)
    (hinv : Inv KS s)
    (hk : getRuleNameFromRuleString rs = some k)
    (hklive : keyLive ipn cidr k s) :
    ∃ a2, addRuleEntry rs cidr ipn s = .ok (s, some a2) := by
  obtain ⟨g, hg, hst, ⟨l, hl, hex⟩, hips⟩ := hklive
  have hu : (g.arn, l, k) ∈ annot s := by
    rw [mem_annot]
    exact ⟨g, hg, rfl, hl, by rw [hex]; rfl⟩
  have hruneq := addRuleEntry_hit rs cidr ipn k s (g.arn, l, k) g hinv.base
    hk hu rfl hg rfl
  refine ⟨g.arn, ?_⟩
  rw [hruneq]
  have hstate : setGroupRulesIp g.arn g.rulesString
      (ensureIpSet ipn cidr g.ipSets) s = s := by
    rw [hips]
    show { s with groups := s.groups.map fun h =>
      if h.arn = g.arn then
        { h with rulesString := g.rulesString, ipSets := g.ipSets }
      else h } = s
    have hmap : (s.groups.map fun h =>
        if h.arn = g.arn then
          { h with rulesString := g.rulesString, ipSets := g.ipSets }
        else h) = s.groups := by
      calc (s.groups.map fun h =>
          if h.arn = g.arn then
            { h with rulesString := g.rulesString, ipSets := g.ipSets }
          else h)
          = s.groups.map id := by
            apply List.map_congr_left
            intro h hh
            by_cases hha : h.arn = g.arn
            · rw [if_pos hha]
              have hhg : h = g :=
                List.inj_on_of_nodup_map hinv.base.arnsNodup hh hg hha
              subst hhg
              rfl
            · rw [if_neg hha]
              rfl
        _ = s.groups := List.map_id _
    rw [hmap]
  rw [hstate]

/-- Recleaning a reconciled state: every scheduled entry sits in a
single-line `DELETING` group already cut loose from the policies, so
each loop iteration recomputes the state it was given. -/
theorem second_run_cleanup (ipn cidr : Str) (rules : List (Str × Str))
    (A V : Str) (s : FwState) (hA : A ≠ []) (hV : V ≠ [])
    (hinv : Inv (rules.map Prod.fst) s)
    (hbound : ∀ n ∈ liveNames s, vpcComponent n = V →
      n ∈ rules.map Prod.fst) :
    cleanUpRules rules A V s = .ok s := by
  rw [cleanUpRules_eq_vpc rules A V s hA hV hinv.base.extractable]
  apply cleanUpLoop_id
  intro d hd
  rw [List.mem_map] at hd
  obtain ⟨kv, hkv, rfl⟩ := hd
  have hq := (List.mem_filter.mp hkv).2
  have hsound := ear_fold_sound V (annot s) [] kv (List.mem_of_mem_filter hkv)
  rcases hsound with h2 | ⟨u, hu, hukv, hkv2, hvpc⟩
  · exact absurd h2 (by simp)
  obtain ⟨a, l, t⟩ := u
  have hext : getRuleNameFromRuleString l = some t :=
    annot_extract s hinv.base.extractable (a, l, t) hu
  have htk : t = kv.1 := hukv
  rw [mem_annot] at hu
  obtain ⟨g, hg, ha, hl, -⟩ := hu
  have hnotkey : t ∉ rules.map Prod.fst := by
    intro hmem
    rw [List.mem_map] at hmem
    obtain ⟨r, hr, hrk⟩ := hmem
    have hany : rules.any (fun r => r.1 = kv.1) = true :=
      List.any_eq_true.mpr ⟨r, hr, by simp [hrk, htk]⟩
    simp [hany] at hq
  have hgdel : g.status = "DELETING".data := by
    rcases hinv.base.statusOK g hg with h2 | h2
    · exfalso
      apply hnotkey
      refine hbound t ?_ (by rw [htk]; exact hvpc)
      rw [mem_liveNames]
      refine ⟨l, ?_, hext⟩
      rw [mem_liveLines]
      refine ⟨g, hg, ?_, hl⟩
      rw [h2]
      decide
    · exact h2
  obtain ⟨l0, hl0⟩ := hinv.delSingle g hg hgdel
  have hleq : l = l0 := by
    rw [hl0] at hl
    simpa using hl
  subst hleq
  have hd2 : kv.2 = (g.arn, l) := by
    rw [hkv2, ha]
  rw [hd2, cleanUpStep_spec s l t g hinv.base hg hext]
  have hkept : (groupLines g).filter
      (fun x => (getRuleNameFromRuleString x).getD [] ≠ t) = [] := by
    rw [hl0, List.filter_cons]
    rw [if_neg (by simp [hext])]
    rfl
  rw [hkept]
  rw [if_pos (show joinCh '\n' ([] : List Str) = [] from rfl)]
  rw [deleteRuleIfExists_eq s g hinv.base.gNamesNodup hg,
    disassoc_id g.arn s (fun p hp => hinv.delDisassoc g hg hgdel p hp),
    markDeleting_id s g hinv.base.gNamesNodup hg hgdel]

/-- The whole second-run loop leaves the reconciled state unchanged. -/
theorem second_run_loop (A V cidr ipn : Str) (rules R : List (Str × Str))
    (gns : List Str) (pds : List Nat) (s : FwState)
    (hA : A ≠ []) (hV : V ≠ [])
    (hRsub : ∀ r ∈ R, r ∈ rules)
    (hrules : ∀ r ∈ rules, getRuleNameFromRuleString r.2 = some r.1)
    (hinv : Inv (rules.map Prod.fst) s)
    (hlive : ∀ r ∈ rules, keyLive ipn cidr r.1 s)
    (hbound : ∀ n ∈ liveNames s, vpcComponent n = V →
      n ∈ rules.map Prod.fst) :
    addNewRuleLoop A V cidr ipn rules R gns pds s = .ok s := by
  induction R generalizing gns pds with
  | nil => rfl
  | cons r rest ih =>
    obtain ⟨k0, rs⟩ := r
    have hr : (k0, rs) ∈ rules := hRsub _ (List.mem_cons_self _ _)
    obtain ⟨a2, hstep⟩ := second_run_hit (rules.map Prod.fst) ipn cidr k0 rs
      s hinv (hrules _ hr) (hlive _ hr)
    rw [addNewRuleLoop, hstep]
    show (match cleanUpRules rules A V s with
      | Except.error e => (Except.error e : Except RunErr FwState)
      | Except.ok s3 => addNewRuleLoop A V cidr ipn rules rest
          gns.tail pds.tail s3) = Except.ok s
    rw [second_run_cleanup ipn cidr rules A V s hA hV hinv hbound]
    show addNewRuleLoop A V cidr ipn rules rest gns.tail pds.tail s
      = Except.ok s
    exact ih gns.tail pds.tail
      (fun r hr2 => hRsub r (List.mem_cons_of_mem _ hr2))

/-- C3 (confirmed): applying the same well-formed Update message twice
in a row leaves the firewall state byte-identical after the second
application — the second run returns the reconciled state unchanged:
every reinsertion rewrites its group with the group's own lines and IP
sets, the cleanup pass schedules only entries of groups already in the
`DELETING` state and recomputes them in place, and no new rule group or
policy is created (no group-name or policy-name draw of the second run
is consumed). -/
theorem c3_idempotent (m : Message) (gns gns2 : List Str)
    (pds pds2 : List Nat) (s s1 : FwState)
    (hmsg : WfMsg m) (hrulesNe : m.rules ≠ [])
    (hwf : WfBase s)
    (hact : ∀ g ∈ s.groups, g.status = "ACTIVE".data)
    (hshaped : ∀ t ∈ annot s, RuleNameShape t.2.2)
    (hpoln : ∀ p ∈ s.policies, p.refs.Nodup)
    (hrefs : ∀ p ∈ s.policies, ∀ a ∈ p.refs, ∃ g ∈ s.groups, g.arn = a)
    (hfresh : freshSupply gns s)
    (hlen : m.rules.length ≤ gns.length)
    (hrun : jsonToRule "Update".data m gns pds s = .ok s1) :
    jsonToRule "Update".data m gns2 pds2 s1 = .ok s1 := by
  have hinv0 : Inv (m.rules.map Prod.fst) s :=
    inv_of_active _ s hwf hact hshaped hpoln hrefs
  rw [jsonToRule_update_eq m gns pds s hmsg.accNe hmsg.cidrNe hmsg.vpcNe
    hmsg.regionNe hrulesNe] at hrun
  unfold addNewRule at hrun
  obtain ⟨hinv1, hkeys1, -, hbound1⟩ :=
    addNewRuleLoop_master m.account m.vpc m.cidr
      ('a' :: (m.account ++ m.vpc)) m.rules m.rules gns pds s s1
      hmsg.accNe hmsg.vpcNe (fun r hr => hr) (wfMsg_rule_facts m hmsg)
      hinv0 hfresh hlen (fun r hr hn => absurd hr hn) hrun
  rw [jsonToRule_update_eq m gns2 pds2 s1 hmsg.accNe hmsg.cidrNe hmsg.vpcNe
    hmsg.regionNe hrulesNe]
  unfold addNewRule
  exact second_run_loop m.account m.vpc m.cidr ('a' :: (m.account ++ m.vpc))
    m.rules m.rules gns2 pds2 s1 hmsg.accNe hmsg.vpcNe (fun r hr => hr)
    (fun r hr => (hmsg.ruleOK r hr).1) hinv1 hkeys1 (hbound1 hrulesNe)

/-! ### Concrete instances for the reconciler theorems -/

set_option maxRecDepth 100000 in
theorem demoMsg_wf : WfMsg demoMsg := by
  refine ⟨by decide, by decide, by decide, by decide, by decide, by decide,
    ?_⟩
  intro r hr
  simp only [demoMsg] at hr
  rw [List.mem_singleton] at hr
  subst hr
  exact ⟨by decide, by decide, "h7".data, by decide, by decide, by decide⟩

theorem demoEmpty_base : WfBase ⟨[], []⟩ :=
  ⟨by simp, by decide, by decide, by decide, by simp⟩

set_option maxRecDepth 100000 in
theorem demoS0_base : WfBase ⟨[demoG0], []⟩ :=
  ⟨by decide, by decide, by decide, by decide, by decide⟩

set_option maxRecDepth 100000 in
theorem demoS0_shaped :
    ∀ t ∈ annot (⟨[demoG0], []⟩ : FwState), RuleNameShape t.2.2 := by
  intro t ht
  have h2 : annot (⟨[demoG0], []⟩ : FwState)
      = [("arn:aws-model:stateful-rulegroup/g0".data,
          "pass tls any any -> any any (sid:9; metadata: rule_name 999-zzz9-aa1;)".data,
          "999-zzz9-aa1".data)] := by decide
  rw [h2, List.mem_singleton] at ht
  subst ht
  exact ⟨"999".data, "zzz9".data, "aa1".data, by decide, by decide,
    by decide, by decide, by decide, by decide, by decide⟩

set_option maxRecDepth 400000 in
theorem c2_amended_witness :
    listSetEq (inScopeNames demoMsg.account demoMsg.vpc demoS1)
      (demoMsg.rules.map Prod.fst) = true :=
  c2_amended demoMsg ["g1".data] [5] ⟨[], []⟩ demoS1 demoMsg_wf
    (by decide) demoEmpty_base (by simp) (by simp [annot]) (by simp)
    (by simp) (by unfold freshSupply; decide) (by decide) (by decide)

set_option maxRecDepth 400000 in
theorem c4_amended_witness :
    "pass tls any any -> any any (sid:9; metadata: rule_name 999-zzz9-aa1;)".data
      ∈ liveLines demoS4 :=
  c4_amended demoMsg ["g1".data] [5] ⟨[demoG0], []⟩ demoS4 demoMsg_wf
    (by decide) demoS0_base (by decide) demoS0_shaped (by simp) (by simp)
    (by unfold freshSupply; decide) (by decide) (by decide)
    "pass tls any any -> any any (sid:9; metadata: rule_name 999-zzz9-aa1;)".data
    "999-zzz9-aa1".data (by decide) (by decide) (by decide)

set_option maxRecDepth 400000 in
theorem c3_idempotent_witness :
    jsonToRule "Update".data demoMsg ["g2".data] [9] demoS1
      = .ok demoS1 :=
  c3_idempotent demoMsg ["g1".data] ["g2".data] [5] [9] ⟨[], []⟩ demoS1
    demoMsg_wf (by decide) demoEmpty_base (by simp) (by simp [annot])
    (by simp) (by simp) (by unfold freshSupply; decide) (by decide)
    (by decide)

end Anfw
